import Mathlib

/-! # async-uring: the single-assignment cell, the deferred handle and the reactor cycle

A shallow embedding of `scheduler.h`, `deferred.h` and the launcher of `asyncio.h`.

* The process-wide `Scheduler` singleton, the heap of `Ivar` cells and the state owned by
  the application are gathered in one record `State`, passed explicitly.
* A `shared_ptr<Ivar<T>>` is the identity `CellId` of a heap cell; a `Deferred<T>` carries
  nothing but that pointer, so a handle is its `CellId`.  Memory is never reclaimed in the
  model (reference counting only decides lifetime, not behaviour).
* `std::function` objects stored in cells and jobs are closures over the heap.  They are
  represented by data (`Cont`, `Producer`) and run by `Cont.call` / `Producer.eval`; the two
  lambdas written in `Deferred::bind` have one constructor each.
* A C++ exception leaves the mutations made before the `throw` in place, so every operation
  that can throw returns a `Result` that keeps the state at the point of the throw.
-/

namespace AsyncUring

/-- Identity of a heap-allocated `Ivar` (the address held by a `shared_ptr`). -/
abbrev CellId := Nat

/-- Values carried by cells.  The core itself instantiates its templates at
`std::monostate` (`ignore`) and at `int32_t` (completion results); `T` stands for the
types chosen by the application. -/
inductive Val (T : Type) : Type
  | mono
  | i32 (res : Int)
  | of (t : T)

/-- The two `throw invalid_argument(...)` sites of the repository. -/
inductive invalid_argument : Type
  | Ivar_is_already_full
  | Deferred_ivar_is_already_full
  deriving DecidableEq

/-- Outcome of an operation that may throw: the state is kept in both cases. -/
inductive Result (σ : Type) : Type
  | ok (s : σ)
  | throw (e : invalid_argument) (s : σ)

/-- State in which the operation stopped, normally or by a throw. -/
def Result.state {σ : Type} : Result σ → σ
  | .ok s => s
  | .throw _ s => s

/-- Apply a function to the state of an outcome. -/
def Result.map {σ τ : Type} (g : σ → τ) : Result σ → Result τ
  | .ok s => .ok (g s)
  | .throw e s => .throw e (g s)

/-- Application code whose value is a `Deferred`: everything a `function<Deferred<R>(T)>`
handed to `bind` can do through the public surface of the repository.  `A` is the state
owned by the application (what its callbacks print or record). -/
inductive Producer (A T : Type) : Type
  /-- The empty constructor, `Deferred<R>{}`. -/
  | empty
  /-- The pre-filled constructor, `Deferred<R>{ v }`. -/
  | prefilled (v : Val T)
  /-- The wrapping constructor, `Deferred<R>{ ptr }`, on the cell behind an existing pointer. -/
  | wrap (c : CellId)
  /-- A copy of a handle already in scope (the implicit copy constructor). -/
  | copy (c : CellId)
  /-- Any public operation of `Asyncio`, all of which are `io_uring_op(...)`. -/
  | launch
  /-- The call `p.bind(f)`. -/
  | bind (p : Producer A T) (f : Val T → Producer A T)
  /-- The call `p.map(g)`. -/
  | map (p : Producer A T) (g : Val T → Val T)
  /-- The call `p.ignore()`. -/
  | ignore (p : Producer A T)
  /-- A side effect on the application state (such as `cout << time(0)`), then `p`. -/
  | effect (h : A → A) (p : Producer A T)

/-- The `function<void(T)>` objects that reach a cell or a job. -/
inductive Cont (A T : Type) : Type
  /-- A callback of the application: it acts on the application state only. -/
  | user (h : Val T → A → A)
  /-- The outer lambda of `bind`:
  `[ret, f](T t) mutable { f(t).upon([ret](R r) mutable { ret.fill(r); }); }`. -/
  | bind_outer (ret : CellId) (f : Val T → Producer A T)
  /-- The inner lambda of `bind`: `[ret](R r) mutable { ret.fill(r); }`. -/
  | bind_inner (ret : CellId)

/-- The class `Ivar<T>`: the optional value and the waiting handlers. -/
structure Ivar (A T : Type) : Type where
  val : Option (Val T)
  handlers : List (Cont A T)

/-- The class `Job<T>`: a function paired with its input. -/
structure Job (A T : Type) : Type where
  f : Cont A T
  a : Val T

/-- The two fields of a completion-queue entry that the reactor reads. -/
structure io_uring_cqe : Type where
  user_data : CellId
  res : Int
  deriving DecidableEq

/-- The `Scheduler` singleton (`jobs`, `pending_deferreds`, the ring), the heap of cells
and the application state.  `sq` lists the user data of the entries handed to the kernel
and not completed yet, `cq` the completions that are ready, in ring order. -/
structure State (A T : Type) : Type where
  jobs : List (Job A T)
  pending_deferreds : Finset CellId
  sq : List CellId
  cq : List io_uring_cqe
  heap : CellId → Ivar A T
  next : CellId
  app : A

/-- State at process start: `Scheduler::get()` has built an empty singleton. -/
def State.init {A T : Type} (a : A) : State A T :=
  { jobs := [], pending_deferreds := ∅, sq := [], cq := [],
    heap := fun _ => { val := none, handlers := [] }, next := 0, app := a }

variable {A T : Type}

/-! ## scheduler.h -/

/-- Member `Ivar<T>::is_full`. -/
def Ivar.is_full (c : CellId) (s : State A T) : Bool :=
  (s.heap c).val.isSome

/-- Member `Ivar<T>::value` (called by the repository on full cells only). -/
def Ivar.value (c : CellId) (s : State A T) : Option (Val T) :=
  (s.heap c).val

/-- Member `Scheduler::enqueue`: `jobs.push_back(make_unique<Job<T>>(f, a))`. -/
def Scheduler.enqueue (f : Cont A T) (a : Val T) (s : State A T) : State A T :=
  { s with jobs := s.jobs ++ [{ f := f, a := a }] }

/-- The call `jobs.pop_front()`. -/
def State.pop_front (s : State A T) : State A T :=
  { s with jobs := s.jobs.tail }

/-- Member `Ivar<T>::fill`. -/
def Ivar.fill (c : CellId) (t : Val T) (s : State A T) : Result (State A T) :=
  if Ivar.is_full c s then
    .throw .Ivar_is_already_full s
  else
    -- val = t;
    let s1 := { s with heap := Function.update s.heap c { s.heap c with val := some t } }
    -- for (auto handler : handlers) scheduler->enqueue(handler, t);
    let s2 := (s1.heap c).handlers.foldl (fun acc handler => Scheduler.enqueue handler t acc) s1
    -- handlers.clear();
    .ok { s2 with heap := Function.update s2.heap c { s2.heap c with handlers := [] } }

/-! ## deferred.h -/

/-- Constructor `Deferred<T>::Deferred()`: a new cell, inserted in the pending set. -/
def Deferred.new_empty (s : State A T) : CellId × State A T :=
  (s.next,
   { s with heap := Function.update s.heap s.next { val := none, handlers := [] },
            next := s.next + 1,
            pending_deferreds := insert s.next s.pending_deferreds })

/-- Constructor `Deferred<T>::Deferred(shared_ptr<Ivar<T>>)`. -/
def Deferred.new_wrapping (wrapped : CellId) (s : State A T) : CellId × State A T :=
  if ! Ivar.is_full wrapped s then
    (wrapped, { s with pending_deferreds := insert wrapped s.pending_deferreds })
  else
    (wrapped, s)

/-- Constructor `Deferred<T>::Deferred(T)`: a new cell built by `Ivar<T>::Ivar(T)`. -/
def Deferred.new_prefilled (v : Val T) (s : State A T) : CellId × State A T :=
  (s.next,
   { s with heap := Function.update s.heap s.next { val := some v, handlers := [] },
            next := s.next + 1 })

/-- Member `Deferred<T>::fill`. -/
def Deferred.fill (wrapped : CellId) (t : Val T) (s : State A T) : Result (State A T) :=
  if Ivar.is_full wrapped s then
    .throw .Deferred_ivar_is_already_full s
  else
    match Ivar.fill wrapped t s with
    | .throw e s1 => .throw e s1
    | .ok s1 => .ok { s1 with pending_deferreds := s1.pending_deferreds.erase wrapped }

/-- Member `Deferred<T>::is_full`. -/
def Deferred.is_full (wrapped : CellId) (s : State A T) : Bool :=
  Ivar.is_full wrapped s

/-- Member `Deferred<T>::upon`. -/
def Deferred.upon (wrapped : CellId) (f : Cont A T) (s : State A T) : State A T :=
  match Ivar.value wrapped s with
  | some v => Scheduler.enqueue f v s
  | none =>
    { s with heap := Function.update s.heap wrapped
                { s.heap wrapped with handlers := (s.heap wrapped).handlers ++ [f] } }

/-- Member `Deferred<T>::bind`. -/
def Deferred.bind (wrapped : CellId) (f : Val T → Producer A T) (s : State A T) :
    CellId × State A T :=
  let r := Deferred.new_empty s
  (r.1, Deferred.upon wrapped (.bind_outer r.1 f) r.2)

/-- Member `Deferred<T>::map`: `bind` of `[f](T t) { return Deferred<R>{ f(t) }; }`. -/
def Deferred.map (wrapped : CellId) (f : Val T → Val T) (s : State A T) :
    CellId × State A T :=
  Deferred.bind wrapped (fun t => Producer.prefilled (f t)) s

/-- Member `Deferred<T>::ignore`: `map` of `[](T t) { return _monostate; }`. -/
def Deferred.ignore (wrapped : CellId) (s : State A T) : CellId × State A T :=
  Deferred.map wrapped (fun _ => Val.mono) s

/-! ## asyncio.h -/

/-- Member `Asyncio::io_uring_op`: a new empty handle whose cell is the user data of one
submission entry, submitted at once.  What the setup function writes into the entry is
invisible to the reactor and is left out; every entry is submitted as soon as it is
taken, so `get_sqe` is taken to find a free entry. -/
def Asyncio.io_uring_op (s : State A T) : CellId × State A T :=
  let r := Deferred.new_empty s
  (r.1, { r.2 with sq := r.2.sq ++ [r.1] })

/-- Kernel side of the ring (not repository code): the submitted entry at position `i`
completes with result `res` and its completion is posted at the tail of the ready
completions. -/
def Kernel.complete (i : Nat) (res : Int) (s : State A T) : State A T :=
  match s.sq.get? i with
  | some c => { s with sq := s.sq.eraseIdx i, cq := s.cq ++ [{ user_data := c, res := res }] }
  | none => s

/-! ## closures -/

/-- Run application code that produces a handle. -/
def Producer.eval : Producer A T → State A T → CellId × State A T
  | .empty, s => Deferred.new_empty s
  | .prefilled v, s => Deferred.new_prefilled v s
  | .wrap c, s => Deferred.new_wrapping c s
  | .copy c, s => (c, s)
  | .launch, s => Asyncio.io_uring_op s
  | .bind p f, s => Deferred.bind (p.eval s).1 f (p.eval s).2
  | .map p g, s => Deferred.map (p.eval s).1 g (p.eval s).2
  | .ignore p, s => Deferred.ignore (p.eval s).1 (p.eval s).2
  | .effect h p, s => p.eval { s with app := h s.app }

/-- Call a stored function object on its argument. -/
def Cont.call : Cont A T → Val T → State A T → Result (State A T)
  | .user h, v, s => .ok { s with app := h v s.app }
  | .bind_outer ret f, t, s =>
    .ok (Deferred.upon ((f t).eval s).1 (.bind_inner ret) ((f t).eval s).2)
  | .bind_inner ret, r, s => Deferred.fill ret r s

/-- Member `Job<T>::run`: `f(a)`. -/
def Job.run (j : Job A T) (s : State A T) : Result (State A T) :=
  j.f.call j.a s

/-! ## the reactor cycle -/

/-- The `for` loop of `do_cycle`: `n` times `jobs.front()->run(); jobs.pop_front();`.
A job that throws is still at the front of the queue.  `front()` of an empty deque is
undefined; the loop never meets it and the model stops there.  The loop counter is an
`int`: queues are taken to be shorter than `2 ^ 31`. -/
def Scheduler.run_jobs : Nat → State A T → Result (State A T)
  | 0, s => .ok s
  | n + 1, s =>
    match s.jobs with
    | [] => .ok s
    | j :: _ =>
      match j.run s with
      | .throw e s1 => .throw e s1
      | .ok s1 => Scheduler.run_jobs n (State.pop_front s1)

/-- The `while` loop of `do_cycle`: `m` times wait for the head completion, mark it seen,
and `d->fill(res)` on the tagged cell, which is `Ivar<int32_t>::fill`.  A wait on a ring
that holds a ready completion returns it; on an empty ring the wait would block and the
model stops there. -/
def Scheduler.drain_cq : Nat → State A T → Result (State A T)
  | 0, s => .ok s
  | m + 1, s =>
    match s.cq with
    | [] => .ok s
    | cqe :: rest =>
      match Ivar.fill cqe.user_data (Val.i32 cqe.res) { s with cq := rest } with
      | .throw e s1 => .throw e s1
      | .ok s1 => Scheduler.drain_cq m s1

/-- Member `Scheduler::do_cycle`.  In the blocking branch the reactor changes nothing itself:
it sleeps in `io_uring_wait_cqe` until the kernel posts a completion (`Kernel.complete`,
a step of its own) and does not consume it. -/
def Scheduler.do_cycle (s : State A T) : Result (State A T) :=
  let jobs_in_this_cycle := s.jobs.length
  let num_cqe_entries_ready := s.cq.length
  if jobs_in_this_cycle = 0 ∧ num_cqe_entries_ready = 0 then
    .ok s
  else
    match Scheduler.run_jobs jobs_in_this_cycle s with
    | .throw e s1 => .throw e s1
    | .ok s1 => Scheduler.drain_cq num_cqe_entries_ready s1

/-- The loop of `run_until_shutdown`, stopped as soon as the job queue is empty: run
cycles until then, at most `fuel` of them; `none` when the queue is still not empty after
`fuel` cycles. -/
def Scheduler.cycles_until_idle : Nat → State A T → Option (Result (State A T))
  | 0, s => if s.jobs.isEmpty then some (.ok s) else none
  | fuel + 1, s =>
    if s.jobs.isEmpty then some (.ok s)
    else
      match Scheduler.do_cycle s with
      | .throw e s1 => some (.throw e s1)
      | .ok s1 => Scheduler.cycles_until_idle fuel s1

/-- Register several continuations on one handle, in order. -/
def Deferred.upon_all (wrapped : CellId) (fs : List (Cont A T)) (s : State A T) : State A T :=
  fs.foldl (fun acc f => Deferred.upon wrapped f acc) s

/-! ## the cycle with the calls to the ring spelled out

`liburing` is not part of the repository.  The two definitions below take what its calls
return as arguments, so that a wait that fails or that blocks can be talked about:
`do_cycle` above is the same cycle when every wait on a ready completion succeeds, with
the blocking wait left to the kernel step. -/

/-- What one call `io_uring_wait_cqe(&ring, &cqe)` in the drain loop returns: 0 with `cqe`
at the head completion, or a negative code. -/
inductive Wait : Type
  | ready
  | failed (ret : Int)

/-- What ends the blocking wait of a cycle that found nothing to do: the kernel completes
the submitted entry at position `i` with result `res` and the wait returns 0, or the wait
returns a negative code. -/
inductive Wake : Type
  | completion (i : Nat) (res : Int)
  | failed (ret : Int)

/-- How a cycle ends at this level: it returned or threw, or it read through the null
pointer. -/
inductive RingResult (σ : Type) : Type
  | finished (r : Result σ)
  | null_dereference (s : σ)

/-- The `while` loop of `do_cycle` with the outcome of each wait given by `ws` (waits
beyond the list succeed).  After a wait that fails the code calls `perror` and goes on
with the same iteration: it reads the tag and the result through `cqe`, marks the entry
seen and fills.  `left` is what the failed wait left in `cqe`: `none` for the null
pointer, which the read dereferences, or an entry, in which case marking it seen advances
the ring by one. -/
def Scheduler.drain_cq_waits (left : Option io_uring_cqe) :
    Nat → List Wait → State A T → RingResult (State A T)
  | 0, _, s => .finished (.ok s)
  | m + 1, ws, s =>
    match ws.head?.getD Wait.ready with
    | .ready =>
      match s.cq with
      | [] => .finished (.ok s)
      | cqe :: rest =>
        match Ivar.fill cqe.user_data (Val.i32 cqe.res) { s with cq := rest } with
        | .throw e s1 => .finished (.throw e s1)
        | .ok s1 => Scheduler.drain_cq_waits left m ws.tail s1
    | .failed _ =>
      match left with
      | none => .null_dereference s
      | some cqe =>
        match Ivar.fill cqe.user_data (Val.i32 cqe.res) { s with cq := s.cq.tail } with
        | .throw e s1 => .finished (.throw e s1)
        | .ok s1 => Scheduler.drain_cq_waits left m ws.tail s1

/-- Member `Scheduler::do_cycle` with the calls to the ring spelled out.  In the blocking
branch the wait returns when the kernel has posted a completion, which stays in the ring,
or with a negative code, which is only passed to `perror`. -/
def Scheduler.do_cycle_ring (left : Option io_uring_cqe) (wake : Wake) (ws : List Wait)
    (s : State A T) : RingResult (State A T) :=
  let jobs_in_this_cycle := s.jobs.length
  let num_cqe_entries_ready := s.cq.length
  if jobs_in_this_cycle = 0 ∧ num_cqe_entries_ready = 0 then
    match wake with
    | .completion i res => .finished (.ok (Kernel.complete i res s))
    | .failed _ => .finished (.ok s)
  else
    match Scheduler.run_jobs jobs_in_this_cycle s with
    | .throw e s1 => .finished (.throw e s1)
    | .ok s1 => Scheduler.drain_cq_waits left num_cqe_entries_ready ws s1

/-! ## sequences of operations -/

/-- One step of a run: a call made by the application between two cycles, one reactor
cycle, or the kernel completing a submitted entry. -/
inductive Op (A T : Type) : Type
  /-- Application code that builds a handle: the three constructors, the launcher, and
  `bind` / `map` / `ignore` on any handle. -/
  | produce (p : Producer A T)
  /-- The call `d.fill(v)`. -/
  | fill (d : CellId) (v : Val T)
  /-- The call `d.upon(f)`. -/
  | upon (d : CellId) (f : Cont A T)
  /-- One iteration of `run_until_shutdown`. -/
  | do_cycle
  /-- The kernel completes the submitted entry at position `i` with result `res`. -/
  | complete (i : Nat) (res : Int)

/-- State after one step.  A throw is caught by the caller and the run goes on from the
state the throw left behind. -/
def Op.apply : Op A T → State A T → State A T
  | .produce p, s => (p.eval s).2
  | .fill d v, s => (Deferred.fill d v s).state
  | .upon d f, s => Deferred.upon d f s
  | .do_cycle, s => (Scheduler.do_cycle s).state
  | .complete i res, s => Kernel.complete i res s

/-- State after a sequence of steps. -/
def run_ops (ops : List (Op A T)) (s : State A T) : State A T :=
  ops.foldl (fun acc op => op.apply acc) s

/-- States the program can be in: those a sequence of steps reaches from process start. -/
def Reachable (s : State A T) : Prop :=
  ∃ (a : A) (ops : List (Op A T)), s = run_ops ops (State.init a)

/-! ## the cycle as the specification words it -/

/-- The jobs `q` put back in front of the queue. -/
def State.requeue (q : List (Job A T)) (s : State A T) : State A T :=
  { s with jobs := q ++ s.jobs }

/-- Run each job of a given list once, in list order.  The list is not the queue: jobs
enqueued meanwhile go to the queue of the state and are never looked at here.  A job that
throws stops the cycle; it and the jobs behind it are still owed and are put back. -/
def Spec.run_each : List (Job A T) → State A T → Result (State A T)
  | [], s => .ok s
  | j :: js, s =>
    match j.run s with
    | .throw e s1 => .throw e (State.requeue (j :: js) s1)
    | .ok s1 => Spec.run_each js s1

/-- Route each completion of a given list once, in list order: fill the tagged cell with
the signed result.  A fill that throws stops the cycle; the completions behind it stay
in the ring. -/
def Spec.route_each : List io_uring_cqe → State A T → Result (State A T)
  | [], s => .ok s
  | cqe :: rest, s =>
    match Ivar.fill cqe.user_data (Val.i32 cqe.res) s with
    | .throw e s1 => .throw e { s1 with cq := rest }
    | .ok s1 => Spec.route_each rest s1

/-- One cycle in the words of the specification: snapshot the `N` queued jobs and the
`M` ready completions, take them out, run the `N` jobs in order, then route the `M`
completions in order.  The queue starts the cycle empty, so at the end it holds exactly
the jobs enqueued during the cycle, in enqueue order. -/
def Spec.cycle (s : State A T) : Result (State A T) :=
  match Spec.run_each s.jobs { s with jobs := [] } with
  | .throw e s1 => .throw e s1
  | .ok s1 => Spec.route_each s.cq { s1 with cq := [] }

/-- Continuations that fill no cell themselves: application callbacks and the outer
lambda of `bind`. -/
def Cont.benign : Cont A T → Prop
  | .user _ => True
  | .bind_outer _ _ => True
  | .bind_inner _ => False

/-- Relation between a state and a later one, kept by every call and cycle: cells are
only ever added, and a value once stored is still stored. -/
def Grows (s t : State A T) : Prop :=
  s.next ≤ t.next ∧ ∀ c, c < s.next → ∀ v, (s.heap c).val = some v → (t.heap c).val = some v

/-- Relation kept by every call made while jobs run: `Grows`, and the ready completions
are not touched. -/
def Extends (s t : State A T) : Prop :=
  s.next ≤ t.next ∧ t.cq = s.cq ∧
    ∀ c, c < s.next → ∀ v, (s.heap c).val = some v → (t.heap c).val = some v

/-- Relation kept by code that fills no cell: cells are only added, the ready completions
are not touched, and every existing cell has the value, or the lack of one, it had. -/
def Quiet (s t : State A T) : Prop :=
  s.next ≤ t.next ∧ t.cq = s.cq ∧ ∀ c, c < s.next → (t.heap c).val = (s.heap c).val

/-- A property of states that every primitive change keeps: allocating a cell with
nothing waiting, changing the pending set, the ring or the application state, popping the
queue, `upon`, and `Ivar::fill` whether it returns or throws. -/
def Stable (P : State A T → Prop) : Prop :=
  (∀ s o, P s → P { s with heap := Function.update s.heap s.next { val := o, handlers := [] },
                           next := s.next + 1 }) ∧
  (∀ s p, P s → P { s with pending_deferreds := p }) ∧
  (∀ s x, P s → P { s with sq := x }) ∧
  (∀ s x, P s → P { s with cq := x }) ∧
  (∀ s a, P s → P { s with app := a }) ∧
  (∀ s, P s → P (State.pop_front s)) ∧
  (∀ c k s, P s → P (Deferred.upon c k s)) ∧
  (∀ c v s, P s → P (Ivar.fill c v s).state)

/-! ## the life of a `bind` -/

/-- The cell a stored function object works towards filling: the result `ret` captured
by the two lambdas of `bind`; none for a callback of the application. -/
def Cont.target : Cont A T → Option CellId
  | .user _ => none
  | .bind_outer ret _ => some ret
  | .bind_inner ret => some ret

/-- The queued jobs that work towards filling `e`, in queue order. -/
def State.job_tokens (e : CellId) (s : State A T) : List (Job A T) :=
  s.jobs.filter (fun j => decide (j.f.target = some e))

/-- The handlers waiting on `c` that work towards filling `e`, in registration order. -/
def State.handler_tokens (e c : CellId) (s : State A T) : List (Cont A T) :=
  (s.heap c).handlers.filter (fun k => decide (k.target = some e))

/-- Where `e = d.bind(f)` stands.  At any time at most one stored function object works
towards filling `e`, and its place tells how far the bind has come. -/
inductive LinkStage (d e : CellId) (f : Val T → Producer A T) (s : State A T) : Prop
  /-- The source is unfilled and the outer lambda waits on it: `f` has not been applied. -/
  | waiting (hd : (s.heap d).val = none) (he : (s.heap e).val = none)
      (hj : s.job_tokens e = [])
      (hw : s.handler_tokens e d = [.bind_outer e f])
      (ho : ∀ c, c ≠ d → s.handler_tokens e c = [])
  /-- The source holds `t` and the outer lambda is queued with `t`: `f` has not been
  applied yet. -/
  | ready (t : Val T) (hd : (s.heap d).val = some t) (he : (s.heap e).val = none)
      (hj : s.job_tokens e = [{ f := .bind_outer e f, a := t }])
      (ho : ∀ c, s.handler_tokens e c = [])
  /-- The function has been applied and the inner lambda waits on the handle `c` it
  returned. -/
  | applied (c : CellId) (hd : (s.heap d).val ≠ none) (he : (s.heap e).val = none)
      (hj : s.job_tokens e = [])
      (hw : s.handler_tokens e c = [.bind_inner e])
      (ho : ∀ c2, c2 ≠ c → s.handler_tokens e c2 = [])
  /-- The handle that `f` returned holds `r` and the inner lambda is queued with `r`. -/
  | resolving (r : Val T) (hd : (s.heap d).val ≠ none) (he : (s.heap e).val = none)
      (hj : s.job_tokens e = [{ f := .bind_inner e, a := r }])
      (ho : ∀ c, s.handler_tokens e c = [])
  /-- Nothing works towards `e` any more: the inner lambda has filled it, or it waited on
  a cell that was never allocated and is lost. -/
  | settled (hd : (s.heap d).val ≠ none)
      (hj : s.job_tokens e = [])
      (ho : ∀ c, s.handler_tokens e c = [])

/-- The link `e = d.bind(f)` in a state: both cells are allocated, no ring entry is tagged
with `e`, and the bind is at one of its stages. -/
structure Linked (d e : CellId) (f : Val T → Producer A T) (s : State A T) : Prop where
  source_lt : d < s.next
  result_lt : e < s.next
  not_submitted : ∀ x ∈ s.sq, x ≠ e
  not_completed : ∀ q ∈ s.cq, q.user_data ≠ e
  stage : LinkStage d e f s

/-- Nothing in the state refers to the cell `e`: no stored function object works towards
filling it and no ring entry is tagged with it. -/
structure Fresh (e : CellId) (s : State A T) : Prop where
  no_job : s.job_tokens e = []
  no_handler : ∀ c, s.handler_tokens e c = []
  not_submitted : ∀ x ∈ s.sq, x ≠ e
  not_completed : ∀ q ∈ s.cq, q.user_data ≠ e

/-- A step that leaves the filling of `e` to the bind it belongs to: it is not `fill` on
`e` and it does not register a function object that works towards filling `e`. -/
def Op.avoids (e : CellId) : Op A T → Prop
  | .fill d _ => d ≠ e
  | .upon _ k => k.target ≠ some e
  | _ => True

/-- Relation between a state and a later one reached by code that neither fills a cell
nor touches what works towards filling `e`: cells are only added and keep their values,
the ready completions are the same, new submissions are tagged with new cells, and the
function objects working towards `e` are where they were (those waiting on a cell that
was never allocated may be lost when the cell is allocated). -/
structure Neutral (e : CellId) (s t : State A T) : Prop where
  next_le : s.next ≤ t.next
  val_eq : ∀ c, c < s.next → (t.heap c).val = (s.heap c).val
  cq_eq : t.cq = s.cq
  sq_new : ∀ x ∈ t.sq, x ∈ s.sq ∨ (s.next ≤ x ∧ x < t.next)
  jobs_eq : t.job_tokens e = s.job_tokens e
  handlers_eq : ∀ c, c < s.next → t.handler_tokens e c = s.handler_tokens e c
  handlers_lost : ∀ c, t.handler_tokens e c = s.handler_tokens e c ∨ t.handler_tokens e c = []

/-- The chain `d.bind(f1).bind(f2)...`: the last handle and the state. -/
def Deferred.bind_chain (d : CellId) :
    List (Val T → Producer A T) → State A T → CellId × State A T
  | [], s => (d, s)
  | f :: fs, s => Deferred.bind_chain (Deferred.bind d f s).1 fs (Deferred.bind d f s).2

/-- The links `(source, result, function)` of the chain built from the source `d` when
the next cell to be allocated is `e`. -/
def chain_links (d e : CellId) :
    List (Val T → Producer A T) → List (CellId × CellId × (Val T → Producer A T))
  | [] => []
  | f :: fs => (d, e, f) :: chain_links e (e + 1) fs

/-- Where `e = d.bind(f)` stands, with its history: before the function is applied as in
`LinkStage`; afterwards the value `v` of the source it was applied to, the state `u` in
which it was applied and the handle `((f v).eval u).1` it returned, on which the inner
lambda waits until it is filled with some `r`, is then queued with `r`, and at last has
filled `e` with `r`.  With `past` set only the stages after the application are meant. -/
inductive BindStage (past : Bool) (d e : CellId) (f : Val T → Producer A T)
    (s : State A T) : Prop
  /-- The source is unfilled and the outer lambda waits on it. -/
  | waiting (hp : past = false) (hd : (s.heap d).val = none) (he : (s.heap e).val = none)
      (hj : s.job_tokens e = [])
      (hw : s.handler_tokens e d = [.bind_outer e f])
      (ho : ∀ c, c ≠ d → s.handler_tokens e c = [])
  /-- The source holds `v` and the outer lambda is queued with `v`. -/
  | ready (hp : past = false) (v : Val T) (hd : (s.heap d).val = some v)
      (he : (s.heap e).val = none)
      (hj : s.job_tokens e = [{ f := .bind_outer e f, a := v }])
      (ho : ∀ c, s.handler_tokens e c = [])
  /-- The function was applied to `v` in `u`; the handle it returned is unfilled and the
  inner lambda waits on it. -/
  | applied (v : Val T) (u : State A T) (hd : (s.heap d).val = some v)
      (hu : Grows ((f v).eval u).2 s) (hc : ((f v).eval u).1 < ((f v).eval u).2.next)
      (hi : (s.heap ((f v).eval u).1).val = none) (he : (s.heap e).val = none)
      (hj : s.job_tokens e = [])
      (hw : s.handler_tokens e ((f v).eval u).1 = [.bind_inner e])
      (ho : ∀ c, c ≠ ((f v).eval u).1 → s.handler_tokens e c = [])
  /-- The handle that was returned holds `r` and the inner lambda is queued with `r`. -/
  | resolving (v : Val T) (u : State A T) (r : Val T) (hd : (s.heap d).val = some v)
      (hu : Grows ((f v).eval u).2 s) (hc : ((f v).eval u).1 < ((f v).eval u).2.next)
      (hi : (s.heap ((f v).eval u).1).val = some r) (he : (s.heap e).val = none)
      (hj : s.job_tokens e = [{ f := .bind_inner e, a := r }])
      (ho : ∀ c, s.handler_tokens e c = [])
  /-- The inner lambda has filled `e` with the value `r` of the handle that was returned;
  nothing works towards `e` any more. -/
  | resolved (v : Val T) (u : State A T) (r : Val T) (hd : (s.heap d).val = some v)
      (hu : Grows ((f v).eval u).2 s) (hc : ((f v).eval u).1 < ((f v).eval u).2.next)
      (hi : (s.heap ((f v).eval u).1).val = some r) (he : (s.heap e).val = some r)
      (hj : s.job_tokens e = [])
      (ho : ∀ c, s.handler_tokens e c = [])

/-- The bind `e = d.bind(f)` in a state: both cells are allocated, no ring entry is tagged
with `e`, and the bind is at one of its stages. -/
structure Bound (past : Bool) (d e : CellId) (f : Val T → Producer A T)
    (s : State A T) : Prop where
  source_lt : d < s.next
  result_lt : e < s.next
  not_submitted : ∀ x ∈ s.sq, x ≠ e
  not_completed : ∀ q ∈ s.cq, q.user_data ≠ e
  stage : BindStage past d e f s

/-- The function `f` hands out handles to allocated cells only, as every handle in the
program is (a `Deferred` always wraps a cell): whenever it is applied in a state in which
`e` is allocated, the cell behind the handle it returns is allocated. -/
def returns_allocated (e : CellId) (f : Val T → Producer A T) : Prop :=
  ∀ v (u : State A T), e < u.next → ((f v).eval u).1 < ((f v).eval u).2.next

/-! ## sample application code -/

/-- The callback `[](uint32_t x) { record(x * 2); }` on a list of recorded values. -/
def record_double : Val Nat → List Nat → List Nat
  | .of x, log => log ++ [(x * 2) % 2 ^ 32]
  | _, log => log

/-- The pure function `x * 2` on `uint32_t`. -/
def double_val : Val Nat → Val Nat
  | .of x => .of ((x * 2) % 2 ^ 32)
  | v => v

/-- The function `[](uint32_t x) { return Deferred<uint32_t>(x * 2); }` of `simple_math`. -/
def double_prefilled (v : Val Nat) : Producer (List Nat) Nat :=
  .prefilled (double_val v)

/-- The callback `[](uint32_t x) { record(x); }`: the stand-in for the `cout` line of
`simple_math`. -/
def record_value : Val Nat → List Nat → List Nat
  | .of x, log => log ++ [x]
  | _, log => log

/-- The line `cout << time(0) << endl;` on a log of printed lines: one more line.  The
clock is not part of the program; the line is recorded as 0. -/
def print_time (log : List Nat) : List Nat :=
  log ++ [0]

/-- The function `print_time_and_sleep` of `main.cpp`: print the time, then
`Asyncio::sleep`, which is `io_uring_op(...).ignore()`. -/
def print_time_and_sleep : Producer (List Nat) Nat :=
  .effect print_time (.ignore .launch)

/-- The function `print_some_times` of `main.cpp`: three sleeps chained with `bind`, and a
callback on the end of the chain that prints the time. -/
def print_some_times (s : State (List Nat) Nat) : State (List Nat) Nat :=
  let d := print_time_and_sleep.eval s
  let c := Deferred.bind_chain d.1
    [fun _ => print_time_and_sleep, fun _ => print_time_and_sleep] d.2
  Deferred.upon c.1 (.user (fun _ => print_time)) c.2

/-! ## effect of the primitive operations -/

theorem foldl_enqueue (t : Val T) (hs : List (Cont A T)) (s : State A T) :
    hs.foldl (fun acc handler => Scheduler.enqueue handler t acc) s
      = { s with jobs := s.jobs ++ hs.map (fun h => { f := h, a := t }) } := by
  induction hs generalizing s with
  | nil => simp
  | cons h hs ih =>
    rw [List.foldl_cons, ih]
    simp [Scheduler.enqueue]

theorem ivar_fill_of_empty (c : CellId) (t : Val T) (s : State A T)
    (h : (s.heap c).val = none) :
    Ivar.fill c t s = .ok { s with
      heap := Function.update s.heap c { val := some t, handlers := [] },
      jobs := s.jobs ++ (s.heap c).handlers.map (fun k => { f := k, a := t }) } := by
  simp [Ivar.fill, Ivar.is_full, h, foldl_enqueue]

theorem ivar_fill_of_full (c : CellId) (t v : Val T) (s : State A T)
    (h : (s.heap c).val = some v) :
    Ivar.fill c t s = .throw .Ivar_is_already_full s := by
  simp [Ivar.fill, Ivar.is_full, h]

theorem deferred_fill_of_empty (c : CellId) (t : Val T) (s : State A T)
    (h : (s.heap c).val = none) :
    Deferred.fill c t s = .ok { s with
      heap := Function.update s.heap c { val := some t, handlers := [] },
      jobs := s.jobs ++ (s.heap c).handlers.map (fun k => { f := k, a := t }),
      pending_deferreds := s.pending_deferreds.erase c } := by
  simp [Deferred.fill, Ivar.is_full, h, ivar_fill_of_empty]

theorem deferred_fill_of_full (c : CellId) (t v : Val T) (s : State A T)
    (h : (s.heap c).val = some v) :
    Deferred.fill c t s = .throw .Deferred_ivar_is_already_full s := by
  simp [Deferred.fill, Ivar.is_full, h]

theorem Deferred.upon_of_empty (c : CellId) (f : Cont A T) (s : State A T)
    (h : (s.heap c).val = none) :
    Deferred.upon c f s = { s with
      heap := Function.update s.heap c { val := none, handlers := (s.heap c).handlers ++ [f] } } := by
  simp [Deferred.upon, Ivar.value, h]

theorem Deferred.upon_of_full (c : CellId) (f : Cont A T) (v : Val T) (s : State A T)
    (h : (s.heap c).val = some v) :
    Deferred.upon c f s = { s with jobs := s.jobs ++ [{ f := f, a := v }] } := by
  simp [Deferred.upon, Ivar.value, h, Scheduler.enqueue]

theorem Deferred.upon_all_of_empty (c : CellId) (fs : List (Cont A T)) (s : State A T)
    (h : (s.heap c).val = none) :
    Deferred.upon_all c fs s = { s with
      heap := Function.update s.heap c { val := none, handlers := (s.heap c).handlers ++ fs } } := by
  induction fs generalizing s with
  | nil =>
    cases hc : s.heap c with
    | mk v hs =>
      rw [hc] at h
      simp only at h
      subst h
      simp [Deferred.upon_all, ← hc]
  | cons f fs ih =>
    have h1 : ((Deferred.upon c f s).heap c).val = none := by
      simp [Deferred.upon_of_empty c f s h]
    have := ih (Deferred.upon c f s) h1
    simp only [Deferred.upon_all, List.foldl] at this ⊢
    rw [this, Deferred.upon_of_empty c f s h]
    simp

theorem Deferred.upon_all_of_full (c : CellId) (fs : List (Cont A T)) (v : Val T)
    (s : State A T) (h : (s.heap c).val = some v) :
    Deferred.upon_all c fs s
      = { s with jobs := s.jobs ++ fs.map (fun k => { f := k, a := v }) } := by
  induction fs generalizing s with
  | nil => simp [Deferred.upon_all]
  | cons f fs ih =>
    have h1 : ((Deferred.upon c f s).heap c).val = some v := by
      simp [Deferred.upon_of_full c f v s h, h]
    have := ih (Deferred.upon c f s) h1
    simp only [Deferred.upon_all, List.foldl] at this ⊢
    rw [this, Deferred.upon_of_full c f v s h]
    simp

/-! ## the job loop on application callbacks -/

theorem Scheduler.do_cycle_eq (s : State A T) :
    Scheduler.do_cycle s =
      match Scheduler.run_jobs s.jobs.length s with
      | .throw e s1 => .throw e s1
      | .ok s1 => Scheduler.drain_cq s.cq.length s1 := by
  unfold Scheduler.do_cycle
  by_cases h : s.jobs.length = 0 ∧ s.cq.length = 0
  · rw [if_pos h, h.1, h.2]
    rfl
  · rw [if_neg h]

theorem Scheduler.do_cycle_of_run_jobs (s t : State A T) (hq : s.cq = [])
    (h : Scheduler.run_jobs s.jobs.length s = .ok t) :
    Scheduler.do_cycle s = .ok t := by
  rw [Scheduler.do_cycle_eq, h]
  simp [hq, Scheduler.drain_cq]

theorem Scheduler.run_jobs_user (v : Val T) (hs : List (Val T → A → A))
    (rest : List (Job A T)) (s : State A T)
    (h : s.jobs = hs.map (fun k => { f := Cont.user k, a := v }) ++ rest) :
    Scheduler.run_jobs hs.length s
      = .ok { s with jobs := rest, app := hs.foldl (fun a k => k v a) s.app } := by
  induction hs generalizing s with
  | nil =>
    simp only [List.map_nil, List.nil_append] at h
    simp [Scheduler.run_jobs, ← h]
  | cons k hs ih =>
    simp only [List.map_cons, List.cons_append] at h
    simp only [List.length_cons, Scheduler.run_jobs, h, Job.run, Cont.call, State.pop_front,
      List.tail_cons]
    rw [ih _ rfl]
    simp

theorem succ_succ_ne (n : Nat) : n + 1 + 1 ≠ n := by omega

theorem cycles_until_idle_done (n : Nat) (s : State A T) (h : s.jobs = []) :
    Scheduler.cycles_until_idle n s = some (.ok s) := by
  cases n <;> simp [Scheduler.cycles_until_idle, h]

theorem cycles_until_idle_step (n : Nat) (s t : State A T) (j : Job A T)
    (js : List (Job A T)) (h : s.jobs = j :: js) (hc : Scheduler.do_cycle s = .ok t) :
    Scheduler.cycles_until_idle (n + 1) s = Scheduler.cycles_until_idle n t := by
  simp [Scheduler.cycles_until_idle, h, hc]

theorem cycles_until_idle_user (v : Val T) (hs : List (Val T → A → A)) (s : State A T)
    (hq : s.cq = []) (h : s.jobs = hs.map (fun k => { f := Cont.user k, a := v })) :
    Scheduler.cycles_until_idle 1 s
      = some (.ok { s with jobs := [], app := hs.foldl (fun a k => k v a) s.app }) := by
  cases hs with
  | nil =>
    simp only [List.map_nil] at h
    rw [cycles_until_idle_done 1 s h]
    simp [← h]
  | cons k ks =>
    have hr := Scheduler.run_jobs_user v (k :: ks) [] s (by simpa using h)
    have hlen : s.jobs.length = (k :: ks).length := by simp [h]
    rw [← hlen] at hr
    rw [cycles_until_idle_step 0 s _ _ _ (by simpa using h)
      (Scheduler.do_cycle_of_run_jobs s _ hq hr)]
    exact cycles_until_idle_done 0 _ rfl

theorem cycle_user (s : State A T) (k : Val T → A → A) (x : Val T) (hq : s.cq = [])
    (hj : s.jobs = [{ f := .user k, a := x }]) :
    Scheduler.do_cycle s = .ok { s with jobs := [], app := k x s.app } := by
  have hr := Scheduler.run_jobs_user x [k] [] s (by simpa using hj)
  have hlen : s.jobs.length = [k].length := by simp [hj]
  rw [← hlen] at hr
  exact Scheduler.do_cycle_of_run_jobs s _ hq hr

/-! ## C6, C2, C1 -/

/-- C6: `upon(f)` never calls `f` inline.  On a full cell holding `v` it appends the one
job `(f, v)` to the tail of the job queue and changes nothing else; on an empty cell it
appends `f` to the tail of the waiting handlers of that cell and changes nothing else
(stored value, job queue, pending set, ring and application state stay as they were). -/
theorem C6_upon_enqueues_or_waits (d : CellId) (f : Cont A T) (s : State A T) :
    (∀ v, (s.heap d).val = some v →
        Deferred.upon d f s = { s with jobs := s.jobs ++ [{ f := f, a := v }] }) ∧
    ((s.heap d).val = none →
        Deferred.upon d f s = { s with
          heap := Function.update s.heap d
            { val := (s.heap d).val, handlers := (s.heap d).handlers ++ [f] } }) := by
  constructor
  · intro v h
    exact Deferred.upon_of_full d f v s h
  · intro h
    rw [Deferred.upon_of_empty d f s h, h]

/-- Witness of C6: on a pre-filled handle holding 7, `upon` queues one job and the
recorded list stays empty. -/
theorem C6_upon_enqueues_or_waits_witness :
    let s : State (List Nat) Nat := (Deferred.new_prefilled (.of 7) (State.init [])).2
    (s.heap 0).val = some (.of 7) ∧
    Deferred.upon 0 (.user record_double) s
      = { s with jobs := s.jobs ++ [{ f := .user record_double, a := .of 7 }] } :=
  ⟨rfl, (C6_upon_enqueues_or_waits 0 (.user record_double)
    (Deferred.new_prefilled (.of 7) (State.init [])).2).1 (.of 7) rfl⟩

/-- C2: `fill` on a handle whose cell is already full throws `invalid_argument` and
leaves the whole state as it was (stored value, waiting handlers, job queue, pending set);
the same holds for `Ivar::fill`.  Conversely a `fill` that throws was called on a full
cell. -/
theorem C2_fill_full_throws_unchanged (d : CellId) (w : Val T) (s : State A T) :
    (∀ v, (s.heap d).val = some v →
        Deferred.fill d w s = .throw .Deferred_ivar_is_already_full s ∧
        Ivar.fill d w s = .throw .Ivar_is_already_full s) ∧
    (∀ e s1, Deferred.fill d w s = .throw e s1 → Deferred.is_full d s = true) ∧
    (∀ e s1, Ivar.fill d w s = .throw e s1 → Ivar.is_full d s = true) := by
  refine ⟨fun v h => ⟨deferred_fill_of_full d w v s h, ivar_fill_of_full d w v s h⟩, ?_, ?_⟩
  · intro e s1 h
    cases hv : (s.heap d).val with
    | some v => simp [Deferred.is_full, Ivar.is_full, hv]
    | none => rw [deferred_fill_of_empty d w s hv] at h; cases h
  · intro e s1 h
    cases hv : (s.heap d).val with
    | some v => simp [Ivar.is_full, hv]
    | none => rw [ivar_fill_of_empty d w s hv] at h; cases h

/-- Witness of C2: a second `fill` on a pre-filled handle throws and changes nothing. -/
theorem C2_fill_full_throws_unchanged_witness :
    let s : State (List Nat) Nat := (Deferred.new_prefilled (.of 7) (State.init [])).2
    (s.heap 0).val = some (.of 7) ∧
    Deferred.fill 0 (.of 8) s = .throw .Deferred_ivar_is_already_full s ∧
    Ivar.fill 0 (.of 8) s = .throw .Ivar_is_already_full s :=
  ⟨rfl, (C2_fill_full_throws_unchanged 0 (.of 8)
    (Deferred.new_prefilled (.of 7) (State.init [])).2).1 (.of 7) rfl⟩

/-- C1: on a fresh empty handle `d` of an idle reactor, with callbacks `before`
registered by `upon` before `fill(v)` and callbacks `after` registered after it: the
`fill` succeeds and makes `is_full()` true, no callback has run yet, the job queue holds
one job per callback, each paired with `v`, in registration order, and running cycles
until the queue is empty (one cycle, none when there is no callback) calls every callback
exactly once on `v` in that order: the application state is the left fold of the
callbacks at `v`. -/
theorem C1_fill_delivers_in_order (s : State A T) (v : Val T)
    (before after : List (Val T → A → A)) (hj : s.jobs = []) (hq : s.cq = []) :
    ∃ s2, Deferred.fill (Deferred.new_empty s).1 v
            (Deferred.upon_all (Deferred.new_empty s).1 (before.map Cont.user)
              (Deferred.new_empty s).2) = .ok s2 ∧
      Deferred.is_full (Deferred.new_empty s).1 s2 = true ∧
      (s2.heap (Deferred.new_empty s).1).val = some v ∧
      (Deferred.upon_all (Deferred.new_empty s).1 (after.map Cont.user) s2).jobs
        = (before ++ after).map (fun k => { f := Cont.user k, a := v }) ∧
      (Deferred.upon_all (Deferred.new_empty s).1 (after.map Cont.user) s2).app = s.app ∧
      ∃ s4, Scheduler.cycles_until_idle 1
              (Deferred.upon_all (Deferred.new_empty s).1 (after.map Cont.user) s2)
                = some (.ok s4) ∧
        s4.jobs = [] ∧
        s4.app = (before ++ after).foldl (fun a k => k v a) s.app := by
  have h1 : ((Deferred.upon_all (Deferred.new_empty s).1 (before.map Cont.user)
      (Deferred.new_empty s).2).heap (Deferred.new_empty s).1).val = none := by
    rw [Deferred.upon_all_of_empty _ _ _ (by simp [Deferred.new_empty])]
    simp [Deferred.new_empty]
  rw [deferred_fill_of_empty _ _ _ h1]
  refine ⟨_, rfl, ?_, ?_, ?_⟩
  · simp [Deferred.is_full, Ivar.is_full]
  · simp
  · rw [Deferred.upon_all_of_full _ _ v _ (by simp)]
    rw [Deferred.upon_all_of_empty _ _ _ (by simp [Deferred.new_empty])]
    refine ⟨?_, ?_, ?_⟩
    · simp [Deferred.new_empty, hj, Function.comp_def]
    · simp [Deferred.new_empty]
    · rw [cycles_until_idle_user v (before ++ after) _ (by simp [Deferred.new_empty, hq])
        (by simp [Deferred.new_empty, hj, Function.comp_def])]
      exact ⟨_, rfl, rfl, by simp [Deferred.new_empty]⟩

/-- Witness of C1, the scenario of the specification: `upon(x => record(x * 2))`,
`fill(7)`, one cycle; the recorded list is `[14]`. -/
theorem C1_fill_delivers_in_order_witness :
    (State.init [] : State (List Nat) Nat).jobs = [] ∧
    (State.init [] : State (List Nat) Nat).cq = [] ∧
    ∃ s2, Deferred.fill 0 (.of 7)
        (Deferred.upon 0 (.user record_double) (Deferred.new_empty (State.init [])).2)
          = .ok s2 ∧
      Deferred.is_full 0 s2 = true ∧
      ∃ s4, Scheduler.cycles_until_idle 1 s2 = some (.ok s4) ∧ s4.jobs = [] ∧
        s4.app = [14] := by
  refine ⟨rfl, rfl, ?_⟩
  obtain ⟨s2, h2, hf, _, _, _, s4, h4, hj, ha⟩ :=
    C1_fill_delivers_in_order (State.init ([] : List Nat)) (Val.of 7) [record_double] []
      rfl rfl
  exact ⟨s2, h2, hf, s4, h4, hj, ha⟩

/-! ## no call looks at the jobs already queued -/

theorem requeue_nil (s : State A T) : State.requeue [] s = s := by
  simp [State.requeue]

theorem requeue_heap (q : List (Job A T)) (s : State A T) :
    (State.requeue q s).heap = s.heap := rfl

theorem deferred_fill_requeue (q : List (Job A T)) (c : CellId) (t : Val T) (s : State A T) :
    Deferred.fill c t (State.requeue q s) = (Deferred.fill c t s).map (State.requeue q) := by
  cases hv : (s.heap c).val with
  | none =>
    rw [deferred_fill_of_empty c t s hv,
      deferred_fill_of_empty c t _ (by rw [requeue_heap]; exact hv)]
    simp [Result.map, State.requeue]
  | some v =>
    rw [deferred_fill_of_full c t v s hv,
      deferred_fill_of_full c t v _ (by rw [requeue_heap]; exact hv)]
    rfl

theorem upon_requeue (q : List (Job A T)) (c : CellId) (f : Cont A T) (s : State A T) :
    Deferred.upon c f (State.requeue q s) = State.requeue q (Deferred.upon c f s) := by
  cases hv : (s.heap c).val with
  | none =>
    rw [Deferred.upon_of_empty c f s hv,
      Deferred.upon_of_empty c f _ (by rw [requeue_heap]; exact hv)]
    simp [State.requeue]
  | some v =>
    rw [Deferred.upon_of_full c f v s hv,
      Deferred.upon_of_full c f v _ (by rw [requeue_heap]; exact hv)]
    simp [State.requeue]

theorem new_empty_requeue (q : List (Job A T)) (s : State A T) :
    Deferred.new_empty (State.requeue q s)
      = ((Deferred.new_empty s).1, State.requeue q (Deferred.new_empty s).2) := by
  simp [Deferred.new_empty, State.requeue]

theorem new_prefilled_requeue (q : List (Job A T)) (v : Val T) (s : State A T) :
    Deferred.new_prefilled v (State.requeue q s)
      = ((Deferred.new_prefilled v s).1, State.requeue q (Deferred.new_prefilled v s).2) := by
  simp [Deferred.new_prefilled, State.requeue]

theorem new_wrapping_requeue (q : List (Job A T)) (c : CellId) (s : State A T) :
    Deferred.new_wrapping c (State.requeue q s)
      = ((Deferred.new_wrapping c s).1, State.requeue q (Deferred.new_wrapping c s).2) := by
  unfold Deferred.new_wrapping
  have : Ivar.is_full c (State.requeue q s) = Ivar.is_full c s := rfl
  rw [this]
  cases Ivar.is_full c s <;> simp [State.requeue]

theorem bind_requeue (q : List (Job A T)) (c : CellId) (f : Val T → Producer A T)
    (s : State A T) :
    Deferred.bind c f (State.requeue q s)
      = ((Deferred.bind c f s).1, State.requeue q (Deferred.bind c f s).2) := by
  simp only [Deferred.bind, new_empty_requeue, upon_requeue]

theorem io_uring_op_requeue (q : List (Job A T)) (s : State A T) :
    Asyncio.io_uring_op (State.requeue q s)
      = ((Asyncio.io_uring_op s).1, State.requeue q (Asyncio.io_uring_op s).2) := by
  simp [Asyncio.io_uring_op, Deferred.new_empty, State.requeue]

theorem eval_requeue (q : List (Job A T)) (p : Producer A T) (s : State A T) :
    p.eval (State.requeue q s) = ((p.eval s).1, State.requeue q (p.eval s).2) := by
  induction p generalizing s with
  | empty => exact new_empty_requeue q s
  | prefilled v => exact new_prefilled_requeue q v s
  | wrap c => exact new_wrapping_requeue q c s
  | copy c => rfl
  | launch => exact io_uring_op_requeue q s
  | bind p f ihp _ => simp only [Producer.eval, ihp, bind_requeue]
  | map p g ihp => simp only [Producer.eval, Deferred.map, ihp, bind_requeue]
  | ignore p ihp => simp only [Producer.eval, Deferred.ignore, Deferred.map, ihp, bind_requeue]
  | effect h p ihp =>
    simp only [Producer.eval]
    exact ihp { s with app := h s.app }

theorem call_requeue (q : List (Job A T)) (f : Cont A T) (v : Val T) (s : State A T) :
    f.call v (State.requeue q s) = (f.call v s).map (State.requeue q) := by
  cases f with
  | user h => simp [Cont.call, Result.map, State.requeue]
  | bind_outer ret f => simp only [Cont.call, eval_requeue, upon_requeue, Result.map]
  | bind_inner ret => simp only [Cont.call, deferred_fill_requeue]

theorem run_requeue (q : List (Job A T)) (j : Job A T) (s : State A T) :
    j.run (State.requeue q s) = (j.run s).map (State.requeue q) :=
  call_requeue q j.f j.a s

/-- Running a job changes the queue only by appending to it. -/
theorem run_jobs_append (j : Job A T) (s : State A T) :
    ∃ new, (j.run s).state.jobs = s.jobs ++ new := by
  have h := run_requeue s.jobs j { s with jobs := [] }
  have hs : State.requeue s.jobs { s with jobs := [] } = s := by simp [State.requeue]
  rw [hs] at h
  rw [h]
  cases j.run { s with jobs := [] } with
  | ok s1 => exact ⟨s1.jobs, rfl⟩
  | throw e s1 => exact ⟨s1.jobs, rfl⟩

theorem run_jobs_requeue (js : List (Job A T)) (s : State A T) :
    Scheduler.run_jobs js.length (State.requeue js s) = Spec.run_each js s := by
  induction js generalizing s with
  | nil => simp [Scheduler.run_jobs, Spec.run_each, requeue_nil]
  | cons j js ih =>
    have hq : (State.requeue (j :: js) s).jobs = j :: (js ++ s.jobs) := rfl
    simp only [List.length_cons, Scheduler.run_jobs, hq, Spec.run_each, run_requeue]
    cases j.run s with
    | throw e s1 => rfl
    | ok s1 =>
      simp only [Result.map]
      have : State.pop_front (State.requeue (j :: js) s1) = State.requeue js s1 := rfl
      rw [this, ih]

/-! ## what no call undoes -/

theorem quiet_refl (s : State A T) : Quiet s s :=
  ⟨Nat.le_refl _, rfl, fun _ _ => rfl⟩

theorem quiet_trans {s t u : State A T} (h1 : Quiet s t) (h2 : Quiet t u) : Quiet s u :=
  ⟨Nat.le_trans h1.1 h2.1, h2.2.1.trans h1.2.1,
    fun c hc => (h2.2.2 c (Nat.lt_of_lt_of_le hc h1.1)).trans (h1.2.2 c hc)⟩

theorem extends_refl (s : State A T) : Extends s s :=
  ⟨Nat.le_refl _, rfl, fun _ _ _ h => h⟩

theorem extends_trans {s t u : State A T} (h1 : Extends s t) (h2 : Extends t u) :
    Extends s u :=
  ⟨Nat.le_trans h1.1 h2.1, h2.2.1.trans h1.2.1,
    fun c hc v hv => h2.2.2 c (Nat.lt_of_lt_of_le hc h1.1) v (h1.2.2 c hc v hv)⟩

theorem grows_refl (s : State A T) : Grows s s :=
  ⟨Nat.le_refl _, fun _ _ _ h => h⟩

theorem grows_trans {s t u : State A T} (h1 : Grows s t) (h2 : Grows t u) : Grows s u :=
  ⟨Nat.le_trans h1.1 h2.1,
    fun c hc v hv => h2.2 c (Nat.lt_of_lt_of_le hc h1.1) v (h1.2 c hc v hv)⟩

theorem Quiet.to_extends {s t : State A T} (h : Quiet s t) : Extends s t :=
  ⟨h.1, h.2.1, fun c hc v hv => by rw [h.2.2 c hc]; exact hv⟩

theorem Extends.to_grows {s t : State A T} (h : Extends s t) : Grows s t :=
  ⟨h.1, h.2.2⟩

theorem new_empty_quiet (s : State A T) : Quiet s (Deferred.new_empty s).2 := by
  refine ⟨Nat.le_succ _, rfl, fun c hc => ?_⟩
  simp [Deferred.new_empty, Function.update_noteq (Nat.ne_of_lt hc)]

theorem new_prefilled_quiet (v : Val T) (s : State A T) :
    Quiet s (Deferred.new_prefilled v s).2 := by
  refine ⟨Nat.le_succ _, rfl, fun c hc => ?_⟩
  simp [Deferred.new_prefilled, Function.update_noteq (Nat.ne_of_lt hc)]

theorem new_wrapping_quiet (c : CellId) (s : State A T) :
    Quiet s (Deferred.new_wrapping c s).2 := by
  unfold Deferred.new_wrapping
  cases Ivar.is_full c s
  · exact ⟨Nat.le_refl _, rfl, fun _ _ => rfl⟩
  · exact quiet_refl s

theorem upon_quiet (c : CellId) (f : Cont A T) (s : State A T) :
    Quiet s (Deferred.upon c f s) := by
  cases hv : (s.heap c).val with
  | none =>
    rw [Deferred.upon_of_empty c f s hv]
    refine ⟨Nat.le_refl _, rfl, fun d _ => ?_⟩
    by_cases hd : d = c
    · subst hd; simp [hv]
    · simp [Function.update_noteq hd]
  | some v =>
    rw [Deferred.upon_of_full c f v s hv]
    exact ⟨Nat.le_refl _, rfl, fun _ _ => rfl⟩

theorem bind_quiet (c : CellId) (f : Val T → Producer A T) (s : State A T) :
    Quiet s (Deferred.bind c f s).2 :=
  quiet_trans (new_empty_quiet s) (upon_quiet _ _ _)

theorem io_uring_op_quiet (s : State A T) : Quiet s (Asyncio.io_uring_op s).2 := by
  have h := new_empty_quiet s
  exact ⟨h.1, h.2.1, h.2.2⟩

theorem eval_quiet (p : Producer A T) (s : State A T) : Quiet s (p.eval s).2 := by
  induction p generalizing s with
  | empty => exact new_empty_quiet s
  | prefilled v => exact new_prefilled_quiet v s
  | wrap c => exact new_wrapping_quiet c s
  | copy c => exact quiet_refl s
  | launch => exact io_uring_op_quiet s
  | bind p f ihp _ => exact quiet_trans (ihp s) (bind_quiet _ _ _)
  | map p g ihp => exact quiet_trans (ihp s) (bind_quiet _ _ _)
  | ignore p ihp => exact quiet_trans (ihp s) (bind_quiet _ _ _)
  | effect h p ihp =>
    have := ihp { s with app := h s.app }
    exact ⟨this.1, this.2.1, this.2.2⟩

theorem call_benign_quiet (f : Cont A T) (hf : f.benign) (v : Val T) (s : State A T) :
    ∃ t, f.call v s = .ok t ∧ Quiet s t := by
  cases f with
  | user h => exact ⟨_, rfl, Nat.le_refl _, rfl, fun _ _ => rfl⟩
  | bind_outer ret f => exact ⟨_, rfl, quiet_trans (eval_quiet _ s) (upon_quiet _ _ _)⟩
  | bind_inner ret => exact absurd hf (by simp [Cont.benign])

theorem ivar_fill_extends (c : CellId) (t : Val T) (s : State A T) :
    Extends s (Ivar.fill c t s).state := by
  cases hv : (s.heap c).val with
  | none =>
    rw [ivar_fill_of_empty c t s hv]
    refine ⟨Nat.le_refl _, rfl, fun d _ w hw => ?_⟩
    have hd : d ≠ c := by
      rintro rfl
      rw [hv] at hw
      cases hw
    simpa [Result.state, Function.update_noteq hd] using hw
  | some v =>
    rw [ivar_fill_of_full c t v s hv]
    exact extends_refl s

theorem deferred_fill_extends (c : CellId) (t : Val T) (s : State A T) :
    Extends s (Deferred.fill c t s).state := by
  cases hv : (s.heap c).val with
  | none =>
    rw [deferred_fill_of_empty c t s hv]
    refine ⟨Nat.le_refl _, rfl, fun d _ w hw => ?_⟩
    have hd : d ≠ c := by
      rintro rfl
      rw [hv] at hw
      cases hw
    simpa [Result.state, Function.update_noteq hd] using hw
  | some v =>
    rw [deferred_fill_of_full c t v s hv]
    exact extends_refl s

theorem call_extends (f : Cont A T) (v : Val T) (s : State A T) :
    Extends s (f.call v s).state := by
  cases f with
  | user h => exact ⟨Nat.le_refl _, rfl, fun _ _ _ hw => hw⟩
  | bind_outer ret f =>
    exact (quiet_trans (eval_quiet _ s) (upon_quiet _ _ _)).to_extends
  | bind_inner ret => exact deferred_fill_extends ret v s

theorem run_jobs_extends (n : Nat) (s : State A T) :
    Extends s (Scheduler.run_jobs n s).state := by
  induction n generalizing s with
  | zero => exact extends_refl s
  | succ n ih =>
    cases hj : s.jobs with
    | nil =>
      simp only [Scheduler.run_jobs, hj]
      exact extends_refl s
    | cons j js =>
      simp only [Scheduler.run_jobs, hj]
      have hc := call_extends j.f j.a s
      cases hr : j.run s with
      | throw e s1 =>
        rw [Job.run] at hr
        rw [hr] at hc
        exact hc
      | ok s1 =>
        rw [Job.run] at hr
        rw [hr] at hc
        have h2 := ih (State.pop_front s1)
        exact extends_trans hc ⟨h2.1, h2.2.1, h2.2.2⟩

theorem drain_cq_grows (m : Nat) (s : State A T) :
    Grows s (Scheduler.drain_cq m s).state := by
  induction m generalizing s with
  | zero => exact grows_refl s
  | succ m ih =>
    cases hq : s.cq with
    | nil =>
      simp only [Scheduler.drain_cq, hq]
      exact grows_refl s
    | cons cqe rest =>
      simp only [Scheduler.drain_cq, hq]
      have hf := (ivar_fill_extends cqe.user_data (Val.i32 cqe.res)
        { s with cq := rest }).to_grows
      have h0 : Grows s { s with cq := rest } := ⟨Nat.le_refl _, fun _ _ _ hw => hw⟩
      cases hr : Ivar.fill cqe.user_data (Val.i32 cqe.res) { s with cq := rest } with
      | throw e s1 =>
        rw [hr] at hf
        exact grows_trans h0 hf
      | ok s1 =>
        rw [hr] at hf
        exact grows_trans h0 (grows_trans hf (ih s1))

theorem do_cycle_grows (s : State A T) : Grows s (Scheduler.do_cycle s).state := by
  rw [Scheduler.do_cycle_eq]
  have h1 := (run_jobs_extends s.jobs.length s).to_grows
  cases hr : Scheduler.run_jobs s.jobs.length s with
  | throw e s1 =>
    rw [hr] at h1
    exact h1
  | ok s1 =>
    rw [hr] at h1
    exact grows_trans h1 (drain_cq_grows _ s1)

theorem complete_grows (i : Nat) (res : Int) (s : State A T) :
    Grows s (Kernel.complete i res s) := by
  unfold Kernel.complete
  cases s.sq.get? i with
  | none => exact grows_refl s
  | some c => exact ⟨Nat.le_refl _, fun _ _ _ hw => hw⟩

theorem op_apply_grows (op : Op A T) (s : State A T) : Grows s (op.apply s) := by
  cases op with
  | produce p => exact (eval_quiet p s).to_extends.to_grows
  | fill d v => exact (deferred_fill_extends d v s).to_grows
  | upon d f => exact (upon_quiet d f s).to_extends.to_grows
  | do_cycle => exact do_cycle_grows s
  | complete i res => exact complete_grows i res s

theorem run_ops_grows (ops : List (Op A T)) (s : State A T) : Grows s (run_ops ops s) := by
  induction ops generalizing s with
  | nil => exact grows_refl s
  | cons op ops ih =>
    exact grows_trans (op_apply_grows op s) (ih (op.apply s))

/-! ## the cycle against its specification -/

theorem ivar_fill_cq (x : List io_uring_cqe) (c : CellId) (t : Val T) (s : State A T) :
    Ivar.fill c t { s with cq := x } = (Ivar.fill c t s).map (fun u => { u with cq := x }) := by
  cases hv : (s.heap c).val with
  | none =>
    rw [ivar_fill_of_empty c t s hv, ivar_fill_of_empty c t _ (by simpa using hv)]
    rfl
  | some v =>
    rw [ivar_fill_of_full c t v s hv, ivar_fill_of_full c t v _ (by simpa using hv)]
    rfl

theorem drain_cq_route (cs : List io_uring_cqe) (s : State A T) :
    Scheduler.drain_cq cs.length { s with cq := cs }
      = Spec.route_each cs { s with cq := [] } := by
  induction cs generalizing s with
  | nil => simp [Scheduler.drain_cq, Spec.route_each]
  | cons c cs ih =>
    simp only [List.length_cons, Scheduler.drain_cq, Spec.route_each, ivar_fill_cq]
    cases Ivar.fill c.user_data (Val.i32 c.res) s with
    | throw e s1 => rfl
    | ok s1 =>
      simp only [Result.map]
      exact ih s1

theorem do_cycle_spec (s : State A T) : Scheduler.do_cycle s = Spec.cycle s := by
  rw [Scheduler.do_cycle_eq]
  unfold Spec.cycle
  have h := run_jobs_requeue s.jobs { s with jobs := [] }
  have hs : State.requeue s.jobs { s with jobs := [] } = s := by simp [State.requeue]
  rw [hs] at h
  have hx := run_jobs_extends s.jobs.length s
  rw [h] at hx
  rw [h]
  cases hr : Spec.run_each s.jobs { s with jobs := [] } with
  | throw e s1 => rfl
  | ok s1 =>
    rw [hr] at hx
    have hcq : s1.cq = s.cq := hx.2.1
    have := drain_cq_route s.cq s1
    rw [← hcq] at this ⊢
    exact this

/-! ## what the combinators add to the queue -/

theorem upon_jobs (c : CellId) (f : Cont A T) (s : State A T) :
    ∃ new, (Deferred.upon c f s).jobs = s.jobs ++ new ∧ ∀ j ∈ new, j.f = f := by
  cases hv : (s.heap c).val with
  | none =>
    rw [Deferred.upon_of_empty c f s hv]
    exact ⟨[], by simp, by simp⟩
  | some v =>
    rw [Deferred.upon_of_full c f v s hv]
    exact ⟨[{ f := f, a := v }], rfl, by simp⟩

theorem bind_jobs (c : CellId) (f : Val T → Producer A T) (s : State A T) :
    ∃ new, (Deferred.bind c f s).2.jobs = s.jobs ++ new ∧ ∀ j ∈ new, j.f.benign := by
  obtain ⟨new, h1, h2⟩ := upon_jobs c (.bind_outer (Deferred.new_empty s).1 f)
    (Deferred.new_empty s).2
  refine ⟨new, h1, fun j hj => ?_⟩
  rw [h2 j hj]
  trivial

theorem eval_jobs (p : Producer A T) (s : State A T) :
    ∃ new, (p.eval s).2.jobs = s.jobs ++ new ∧ ∀ j ∈ new, j.f.benign := by
  induction p generalizing s with
  | empty => exact ⟨[], by simp [Producer.eval, Deferred.new_empty], by simp⟩
  | prefilled v => exact ⟨[], by simp [Producer.eval, Deferred.new_prefilled], by simp⟩
  | wrap c =>
    refine ⟨[], ?_, by simp⟩
    simp only [Producer.eval, Deferred.new_wrapping]
    cases Ivar.is_full c s <;> simp
  | copy c => exact ⟨[], by simp [Producer.eval], by simp⟩
  | launch =>
    exact ⟨[], by simp [Producer.eval, Asyncio.io_uring_op, Deferred.new_empty], by simp⟩
  | bind p f ihp _ =>
    obtain ⟨n1, h1, b1⟩ := ihp s
    obtain ⟨n2, h2, b2⟩ := bind_jobs (p.eval s).1 f (p.eval s).2
    refine ⟨n1 ++ n2, ?_, ?_⟩
    · simp only [Producer.eval]
      rw [h2, h1, List.append_assoc]
    · intro j hj
      rcases List.mem_append.mp hj with h | h
      · exact b1 j h
      · exact b2 j h
  | map p g ihp =>
    obtain ⟨n1, h1, b1⟩ := ihp s
    obtain ⟨n2, h2, b2⟩ := bind_jobs (p.eval s).1 (fun t => Producer.prefilled (g t))
      (p.eval s).2
    refine ⟨n1 ++ n2, ?_, ?_⟩
    · simp only [Producer.eval, Deferred.map]
      rw [h2, h1, List.append_assoc]
    · intro j hj
      rcases List.mem_append.mp hj with h | h
      · exact b1 j h
      · exact b2 j h
  | ignore p ihp =>
    obtain ⟨n1, h1, b1⟩ := ihp s
    obtain ⟨n2, h2, b2⟩ := bind_jobs (p.eval s).1
      (fun t => Producer.prefilled ((fun _ => Val.mono) t)) (p.eval s).2
    refine ⟨n1 ++ n2, ?_, ?_⟩
    · simp only [Producer.eval, Deferred.ignore, Deferred.map]
      rw [h2, h1, List.append_assoc]
    · intro j hj
      rcases List.mem_append.mp hj with h | h
      · exact b1 j h
      · exact b2 j h
  | effect h p ihp =>
    obtain ⟨n1, h1, b1⟩ := ihp { s with app := h s.app }
    exact ⟨n1, h1, b1⟩

theorem run_jobs_nil (n : Nat) (s : State A T) (h : s.jobs = []) :
    Scheduler.run_jobs n s = .ok s := by
  cases n with
  | zero => rfl
  | succ n => simp [Scheduler.run_jobs, h]

theorem run_jobs_add (n m : Nat) (s : State A T) :
    Scheduler.run_jobs (n + m) s =
      match Scheduler.run_jobs n s with
      | .throw e s1 => .throw e s1
      | .ok s1 => Scheduler.run_jobs m s1 := by
  induction n generalizing s with
  | zero => simp [Scheduler.run_jobs]
  | succ n ih =>
    rw [Nat.add_right_comm]
    cases hj : s.jobs with
    | nil =>
      simp only [Scheduler.run_jobs, hj]
      rw [run_jobs_nil m s hj]
    | cons j js =>
      simp only [Scheduler.run_jobs, hj]
      cases hr : j.run s with
      | throw e s1 => rfl
      | ok s1 => simp only [ih]

/-- One cycle on application callbacks followed by the outer lambda of a `bind` whose
function returns a pre-filled handle: the callbacks run, the handle is built, and the
inner lambda is queued for the next cycle. -/
theorem cycle_bind_outer_prefilled (s : State A T) (us : List (Val T → A → A)) (e : CellId)
    (f : Val T → Producer A T) (x y : Val T) (hq : s.cq = [])
    (hj : s.jobs = us.map (fun k => { f := Cont.user k, a := x })
            ++ [{ f := .bind_outer e f, a := x }])
    (hf : f x = .prefilled y) :
    Scheduler.do_cycle s = .ok { s with
      jobs := [{ f := .bind_inner e, a := y }],
      app := us.foldl (fun a k => k x a) s.app,
      heap := Function.update s.heap s.next { val := some y, handlers := [] },
      next := s.next + 1 } := by
  have hlen : s.jobs.length = us.length + 1 := by simp [hj]
  refine Scheduler.do_cycle_of_run_jobs s _ hq ?_
  rw [hlen, run_jobs_add, Scheduler.run_jobs_user x us _ s hj]
  simp only [Scheduler.run_jobs, Job.run, Cont.call, hf, Producer.eval, Deferred.new_prefilled]
  rw [Deferred.upon_of_full _ _ y _ (by simp)]
  simp [State.pop_front]

/-- One cycle on the inner lambda of `bind` for an empty cell: the cell is filled, its
waiting handlers are queued with the value, and it leaves the pending set. -/
theorem cycle_bind_inner (s : State A T) (e : CellId) (y : Val T) (hs : List (Cont A T))
    (hq : s.cq = []) (hj : s.jobs = [{ f := .bind_inner e, a := y }])
    (he : s.heap e = { val := none, handlers := hs }) :
    Scheduler.do_cycle s = .ok { s with
      jobs := hs.map (fun k => { f := k, a := y }),
      heap := Function.update s.heap e { val := some y, handlers := [] },
      pending_deferreds := s.pending_deferreds.erase e } := by
  have hlen : s.jobs.length = 1 := by simp [hj]
  refine Scheduler.do_cycle_of_run_jobs s _ hq ?_
  rw [hlen]
  simp only [Scheduler.run_jobs, hj, Job.run, Cont.call,
    deferred_fill_of_empty e y s (by rw [he])]
  simp [State.pop_front, he]

theorem upon_next (c : CellId) (f : Cont A T) (s : State A T) :
    (Deferred.upon c f s).next = s.next := by
  cases hv : (s.heap c).val with
  | none => rw [Deferred.upon_of_empty c f s hv]
  | some v => rw [Deferred.upon_of_full c f v s hv]

/-! ## C8 -/

theorem route_each_fills (cs : List io_uring_cqe) (s : State A T)
    (hnd : (cs.map io_uring_cqe.user_data).Nodup)
    (he : ∀ c ∈ cs, (s.heap c.user_data).val = none) :
    ∃ t, Spec.route_each cs s = .ok t ∧ t.cq = s.cq ∧ t.app = s.app ∧
      t.pending_deferreds = s.pending_deferreds ∧ t.next = s.next ∧ t.sq = s.sq ∧
      t.jobs = s.jobs ++ cs.flatMap (fun c =>
        (s.heap c.user_data).handlers.map (fun k => { f := k, a := Val.i32 c.res })) ∧
      (∀ c ∈ cs, t.heap c.user_data = { val := some (Val.i32 c.res), handlers := [] }) ∧
      (∀ d, (∀ c ∈ cs, c.user_data ≠ d) → t.heap d = s.heap d) := by
  induction cs generalizing s with
  | nil => exact ⟨s, rfl, rfl, rfl, rfl, rfl, rfl, by simp, by simp, fun _ _ => rfl⟩
  | cons c cs ih =>
    have hc : (s.heap c.user_data).val = none := he c (List.mem_cons_self _ _)
    simp only [List.map_cons, List.nodup_cons, List.mem_map, not_exists, not_and] at hnd
    have hne : ∀ c2 ∈ cs, c2.user_data ≠ c.user_data := fun c2 h2 => hnd.1 c2 h2
    simp only [Spec.route_each, ivar_fill_of_empty _ _ _ hc]
    obtain ⟨t, ht, h1, h2, h3, h4, h5, h6, h7, h8⟩ := ih
      { s with
        heap := Function.update s.heap c.user_data { val := some (Val.i32 c.res), handlers := [] },
        jobs := s.jobs ++ (s.heap c.user_data).handlers.map
          (fun k => { f := k, a := Val.i32 c.res }) }
      hnd.2 (fun c2 h2 => by
        simp only [Function.update_noteq (hne c2 h2)]
        exact he c2 (List.mem_cons_of_mem _ h2))
    refine ⟨t, ht, h1, h2, h3, h4, h5, ?_, ?_, ?_⟩
    · rw [h6]
      simp only [List.flatMap_cons, List.append_assoc]
      congr 2
      apply List.flatMap_congr
      intro c2 h2
      simp only [Function.update_noteq (hne c2 h2)]
    · intro c2 h2
      rcases List.mem_cons.mp h2 with rfl | h2
      · rw [h8 _ (fun c3 h3 => hne c3 h3)]
        simp
      · exact h7 c2 h2
    · intro d hd
      rw [h8 d (fun c2 h2 => hd c2 (List.mem_cons_of_mem _ h2))]
      simp only [Function.update_noteq (hd c (List.mem_cons_self _ _)).symm]

/-- C8: in a cycle whose jobs have run (ending in state `t1`) and whose `M` ready
completions tag distinct cells that are unfilled at that point, the cycle returns
normally whatever the sign of the results, consumes all `M` completions, and fills each
tagged cell with the signed result of its completion, unchanged.  The handlers waiting on
each cell are queued, in ring order, each paired with that result as an ordinary value.
Nothing else changes: other cells, the pending set, the submissions and the application
state are those of `t1`. -/
theorem C8_completions_fill_tagged_cells (s t1 : State A T)
    (hrun : Scheduler.run_jobs s.jobs.length s = .ok t1)
    (hnd : (s.cq.map io_uring_cqe.user_data).Nodup)
    (he : ∀ c ∈ s.cq, (t1.heap c.user_data).val = none) :
    ∃ t, Scheduler.do_cycle s = .ok t ∧ t.cq = [] ∧
      (∀ c ∈ s.cq, t.heap c.user_data = { val := some (Val.i32 c.res), handlers := [] }) ∧
      (∀ d, (∀ c ∈ s.cq, c.user_data ≠ d) → t.heap d = t1.heap d) ∧
      t.jobs = t1.jobs ++ s.cq.flatMap (fun c =>
        (t1.heap c.user_data).handlers.map (fun k => { f := k, a := Val.i32 c.res })) ∧
      t.app = t1.app ∧ t.pending_deferreds = t1.pending_deferreds ∧ t.next = t1.next ∧
      t.sq = t1.sq := by
  have hx := run_jobs_extends s.jobs.length s
  rw [hrun] at hx
  have hcq : t1.cq = s.cq := hx.2.1
  obtain ⟨t, ht, h1, h2, h3, h4, h5, h6, h7, h8⟩ :=
    route_each_fills s.cq { t1 with cq := [] } hnd he
  refine ⟨t, ?_, h1, h7, h8, h6, h2, h3, h4, h5⟩
  rw [Scheduler.do_cycle_eq, hrun]
  have hd := drain_cq_route s.cq t1
  have e : ({ t1 with cq := s.cq } : State A T) = t1 := by rw [← hcq]
  rw [e] at hd
  show Scheduler.drain_cq s.cq.length t1 = .ok t
  rw [hd]
  exact ht

/-- Witness of C8: one launched operation completes with the negative result -5 while a
callback waits on its handle; the cycle fills the cell with -5 and queues the callback
with -5. -/
theorem C8_completions_fill_tagged_cells_witness :
    let s : State (List Nat) Nat :=
      Kernel.complete 0 (-5)
        (Deferred.upon 0 (.user record_value) (Asyncio.io_uring_op (State.init [])).2)
    Scheduler.run_jobs s.jobs.length s = .ok s ∧
    (s.cq.map io_uring_cqe.user_data).Nodup ∧
    (∀ c ∈ s.cq, (s.heap c.user_data).val = none) ∧
    ∃ t, Scheduler.do_cycle s = .ok t ∧ t.cq = [] ∧
      t.heap 0 = { val := some (Val.i32 (-5)), handlers := [] } ∧
      t.jobs = [{ f := .user record_value, a := Val.i32 (-5) }] := by
  intro s
  have h1 : Scheduler.run_jobs s.jobs.length s = .ok s := rfl
  have h2 : (s.cq.map io_uring_cqe.user_data).Nodup := by decide
  have h3 : ∀ c ∈ s.cq, (s.heap c.user_data).val = none := by
    intro c hc
    have : c = { user_data := 0, res := -5 } := by simpa [s, Kernel.complete,
      Deferred.upon, Ivar.value, Asyncio.io_uring_op, Deferred.new_empty, State.init] using hc
    subst this
    rfl
  obtain ⟨t, ht, hq, hfill, _, hj, _⟩ := C8_completions_fill_tagged_cells s s h1 h2 h3
  exact ⟨h1, h2, h3, t, ht, hq, hfill { user_data := 0, res := -5 } (by decide), hj⟩

/-! ## C7 -/

theorem two_fills_in_one_cycle (s : State A T) (d1 d2 : CellId) (k1 k2 : Val T → A → A)
    (v1 v2 : Val T) (hne : d1 ≠ d2)
    (h1 : s.heap d1 = { val := none, handlers := [.user k1] })
    (h2 : s.heap d2 = { val := none, handlers := [.user k2] })
    (hj : s.jobs = [{ f := .bind_inner d1, a := v1 }, { f := .bind_inner d2, a := v2 }])
    (hq : s.cq = []) :
    ∃ t, Scheduler.do_cycle s = .ok t ∧ t.app = s.app ∧
      t.jobs = [{ f := .user k1, a := v1 }, { f := .user k2, a := v2 }] ∧
      (t.heap d1).val = some v1 ∧ (t.heap d2).val = some v2 ∧
      ∃ u, Scheduler.do_cycle t = .ok u ∧ u.app = k2 v2 (k1 v1 s.app) ∧ u.jobs = [] := by
  obtain ⟨jobs, pend, sq, cq, heap, next, app⟩ := s
  simp only at h1 h2 hj hq
  subst hj hq
  have hc1 : Scheduler.do_cycle
      ({ jobs := [{ f := .bind_inner d1, a := v1 }, { f := .bind_inner d2, a := v2 }],
         pending_deferreds := pend, sq := sq, cq := [], heap := heap, next := next,
         app := app } : State A T)
      = .ok { jobs := [{ f := .user k1, a := v1 }, { f := .user k2, a := v2 }],
              pending_deferreds := (pend.erase d1).erase d2, sq := sq, cq := [],
              heap := Function.update
                (Function.update heap d1 { val := some v1, handlers := [] })
                d2 { val := some v2, handlers := [] },
              next := next, app := app } := by
    refine Scheduler.do_cycle_of_run_jobs _ _ rfl ?_
    simp only [List.length_cons, List.length_nil, Scheduler.run_jobs, Job.run, Cont.call]
    rw [deferred_fill_of_empty d1 v1 _ (by simp [h1])]
    simp only [State.pop_front, List.cons_append, List.tail_cons, Scheduler.run_jobs, Job.run,
      Cont.call]
    rw [deferred_fill_of_empty d2 v2 _ (by simp [Function.update_noteq hne.symm, h2])]
    simp [State.pop_front, h1, h2, Function.update_noteq hne.symm]
  have hc2 : Scheduler.do_cycle
      ({ jobs := [{ f := .user k1, a := v1 }, { f := .user k2, a := v2 }],
         pending_deferreds := (pend.erase d1).erase d2, sq := sq, cq := [],
         heap := Function.update
           (Function.update heap d1 { val := some v1, handlers := [] })
           d2 { val := some v2, handlers := [] },
         next := next, app := app } : State A T)
      = .ok { jobs := [], pending_deferreds := (pend.erase d1).erase d2, sq := sq, cq := [],
              heap := Function.update
                (Function.update heap d1 { val := some v1, handlers := [] })
                d2 { val := some v2, handlers := [] },
              next := next, app := k2 v2 (k1 v1 app) } := by
    refine Scheduler.do_cycle_of_run_jobs _ _ rfl ?_
    simp [Scheduler.run_jobs, Job.run, Cont.call, State.pop_front]
  refine ⟨_, hc1, rfl, rfl, ?_, ?_, _, hc2, rfl, rfl⟩
  · simp [Function.update_noteq hne]
  · simp

/-- C7: every cycle is the cycle of the specification: it runs exactly the `N` jobs that
were queued at its start, each once and in queue order, then routes the `M` completions
that were ready at its start; the jobs enqueued meanwhile (by a running job, by a fill
made inside a job, by a completion fill) are not run, and at the end of a cycle that
returns normally the queue holds exactly those, in enqueue order.  In particular, when
the two jobs of a cycle fill two empty cells that each have one callback waiting, no
callback runs in that cycle (the application state is unchanged and both callbacks are
queued, in fill order); they run in the next cycle. -/
theorem C7_cycle_runs_snapshot (s : State A T) :
    Scheduler.do_cycle s = Spec.cycle s ∧
    ∀ (d1 d2 : CellId) (k1 k2 : Val T → A → A) (v1 v2 : Val T), d1 ≠ d2 →
      s.heap d1 = { val := none, handlers := [.user k1] } →
      s.heap d2 = { val := none, handlers := [.user k2] } →
      s.jobs = [{ f := .bind_inner d1, a := v1 }, { f := .bind_inner d2, a := v2 }] →
      s.cq = [] →
      ∃ t, Scheduler.do_cycle s = .ok t ∧ t.app = s.app ∧
        t.jobs = [{ f := .user k1, a := v1 }, { f := .user k2, a := v2 }] ∧
        (t.heap d1).val = some v1 ∧ (t.heap d2).val = some v2 ∧
        ∃ u, Scheduler.do_cycle t = .ok u ∧ u.app = k2 v2 (k1 v1 s.app) ∧ u.jobs = [] :=
  ⟨do_cycle_spec s, fun d1 d2 k1 k2 v1 v2 hne h1 h2 hj hq =>
    two_fills_in_one_cycle s d1 d2 k1 k2 v1 v2 hne h1 h2 hj hq⟩

/-- The state of the witness of C7: two empty handles with one callback each, and two
queued jobs that fill them with 1 and 2. -/
theorem C7_cycle_runs_snapshot_witness :
    ∃ s : State (List Nat) Nat,
      s = Scheduler.enqueue (.bind_inner 1) (.of 2)
            (Scheduler.enqueue (.bind_inner 0) (.of 1)
              (Deferred.upon 1 (.user record_double)
                (Deferred.new_empty
                  (Deferred.upon 0 (.user record_value)
                    (Deferred.new_empty (State.init [])).2)).2)) ∧
      (0 : CellId) ≠ 1 ∧
      s.heap 0 = { val := none, handlers := [.user record_value] } ∧
      s.heap 1 = { val := none, handlers := [.user record_double] } ∧
      s.jobs = [{ f := .bind_inner 0, a := .of 1 }, { f := .bind_inner 1, a := .of 2 }] ∧
      s.cq = [] ∧
      ∃ t, Scheduler.do_cycle s = .ok t ∧ t.app = [] ∧
        ∃ u, Scheduler.do_cycle t = .ok u ∧ u.app = [1, 4] ∧ u.jobs = [] := by
  refine ⟨_, rfl, by decide, rfl, rfl, rfl, rfl, ?_⟩
  obtain ⟨t, ht, ha, _, _, _, u, hu, hua, huj⟩ :=
    (C7_cycle_runs_snapshot
      (Scheduler.enqueue (.bind_inner 1) (.of 2)
        (Scheduler.enqueue (.bind_inner 0) (.of 1)
          (Deferred.upon 1 (.user record_double)
            (Deferred.new_empty
              (Deferred.upon 0 (.user record_value)
                (Deferred.new_empty (State.init ([] : List Nat))).2)).2)))).2
      0 1 record_value record_double (.of 1) (.of 2) (by decide) rfl rfl rfl rfl
  exact ⟨t, ht, ha, u, hu, hua, huj⟩

/-! ## C9 -/

/-- C9, evaluated at the failing input: launch one operation, let the kernel complete it
with result 0, run one cycle.  The state is reachable, the cell is full with the result,
and it is still a member of the pending set; a cell filled through `Deferred::fill`
instead leaves the set. -/
theorem C9_completion_fill_keeps_pending_entry :
    Reachable (run_ops [.produce .launch, .complete 0 0, .do_cycle]
      (State.init () : State Unit Unit)) ∧
    ((run_ops [.produce .launch, .complete 0 0, .do_cycle]
      (State.init () : State Unit Unit)).heap 0).val = some (Val.i32 0) ∧
    (0 : CellId) ∈ (run_ops [.produce .launch, .complete 0 0, .do_cycle]
      (State.init () : State Unit Unit)).pending_deferreds ∧
    (0 : CellId) ∉ (run_ops [.produce .launch, .fill 0 (Val.i32 0)]
      (State.init () : State Unit Unit)).pending_deferreds := by
  refine ⟨⟨(), _, rfl⟩, rfl, ?_, ?_⟩
  · simp [run_ops, Op.apply, Producer.eval, Asyncio.io_uring_op, Deferred.new_empty,
      Kernel.complete, State.init, Scheduler.do_cycle, Scheduler.run_jobs,
      Scheduler.drain_cq, Ivar.fill, Ivar.is_full, Result.state]
  · simp [run_ops, Op.apply, Producer.eval, Asyncio.io_uring_op, Deferred.new_empty,
      State.init, Deferred.fill, Ivar.fill, Ivar.is_full, Result.state]

/-! ## C10 -/

/-- C10: single assignment.  Once an allocated cell holds `v`, it is full and holds `v`
after every sequence of steps: handle constructors, the launcher, `bind`, `map`, `ignore`,
`fill` through any handle of any cell, `upon`, whole cycles with their completion routing,
and kernel completions, whether the calls return or throw. -/
theorem C10_single_assignment (ops : List (Op A T)) (s : State A T) (c : CellId) (v : Val T)
    (hc : c < s.next) (hv : (s.heap c).val = some v) :
    ((run_ops ops s).heap c).val = some v ∧ Ivar.is_full c (run_ops ops s) = true := by
  have h := (run_ops_grows ops s).2 c hc v hv
  exact ⟨h, by simp [Ivar.is_full, h]⟩

/-- Witness of C10: a handle pre-filled with 7 still holds 7 after a second `fill`, an
`upon`, a `map`, a launch with its completion, and two cycles. -/
theorem C10_single_assignment_witness :
    (0 : CellId) < ((Deferred.new_prefilled (.of 7) (State.init [])).2 :
      State (List Nat) Nat).next ∧
    (((Deferred.new_prefilled (.of 7) (State.init [])).2 :
      State (List Nat) Nat).heap 0).val = some (.of 7) ∧
    ((run_ops [.fill 0 (.of 8), .upon 0 (.user record_value),
        .produce (.map (.copy 0) double_val), .produce .launch, .complete 0 0,
        .do_cycle, .do_cycle]
      ((Deferred.new_prefilled (.of 7) (State.init [])).2 :
        State (List Nat) Nat)).heap 0).val = some (.of 7) :=
  ⟨by decide, rfl,
    (C10_single_assignment
      [.fill 0 (.of 8), .upon 0 (.user record_value),
        .produce (.map (.copy 0) double_val), .produce .launch, .complete 0 0,
        .do_cycle, .do_cycle]
      ((Deferred.new_prefilled (.of 7) (State.init [])).2 : State (List Nat) Nat)
      0 (.of 7) (by decide) rfl).1⟩

/-! ## C11, C12 -/

/-- C11: a `fill` that succeeds on a handle takes the wrapped cell out of the pending set
and removes nothing else: the pending set afterwards is the one before with this cell
erased, so the cell is not a member and every other cell is a member exactly when it was
one before. -/
theorem C11_fill_erases_only_its_entry (d : CellId) (v : Val T) (s t : State A T)
    (h : Deferred.fill d v s = .ok t) :
    t.pending_deferreds = s.pending_deferreds.erase d ∧
    d ∉ t.pending_deferreds ∧
    ∀ c, c ≠ d → (c ∈ t.pending_deferreds ↔ c ∈ s.pending_deferreds) := by
  cases hv : (s.heap d).val with
  | some w =>
    rw [deferred_fill_of_full d v w s hv] at h
    cases h
  | none =>
    rw [deferred_fill_of_empty d v s hv] at h
    cases h
    refine ⟨rfl, by simp, fun c hc => ?_⟩
    simp [Finset.mem_erase, hc]

/-- Witness of C11: two empty handles, the first one filled; it leaves the pending set and
the second one stays. -/
theorem C11_fill_erases_only_its_entry_witness :
    ∃ t : State (List Nat) Nat,
      Deferred.fill 0 (.of 7)
        (Deferred.new_empty (Deferred.new_empty (State.init [])).2).2 = .ok t ∧
      (0 : CellId) ∉ t.pending_deferreds ∧ (1 : CellId) ∈ t.pending_deferreds := by
  refine ⟨_, rfl, ?_, ?_⟩
  · exact (C11_fill_erases_only_its_entry 0 (.of 7)
      (Deferred.new_empty (Deferred.new_empty (State.init ([] : List Nat))).2).2 _ rfl).2.1
  · exact ((C11_fill_erases_only_its_entry 0 (.of 7)
      (Deferred.new_empty (Deferred.new_empty (State.init ([] : List Nat))).2).2 _ rfl).2.2
        1 (by decide)).2 (by decide)

/-- C12: the three constructors and the pending set.  The empty constructor allocates a
new unfilled cell with nothing waiting and adds it to the pending set.  The pre-filled
constructor allocates a new cell that holds the value (`is_full()` is true, nothing
waits) and leaves the pending set as it was.  The wrapping constructor returns the given
cell, changes no cell, and adds the cell to the pending set exactly when it is unfilled;
on a cell that is already a member the set, and so its number of entries, is unchanged.
None of the three changes the job queue. -/
theorem C12_constructors_and_pending_set (s : State A T) (v : Val T) (c : CellId) :
    ((Deferred.new_empty s).1 = s.next ∧
      (Deferred.new_empty s).2.heap s.next = { val := none, handlers := [] } ∧
      Deferred.is_full s.next (Deferred.new_empty s).2 = false ∧
      (Deferred.new_empty s).2.next = s.next + 1 ∧
      (Deferred.new_empty s).2.pending_deferreds = insert s.next s.pending_deferreds ∧
      (Deferred.new_empty s).2.jobs = s.jobs) ∧
    ((Deferred.new_prefilled v s).1 = s.next ∧
      (Deferred.new_prefilled v s).2.heap s.next = { val := some v, handlers := [] } ∧
      Deferred.is_full s.next (Deferred.new_prefilled v s).2 = true ∧
      (Deferred.new_prefilled v s).2.next = s.next + 1 ∧
      (Deferred.new_prefilled v s).2.pending_deferreds = s.pending_deferreds ∧
      (Deferred.new_prefilled v s).2.jobs = s.jobs) ∧
    ((Deferred.new_wrapping c s).1 = c ∧
      (Deferred.new_wrapping c s).2.heap = s.heap ∧
      (Deferred.new_wrapping c s).2.next = s.next ∧
      (Deferred.new_wrapping c s).2.jobs = s.jobs ∧
      (Deferred.is_full c s = false →
        (Deferred.new_wrapping c s).2.pending_deferreds = insert c s.pending_deferreds) ∧
      (Deferred.is_full c s = true →
        (Deferred.new_wrapping c s).2.pending_deferreds = s.pending_deferreds) ∧
      (c ∈ s.pending_deferreds →
        (Deferred.new_wrapping c s).2.pending_deferreds = s.pending_deferreds ∧
        (Deferred.new_wrapping c s).2.pending_deferreds.card = s.pending_deferreds.card)) := by
  refine ⟨⟨rfl, by simp [Deferred.new_empty], by simp [Deferred.new_empty, Deferred.is_full,
    Ivar.is_full], rfl, rfl, rfl⟩, ⟨rfl, by simp [Deferred.new_prefilled],
    by simp [Deferred.new_prefilled, Deferred.is_full, Ivar.is_full], rfl, rfl, rfl⟩, ?_⟩
  unfold Deferred.new_wrapping Deferred.is_full
  cases hf : Ivar.is_full c s
  · refine ⟨rfl, rfl, rfl, rfl, fun _ => rfl, fun h => (by cases h), fun hm => ?_⟩
    simp [Finset.insert_eq_of_mem hm]
  · exact ⟨rfl, rfl, rfl, rfl, fun h => (by cases h), fun _ => rfl, fun _ => ⟨rfl, rfl⟩⟩

/-- Witness of C12: wrapping the cell of an empty handle, already a member, leaves the
pending set with its one entry. -/
theorem C12_constructors_and_pending_set_witness :
    (0 : CellId) ∈ ((Deferred.new_empty (State.init [])).2 :
      State (List Nat) Nat).pending_deferreds ∧
    (Deferred.new_wrapping 0 ((Deferred.new_empty (State.init [])).2 :
      State (List Nat) Nat)).2.pending_deferreds.card = 1 := by
  have h := ((C12_constructors_and_pending_set
    ((Deferred.new_empty (State.init [])).2 : State (List Nat) Nat) (.of 0) 0).2.2).2.2.2.2.2.2
    (by decide)
  exact ⟨by decide, h.2.trans (by decide)⟩

/-! ## C14, C15 -/

theorem drain_cq_waits_nil (left : Option io_uring_cqe) (m : Nat) (s : State A T) :
    Scheduler.drain_cq_waits left m [] s = .finished (Scheduler.drain_cq m s) := by
  induction m generalizing s with
  | zero => rfl
  | succ m ih =>
    simp only [Scheduler.drain_cq_waits, Scheduler.drain_cq, List.head?_nil, Option.getD_none,
      List.tail_nil]
    cases s.cq with
    | nil => rfl
    | cons cqe rest =>
      simp only
      cases Ivar.fill cqe.user_data (Val.i32 cqe.res) { s with cq := rest } with
      | throw e s1 => rfl
      | ok s1 => exact ih s1

theorem do_cycle_ring_busy (left : Option io_uring_cqe) (wake : Wake) (ws : List Wait)
    (s : State A T) (h : ¬ (s.jobs = [] ∧ s.cq = [])) :
    Scheduler.do_cycle_ring left wake ws s =
      match Scheduler.run_jobs s.jobs.length s with
      | .throw e s1 => .finished (.throw e s1)
      | .ok s1 => Scheduler.drain_cq_waits left s.cq.length ws s1 := by
  unfold Scheduler.do_cycle_ring
  have h2 : ¬ (s.jobs.length = 0 ∧ s.cq.length = 0) := by
    simpa [List.length_eq_zero] using h
  simp only [h2, if_false]

/-- C14: a cycle that starts with no queued job and no ready completion takes the
blocking branch and does nothing itself: `do_cycle` returns the state it was given, and
with the ring spelled out the cycle returns when the wait does.  If the wait failed the
state is unchanged.  If the kernel completed the entry tagged `c` with `res`, the job
queue, every cell, the pending set and the application state are unchanged and the
completion is the one ready completion of the ring, not consumed; when `c` is unfilled
the next cycle routes it: it fills `c` with `res`, queues the handlers of `c` and empties
the ring.  A cycle that starts with a job or a ready completion does not take the
blocking branch: what it does is independent of what the blocking wait would return, and
when its waits succeed it is `do_cycle`. -/
theorem C14_blocking_branch (s : State A T) :
    (s.jobs = [] → s.cq = [] →
      Scheduler.do_cycle s = .ok s ∧
      (∀ left ret ws, Scheduler.do_cycle_ring left (.failed ret) ws s = .finished (.ok s)) ∧
      (∀ left i res ws c, s.sq.get? i = some c →
        ∃ t, Scheduler.do_cycle_ring left (.completion i res) ws s = .finished (.ok t) ∧
          t.jobs = s.jobs ∧ t.heap = s.heap ∧
          t.pending_deferreds = s.pending_deferreds ∧ t.app = s.app ∧ t.next = s.next ∧
          t.cq = [{ user_data := c, res := res }] ∧
          ((s.heap c).val = none →
            ∃ u, Scheduler.do_cycle t = .ok u ∧ u.cq = [] ∧
              u.heap c = { val := some (Val.i32 res), handlers := [] } ∧
              u.jobs = (s.heap c).handlers.map (fun k => { f := k, a := Val.i32 res })))) ∧
    (¬ (s.jobs = [] ∧ s.cq = []) →
      (∀ left wake1 wake2 ws,
        Scheduler.do_cycle_ring left wake1 ws s = Scheduler.do_cycle_ring left wake2 ws s) ∧
      (∀ left wake,
        Scheduler.do_cycle_ring left wake [] s = .finished (Scheduler.do_cycle s))) := by
  constructor
  · intro hj hq
    have hidle : s.jobs.length = 0 ∧ s.cq.length = 0 := by simp [hj, hq]
    refine ⟨by simp [Scheduler.do_cycle, hidle], ?_, ?_⟩
    · intro left ret ws
      simp [Scheduler.do_cycle_ring, hidle]
    · intro left i res ws c hc
      refine ⟨Kernel.complete i res s, by simp [Scheduler.do_cycle_ring, hidle], ?_⟩
      have hk : Kernel.complete i res s
          = { s with sq := s.sq.eraseIdx i, cq := [{ user_data := c, res := res }] } := by
        simp only [Kernel.complete, hc, hq, List.nil_append]
      rw [hk]
      refine ⟨rfl, rfl, rfl, rfl, rfl, rfl, fun hv => ?_⟩
      rw [Scheduler.do_cycle_eq]
      simp only [hj, List.length_nil, Scheduler.run_jobs, List.length_singleton,
        Scheduler.drain_cq]
      rw [ivar_fill_of_empty _ _ _ (by simpa using hv)]
      simp [hj]
  · intro h
    refine ⟨fun left wake1 wake2 ws => ?_, fun left wake => ?_⟩
    · rw [do_cycle_ring_busy left wake1 ws s h, do_cycle_ring_busy left wake2 ws s h]
    · rw [do_cycle_ring_busy left wake [] s h, Scheduler.do_cycle_eq]
      cases Scheduler.run_jobs s.jobs.length s with
      | throw e s1 => rfl
      | ok s1 => exact drain_cq_waits_nil left _ s1

/-- Witness of C14: one launched operation with a callback waiting on its handle, nothing
queued, nothing ready.  The blocking cycle returns with the completion (result 9) ready
and not consumed, and the next cycle fills the cell with 9 and queues the callback. -/
theorem C14_blocking_branch_witness :
    ∃ s : State (List Nat) Nat,
      s = Deferred.upon 0 (.user record_value) (Asyncio.io_uring_op (State.init [])).2 ∧
      s.jobs = [] ∧ s.cq = [] ∧ s.sq.get? 0 = some 0 ∧ (s.heap 0).val = none ∧
      ∃ t, Scheduler.do_cycle_ring none (.completion 0 9) [] s = .finished (.ok t) ∧
        t.cq = [{ user_data := 0, res := 9 }] ∧ t.heap = s.heap ∧
        ∃ u, Scheduler.do_cycle t = .ok u ∧ u.cq = [] ∧
          u.heap 0 = { val := some (Val.i32 9), handlers := [] } ∧
          u.jobs = [{ f := .user record_value, a := Val.i32 9 }] := by
  refine ⟨_, rfl, rfl, rfl, rfl, rfl, ?_⟩
  obtain ⟨t, ht, _, hh, _, _, _, hq, hnext⟩ :=
    ((C14_blocking_branch
      (Deferred.upon 0 (.user record_value)
        (Asyncio.io_uring_op (State.init ([] : List Nat))).2 : State (List Nat) Nat)).1
      rfl rfl).2.2 none 0 9 [] 0 rfl
  obtain ⟨u, hu, huq, huh, huj⟩ := hnext rfl
  exact ⟨t, ht, hq, hh, u, hu, huq, huh, huj⟩

/-- C15, evaluated at the failing input: one launched operation has completed with result
7 and a callback waits on its handle; in the cycle the wait of the drain loop fails with
code -4.  Whatever state the loop is in, with the null pointer left in `cqe` the
iteration reads through it: the cycle does not go on to the remaining retrievals.  With
`cqe` left at the ready entry the iteration fills the tagged cell with 7 and queues the
callback, as if the wait had succeeded.  In neither case is the retrieval skipped. -/
theorem C15_failed_wait_is_not_skipped :
    (∀ (s : State (List Nat) Nat) (m : Nat) (ret : Int) (ws : List Wait),
      Scheduler.drain_cq_waits none (m + 1) (Wait.failed ret :: ws) s
        = .null_dereference s) ∧
    Scheduler.do_cycle_ring none (.failed 0) [Wait.failed (-4)]
        (Kernel.complete 0 7
          (Deferred.upon 0 (.user record_value)
            (Asyncio.io_uring_op (State.init ([] : List Nat))).2))
      = .null_dereference
        (Kernel.complete 0 7
          (Deferred.upon 0 (.user record_value)
            (Asyncio.io_uring_op (State.init ([] : List Nat))).2)) ∧
    ∃ t : State (List Nat) Nat,
      Scheduler.do_cycle_ring (some { user_data := 0, res := 7 }) (.failed 0)
          [Wait.failed (-4)]
          (Kernel.complete 0 7
            (Deferred.upon 0 (.user record_value)
              (Asyncio.io_uring_op (State.init ([] : List Nat))).2))
        = .finished (.ok t) ∧
      (t.heap 0).val = some (Val.i32 7) ∧
      t.jobs = [{ f := .user record_value, a := Val.i32 7 }] :=
  ⟨fun _ _ _ _ => rfl, rfl, _, rfl, rfl, rfl⟩

/-! ## properties kept by every primitive change are kept by every step -/

theorem stable_new_empty {P : State A T → Prop} (hP : Stable P) (s : State A T) (h : P s) :
    P (Deferred.new_empty s).2 :=
  hP.2.1 _ _ (hP.1 s none h)

theorem stable_new_prefilled {P : State A T → Prop} (hP : Stable P) (v : Val T)
    (s : State A T) (h : P s) : P (Deferred.new_prefilled v s).2 :=
  hP.1 s (some v) h

theorem stable_new_wrapping {P : State A T → Prop} (hP : Stable P) (c : CellId)
    (s : State A T) (h : P s) : P (Deferred.new_wrapping c s).2 := by
  unfold Deferred.new_wrapping
  cases Ivar.is_full c s
  · exact hP.2.1 _ _ h
  · exact h

theorem stable_bind {P : State A T → Prop} (hP : Stable P) (c : CellId)
    (f : Val T → Producer A T) (s : State A T) (h : P s) : P (Deferred.bind c f s).2 :=
  hP.2.2.2.2.2.2.1 _ _ _ (stable_new_empty hP s h)

theorem stable_io_uring_op {P : State A T → Prop} (hP : Stable P) (s : State A T)
    (h : P s) : P (Asyncio.io_uring_op s).2 :=
  hP.2.2.1 _ _ (stable_new_empty hP s h)

theorem stable_eval {P : State A T → Prop} (hP : Stable P) (p : Producer A T)
    (s : State A T) (h : P s) : P (p.eval s).2 := by
  induction p generalizing s with
  | empty => exact stable_new_empty hP s h
  | prefilled v => exact stable_new_prefilled hP v s h
  | wrap c => exact stable_new_wrapping hP c s h
  | copy c => exact h
  | launch => exact stable_io_uring_op hP s h
  | bind p f ihp _ => exact stable_bind hP _ _ _ (ihp s h)
  | map p g ihp => exact stable_bind hP _ _ _ (ihp s h)
  | ignore p ihp => exact stable_bind hP _ _ _ (ihp s h)
  | effect g p ihp => exact ihp _ (hP.2.2.2.2.1 s _ h)

theorem stable_deferred_fill {P : State A T → Prop} (hP : Stable P) (c : CellId)
    (v : Val T) (s : State A T) (h : P s) : P (Deferred.fill c v s).state := by
  have hf := hP.2.2.2.2.2.2.2 c v s h
  cases hv : (s.heap c).val with
  | none =>
    rw [ivar_fill_of_empty c v s hv] at hf
    rw [deferred_fill_of_empty c v s hv]
    exact hP.2.1 _ _ hf
  | some w =>
    rw [deferred_fill_of_full c v w s hv]
    exact h

theorem stable_call {P : State A T → Prop} (hP : Stable P) (f : Cont A T) (v : Val T)
    (s : State A T) (h : P s) : P (f.call v s).state := by
  cases f with
  | user g => exact hP.2.2.2.2.1 s _ h
  | bind_outer ret f => exact hP.2.2.2.2.2.2.1 _ _ _ (stable_eval hP _ s h)
  | bind_inner ret => exact stable_deferred_fill hP ret v s h

theorem stable_run_jobs {P : State A T → Prop} (hP : Stable P) (n : Nat) (s : State A T)
    (h : P s) : P (Scheduler.run_jobs n s).state := by
  induction n generalizing s with
  | zero => exact h
  | succ n ih =>
    cases hj : s.jobs with
    | nil =>
      simp only [Scheduler.run_jobs, hj]
      exact h
    | cons j js =>
      simp only [Scheduler.run_jobs, hj]
      have hc := stable_call hP j.f j.a s h
      cases hr : j.run s with
      | throw e s1 =>
        rw [Job.run] at hr
        rw [hr] at hc
        exact hc
      | ok s1 =>
        rw [Job.run] at hr
        rw [hr] at hc
        exact ih _ (hP.2.2.2.2.2.1 s1 hc)

theorem stable_drain_cq {P : State A T → Prop} (hP : Stable P) (m : Nat) (s : State A T)
    (h : P s) : P (Scheduler.drain_cq m s).state := by
  induction m generalizing s with
  | zero => exact h
  | succ m ih =>
    cases hq : s.cq with
    | nil =>
      simp only [Scheduler.drain_cq, hq]
      exact h
    | cons cqe rest =>
      simp only [Scheduler.drain_cq, hq]
      have hf := hP.2.2.2.2.2.2.2 cqe.user_data (Val.i32 cqe.res) _ (hP.2.2.2.1 s rest h)
      cases hr : Ivar.fill cqe.user_data (Val.i32 cqe.res) { s with cq := rest } with
      | throw e s1 =>
        rw [hr] at hf
        exact hf
      | ok s1 =>
        rw [hr] at hf
        exact ih s1 hf

theorem stable_do_cycle {P : State A T → Prop} (hP : Stable P) (s : State A T) (h : P s) :
    P (Scheduler.do_cycle s).state := by
  rw [Scheduler.do_cycle_eq]
  have h1 := stable_run_jobs hP s.jobs.length s h
  cases hr : Scheduler.run_jobs s.jobs.length s with
  | throw e s1 =>
    rw [hr] at h1
    exact h1
  | ok s1 =>
    rw [hr] at h1
    exact stable_drain_cq hP _ s1 h1

theorem stable_complete {P : State A T → Prop} (hP : Stable P) (i : Nat) (res : Int)
    (s : State A T) (h : P s) : P (Kernel.complete i res s) := by
  unfold Kernel.complete
  cases s.sq.get? i with
  | none => exact h
  | some c =>
    dsimp only
    exact hP.2.2.2.1 _ (s.cq ++ [{ user_data := c, res := res }]) (hP.2.2.1 s (s.sq.eraseIdx i) h)

theorem stable_op {P : State A T → Prop} (hP : Stable P) (op : Op A T) (s : State A T)
    (h : P s) : P (op.apply s) := by
  cases op with
  | produce p => exact stable_eval hP p s h
  | fill d v => exact stable_deferred_fill hP d v s h
  | upon d f => exact hP.2.2.2.2.2.2.1 d f s h
  | do_cycle => exact stable_do_cycle hP s h
  | complete i res => exact stable_complete hP i res s h

theorem stable_run_ops {P : State A T → Prop} (hP : Stable P) (ops : List (Op A T))
    (s : State A T) (h : P s) : P (run_ops ops s) := by
  induction ops generalizing s with
  | nil => exact h
  | cons op ops ih => exact ih _ (stable_op hP op s h)

/-! ## C16 -/

theorem no_stranded_stable :
    Stable (fun s : State A T => ∀ c, (s.heap c).val ≠ none → (s.heap c).handlers = []) := by
  refine ⟨?_, fun _ _ h => h, fun _ _ h => h, fun _ _ h => h, fun _ _ h => h, fun _ h => h,
    ?_, ?_⟩
  · intro s o h c hc
    by_cases hcn : c = s.next
    · subst hcn; simp
    · simp only [Function.update_noteq hcn] at hc ⊢
      exact h c hc
  · intro c k s h d hd
    cases hv : (s.heap c).val with
    | none =>
      rw [Deferred.upon_of_empty c k s hv] at hd ⊢
      by_cases hdc : d = c
      · subst hdc; simp at hd
      · simp only [Function.update_noteq hdc] at hd ⊢
        exact h d hd
    | some v =>
      rw [Deferred.upon_of_full c k v s hv] at hd ⊢
      exact h d hd
  · intro c v s h d hd
    cases hv : (s.heap c).val with
    | none =>
      rw [ivar_fill_of_empty c v s hv] at hd ⊢
      simp only [Result.state] at hd ⊢
      by_cases hdc : d = c
      · subst hdc; simp
      · simp only [Function.update_noteq hdc] at hd ⊢
        exact h d hd
    | some w =>
      rw [ivar_fill_of_full c v w s hv] at hd ⊢
      exact h d hd

/-- C16: in every reachable state a full cell has nothing waiting on it.  The pre-filled
constructor starts the cell with no handler; `Ivar::fill` on an empty cell queues one job
per waiting handler, in order, each paired with the value (the queue grows by the number
of handlers), and leaves the cell with no handler; `upon` on a full cell leaves every
cell as it was.  So no continuation is stranded on a resolved cell. -/
theorem C16_full_cell_has_no_handlers (s : State A T) (hr : Reachable s) :
    (∀ c, (s.heap c).val ≠ none → (s.heap c).handlers = []) ∧
    (∀ v, ((Deferred.new_prefilled v s).2.heap (Deferred.new_prefilled v s).1).handlers = []) ∧
    (∀ c v, (s.heap c).val = none →
      ∃ t, Ivar.fill c v s = .ok t ∧
        t.jobs = s.jobs ++ (s.heap c).handlers.map (fun k => { f := k, a := v }) ∧
        t.jobs.length = s.jobs.length + (s.heap c).handlers.length ∧
        t.heap c = { val := some v, handlers := [] }) ∧
    (∀ c k, (s.heap c).val ≠ none → (Deferred.upon c k s).heap = s.heap) := by
  refine ⟨?_, ?_, ?_, ?_⟩
  · obtain ⟨a, ops, rfl⟩ := hr
    exact stable_run_ops no_stranded_stable ops (State.init a) (fun c hc => rfl)
  · intro v
    simp [Deferred.new_prefilled]
  · intro c v hv
    rw [ivar_fill_of_empty c v s hv]
    exact ⟨_, rfl, rfl, by simp, by simp⟩
  · intro c k hc
    cases hv : (s.heap c).val with
    | none => exact absurd hv hc
    | some w => rw [Deferred.upon_of_full c k w s hv]

/-- Witness of C16: a reachable state in which a handle with one callback was filled with
7; the callback has moved to the queue and the full cell has no handler. -/
theorem C16_full_cell_has_no_handlers_witness :
    Reachable (run_ops [.produce .empty, .upon 0 (.user record_value), .fill 0 (.of 7)]
      (State.init [] : State (List Nat) Nat)) ∧
    ((run_ops [.produce .empty, .upon 0 (.user record_value), .fill 0 (.of 7)]
      (State.init [] : State (List Nat) Nat)).heap 0).val = some (.of 7) ∧
    ((run_ops [.produce .empty, .upon 0 (.user record_value), .fill 0 (.of 7)]
      (State.init [] : State (List Nat) Nat)).heap 0).handlers = [] :=
  ⟨⟨[], _, rfl⟩, rfl,
    (C16_full_cell_has_no_handlers _ ⟨[], _, rfl⟩).1 0
      (fun h => Option.noConfusion (show (some (Val.of 7) : Option (Val Nat)) = none from h))⟩

/-! ## steps that leave a bind alone -/

theorem neutral_refl (e : CellId) (s : State A T) : Neutral e s s :=
  ⟨Nat.le_refl _, fun _ _ => rfl, rfl, fun _ h => Or.inl h, rfl, fun _ _ => rfl,
    fun _ => Or.inl rfl⟩

theorem neutral_trans {e : CellId} {s t u : State A T} (h1 : Neutral e s t)
    (h2 : Neutral e t u) : Neutral e s u := by
  refine ⟨Nat.le_trans h1.next_le h2.next_le, fun c hc => ?_, h2.cq_eq.trans h1.cq_eq,
    fun x hx => ?_, h2.jobs_eq.trans h1.jobs_eq, fun c hc => ?_, fun c => ?_⟩
  · rw [h2.val_eq c (Nat.lt_of_lt_of_le hc h1.next_le), h1.val_eq c hc]
  · rcases h2.sq_new x hx with h | ⟨h, h3⟩
    · rcases h1.sq_new x h with h4 | ⟨h4, h5⟩
      · exact Or.inl h4
      · exact Or.inr ⟨h4, Nat.lt_of_lt_of_le h5 h2.next_le⟩
    · exact Or.inr ⟨Nat.le_trans h1.next_le h, h3⟩
  · rw [h2.handlers_eq c (Nat.lt_of_lt_of_le hc h1.next_le), h1.handlers_eq c hc]
  · rcases h2.handlers_lost c with h | h
    · rcases h1.handlers_lost c with h3 | h3
      · exact Or.inl (h.trans h3)
      · exact Or.inr (h.trans h3)
    · exact Or.inr h

theorem neutral_alloc (e : CellId) (s : State A T) (o : Option (Val T))
    (p : Finset CellId) :
    Neutral e s { s with heap := Function.update s.heap s.next { val := o, handlers := [] },
                         next := s.next + 1, pending_deferreds := p } := by
  refine ⟨Nat.le_succ _, fun c hc => ?_, rfl, fun x hx => Or.inl hx, rfl, fun c hc => ?_,
    fun c => ?_⟩
  · simp [Function.update_noteq (Nat.ne_of_lt hc)]
  · simp [State.handler_tokens, Function.update_noteq (Nat.ne_of_lt hc)]
  · by_cases hc : c = s.next
    · right
      subst hc
      simp [State.handler_tokens]
    · left
      simp [State.handler_tokens, Function.update_noteq hc]

theorem neutral_new_empty (e : CellId) (s : State A T) :
    Neutral e s (Deferred.new_empty s).2 :=
  neutral_alloc e s none _

theorem neutral_new_prefilled (e : CellId) (v : Val T) (s : State A T) :
    Neutral e s (Deferred.new_prefilled v s).2 :=
  neutral_alloc e s (some v) s.pending_deferreds

theorem neutral_pending (e : CellId) (s : State A T) (p : Finset CellId) :
    Neutral e s { s with pending_deferreds := p } :=
  ⟨Nat.le_refl _, fun _ _ => rfl, rfl, fun _ h => Or.inl h, rfl, fun _ _ => rfl,
    fun _ => Or.inl rfl⟩

theorem neutral_app (e : CellId) (s : State A T) (a : A) :
    Neutral e s { s with app := a } :=
  ⟨Nat.le_refl _, fun _ _ => rfl, rfl, fun _ h => Or.inl h, rfl, fun _ _ => rfl,
    fun _ => Or.inl rfl⟩

theorem neutral_new_wrapping (e c : CellId) (s : State A T) :
    Neutral e s (Deferred.new_wrapping c s).2 := by
  unfold Deferred.new_wrapping
  cases Ivar.is_full c s
  · exact neutral_pending e s _
  · exact neutral_refl e s

theorem neutral_upon (e c : CellId) (k : Cont A T) (hk : k.target ≠ some e)
    (s : State A T) : Neutral e s (Deferred.upon c k s) := by
  cases hv : (s.heap c).val with
  | none =>
    rw [Deferred.upon_of_empty c k s hv]
    have key : ∀ c2 (h : CellId → Ivar A T),
        h = Function.update s.heap c { val := none, handlers := (s.heap c).handlers ++ [k] } →
        State.handler_tokens e c2 ({ s with heap := h } : State A T)
          = s.handler_tokens e c2 := by
      intro c2 h hh
      subst hh
      by_cases h2 : c2 = c
      · subst h2
        simp [State.handler_tokens, List.filter_append, hk]
      · simp [State.handler_tokens, Function.update_noteq h2]
    refine ⟨Nat.le_refl _, fun c2 _ => ?_, rfl, fun _ h => Or.inl h, rfl,
      fun c2 _ => key c2 _ rfl, fun c2 => Or.inl (key c2 _ rfl)⟩
    by_cases h2 : c2 = c
    · subst h2; simp [hv]
    · simp [Function.update_noteq h2]
  | some v =>
    rw [Deferred.upon_of_full c k v s hv]
    refine ⟨Nat.le_refl _, fun _ _ => rfl, rfl, fun _ h => Or.inl h, ?_, fun _ _ => rfl,
      fun _ => Or.inl rfl⟩
    simp [State.job_tokens, List.filter_append, hk]

theorem neutral_bind (e d : CellId) (f : Val T → Producer A T) (s : State A T)
    (he : e ≠ s.next) : Neutral e s (Deferred.bind d f s).2 :=
  neutral_trans (neutral_new_empty e s)
    (neutral_upon e d _ (by
      show (some s.next : Option CellId) ≠ some e
      intro h
      exact he (Option.some.inj h).symm) _)

theorem neutral_io_uring_op (e : CellId) (s : State A T) :
    Neutral e s (Asyncio.io_uring_op s).2 := by
  have h := neutral_new_empty e s
  refine ⟨h.next_le, h.val_eq, h.cq_eq, fun x hx => ?_, h.jobs_eq, h.handlers_eq,
    h.handlers_lost⟩
  have hx2 : x ∈ s.sq ++ [s.next] := hx
  rcases List.mem_append.mp hx2 with h1 | h1
  · exact Or.inl h1
  · right
    have : x = s.next := by simpa using h1
    subst this
    exact ⟨Nat.le_refl _, Nat.lt_succ_self _⟩

theorem neutral_eval (e : CellId) (p : Producer A T) (s : State A T) (he : e < s.next) :
    Neutral e s (p.eval s).2 := by
  induction p generalizing s with
  | empty => exact neutral_new_empty e s
  | prefilled v => exact neutral_new_prefilled e v s
  | wrap c => exact neutral_new_wrapping e c s
  | copy c => exact neutral_refl e s
  | launch => exact neutral_io_uring_op e s
  | bind p f ihp _ =>
    have h1 := ihp s he
    exact neutral_trans h1 (neutral_bind e _ f _
      (Nat.ne_of_lt (Nat.lt_of_lt_of_le he h1.next_le)))
  | map p g ihp =>
    have h1 := ihp s he
    exact neutral_trans h1 (neutral_bind e _ _ _
      (Nat.ne_of_lt (Nat.lt_of_lt_of_le he h1.next_le)))
  | ignore p ihp =>
    have h1 := ihp s he
    exact neutral_trans h1 (neutral_bind e _ _ _
      (Nat.ne_of_lt (Nat.lt_of_lt_of_le he h1.next_le)))
  | effect g p ihp =>
    exact neutral_trans (neutral_app e s (g s.app)) (ihp _ he)

theorem neutral_pop (e : CellId) (s : State A T) (j : Job A T) (rest : List (Job A T))
    (hj : s.jobs = j :: rest) (ht : j.f.target ≠ some e) :
    Neutral e s (State.pop_front s) := by
  refine ⟨Nat.le_refl _, fun _ _ => rfl, rfl, fun _ h => Or.inl h, ?_, fun _ _ => rfl,
    fun _ => Or.inl rfl⟩
  simp [State.job_tokens, State.pop_front, hj, ht]

theorem fresh_neutral {e : CellId} {s t : State A T} (h : Fresh e s) (hn : Neutral e s t)
    (hle : t.next ≤ e) : Fresh e t := by
  refine ⟨hn.jobs_eq.trans h.no_job, fun c => ?_, fun x hx => ?_, fun q hq => ?_⟩
  · rcases hn.handlers_lost c with h1 | h1
    · exact h1.trans (h.no_handler c)
    · exact h1
  · rcases hn.sq_new x hx with h1 | ⟨_, h1⟩
    · exact h.not_submitted x h1
    · exact Nat.ne_of_lt (Nat.lt_of_lt_of_le h1 hle)
  · rw [hn.cq_eq] at hq
    exact h.not_completed q hq

theorem linked_neutral {d e : CellId} {f : Val T → Producer A T} {s t : State A T}
    (h : Linked d e f s) (hn : Neutral e s t) : Linked d e f t := by
  have hd := hn.val_eq d h.source_lt
  have he := hn.val_eq e h.result_lt
  have hnone : ∀ c, s.handler_tokens e c = [] → t.handler_tokens e c = [] := by
    intro c hc
    rcases hn.handlers_lost c with h1 | h1
    · exact h1.trans hc
    · exact h1
  refine ⟨Nat.lt_of_lt_of_le h.source_lt hn.next_le,
    Nat.lt_of_lt_of_le h.result_lt hn.next_le, fun x hx => ?_, fun q hq => ?_, ?_⟩
  · rcases hn.sq_new x hx with h1 | ⟨h1, _⟩
    · exact h.not_submitted x h1
    · exact (Nat.ne_of_lt (Nat.lt_of_lt_of_le h.result_lt h1)).symm
  · rw [hn.cq_eq] at hq
    exact h.not_completed q hq
  · cases h.stage with
    | waiting h1 h2 h3 h4 h5 =>
      exact .waiting (hd.trans h1) (he.trans h2) (hn.jobs_eq.trans h3)
        ((hn.handlers_eq d h.source_lt).trans h4) (fun c hc => hnone c (h5 c hc))
    | ready t0 h1 h2 h3 h4 =>
      exact .ready t0 (hd.trans h1) (he.trans h2) (hn.jobs_eq.trans h3)
        (fun c => hnone c (h4 c))
    | applied c h1 h2 h3 h4 h5 =>
      rcases hn.handlers_lost c with h6 | h6
      · exact .applied c (by rw [hd]; exact h1) (he.trans h2) (hn.jobs_eq.trans h3)
          (h6.trans h4) (fun c2 hc => hnone c2 (h5 c2 hc))
      · refine .settled (by rw [hd]; exact h1) (hn.jobs_eq.trans h3) (fun c2 => ?_)
        by_cases hc : c2 = c
        · subst hc; exact h6
        · exact hnone c2 (h5 c2 hc)
    | resolving r h1 h2 h3 h4 =>
      exact .resolving r (by rw [hd]; exact h1) (he.trans h2) (hn.jobs_eq.trans h3)
        (fun c => hnone c (h4 c))
    | settled h1 h3 h4 =>
      exact .settled (by rw [hd]; exact h1) (hn.jobs_eq.trans h3) (fun c => hnone c (h4 c))


/-! ## a fill of another cell moves what waits on it to the queue -/

theorem job_tokens_fill (e c : CellId) (v : Val T) (s : State A T)
    (h : CellId → Ivar A T) :
    State.job_tokens e ({ s with
        heap := h,
        jobs := s.jobs ++ (s.heap c).handlers.map (fun k => { f := k, a := v }) } : State A T)
      = s.job_tokens e ++ (s.handler_tokens e c).map (fun k => { f := k, a := v }) := by
  simp [State.job_tokens, State.handler_tokens, List.filter_append, List.filter_map,
    Function.comp_def]

theorem handler_tokens_fill_same (e c : CellId) (o : Option (Val T)) (s : State A T)
    (js : List (Job A T)) :
    State.handler_tokens e c ({ s with
        heap := Function.update s.heap c { val := o, handlers := [] },
        jobs := js } : State A T) = [] := by
  simp [State.handler_tokens]

theorem handler_tokens_fill_other (e c c2 : CellId) (hc : c2 ≠ c) (cell : Ivar A T)
    (s : State A T) (js : List (Job A T)) :
    State.handler_tokens e c2 ({ s with
        heap := Function.update s.heap c cell,
        jobs := js } : State A T) = s.handler_tokens e c2 := by
  simp [State.handler_tokens, Function.update_noteq hc]

theorem linked_fill {d e : CellId} {f : Val T → Producer A T} {s : State A T}
    (h : Linked d e f s) (c : CellId) (v : Val T) (hce : c ≠ e)
    (hv : (s.heap c).val = none) :
    Linked d e f { s with
      heap := Function.update s.heap c { val := some v, handlers := [] },
      jobs := s.jobs ++ (s.heap c).handlers.map (fun k => { f := k, a := v }) } := by
  have hjt := job_tokens_fill e c v s
    (Function.update s.heap c { val := some v, handlers := [] })
  have hsame := handler_tokens_fill_same e c (some v) s
    (s.jobs ++ (s.heap c).handlers.map (fun k => { f := k, a := v }))
  have hother : ∀ c2, c2 ≠ c → State.handler_tokens e c2 ({ s with
      heap := Function.update s.heap c { val := some v, handlers := [] },
      jobs := s.jobs ++ (s.heap c).handlers.map (fun k => { f := k, a := v }) } : State A T)
        = s.handler_tokens e c2 := fun c2 hc =>
    handler_tokens_fill_other e c c2 hc _ s _
  have hnone : ∀ c2, s.handler_tokens e c2 = [] → State.handler_tokens e c2 ({ s with
      heap := Function.update s.heap c { val := some v, handlers := [] },
      jobs := s.jobs ++ (s.heap c).handlers.map (fun k => { f := k, a := v }) } : State A T)
        = [] := by
    intro c2 h2
    by_cases hc : c2 = c
    · subst hc; exact hsame
    · exact (hother c2 hc).trans h2
  have hval_e : ((Function.update s.heap c { val := some v, handlers := [] }) e).val
      = (s.heap e).val := by
    rw [Function.update_noteq hce.symm]
  have hval_full : ∀ c2, (s.heap c2).val ≠ none →
      ((Function.update s.heap c { val := some v, handlers := [] }) c2).val ≠ none := by
    intro c2 h2
    by_cases hc : c2 = c
    · subst hc; exact absurd hv h2
    · rw [Function.update_noteq hc]; exact h2
  refine ⟨h.source_lt, h.result_lt, h.not_submitted, h.not_completed, ?_⟩
  cases h.stage with
  | waiting h1 h2 h3 h4 h5 =>
    by_cases hcd : c = d
    · subst hcd
      refine .ready v (by simp) (hval_e.trans h2) ?_ (fun c2 => ?_)
      · rw [hjt, h3, h4]; rfl
      · by_cases hc : c2 = c
        · subst hc; exact hsame
        · exact (hother c2 hc).trans (h5 c2 hc)
    · have hc0 : s.handler_tokens e c = [] := h5 c hcd
      refine .waiting ?_ (hval_e.trans h2) ?_ ?_ (fun c2 hc => hnone c2 (h5 c2 hc))
      · show ((Function.update s.heap c { val := some v, handlers := [] }) d).val = none
        rw [Function.update_noteq (Ne.symm hcd)]; exact h1
      · rw [hjt, h3, hc0]; rfl
      · exact (hother d (Ne.symm hcd)).trans h4
  | ready t0 h1 h2 h3 h4 =>
    have hcd : c ≠ d := by
      rintro rfl
      rw [hv] at h1
      cases h1
    refine .ready t0 ?_ (hval_e.trans h2) ?_ (fun c2 => hnone c2 (h4 c2))
    · show ((Function.update s.heap c { val := some v, handlers := [] }) d).val = some t0
      rw [Function.update_noteq (Ne.symm hcd)]; exact h1
    · rw [hjt, h3, h4 c]; rfl
  | applied c0 h1 h2 h3 h4 h5 =>
    by_cases hc : c = c0
    · subst hc
      refine .resolving v (hval_full d h1) (hval_e.trans h2) ?_ (fun c2 => ?_)
      · rw [hjt, h3, h4]; rfl
      · by_cases hc2 : c2 = c
        · subst hc2; exact hsame
        · exact (hother c2 hc2).trans (h5 c2 hc2)
    · refine .applied c0 (hval_full d h1) (hval_e.trans h2) ?_ ?_
        (fun c2 hc2 => hnone c2 (h5 c2 hc2))
      · rw [hjt, h3, h5 c hc]; rfl
      · exact (hother c0 (Ne.symm hc)).trans h4
  | resolving r h1 h2 h3 h4 =>
    refine .resolving r (hval_full d h1) (hval_e.trans h2) ?_ (fun c2 => hnone c2 (h4 c2))
    rw [hjt, h3, h4 c]; rfl
  | settled h1 h3 h4 =>
    refine .settled (hval_full d h1) ?_ (fun c2 => hnone c2 (h4 c2))
    rw [hjt, h3, h4 c]; rfl

theorem linked_ivar_fill {d e : CellId} {f : Val T → Producer A T} {s : State A T}
    (h : Linked d e f s) (c : CellId) (v : Val T) (hce : c ≠ e) :
    Linked d e f (Ivar.fill c v s).state := by
  cases hv : (s.heap c).val with
  | none =>
    rw [ivar_fill_of_empty c v s hv]
    exact linked_fill h c v hce hv
  | some w =>
    rw [ivar_fill_of_full c v w s hv]
    exact h

theorem linked_deferred_fill {d e : CellId} {f : Val T → Producer A T} {s : State A T}
    (h : Linked d e f s) (c : CellId) (v : Val T) (hce : c ≠ e) :
    Linked d e f (Deferred.fill c v s).state := by
  cases hv : (s.heap c).val with
  | none =>
    rw [deferred_fill_of_empty c v s hv]
    exact linked_neutral (linked_fill h c v hce hv) (neutral_pending e _ _)
  | some w =>
    rw [deferred_fill_of_full c v w s hv]
    exact h


/-! ## running one job -/

theorem job_tokens_cons_of_target (e : CellId) (s : State A T) (j : Job A T)
    (rest : List (Job A T)) (hj : s.jobs = j :: rest) (ht : j.f.target = some e) :
    s.job_tokens e = j :: rest.filter (fun j => decide (j.f.target = some e)) := by
  simp [State.job_tokens, hj, ht]

/-- Running a job that does not work towards `e`, and popping it, keeps the link. -/
theorem linked_other_job {d e : CellId} {f : Val T → Producer A T} {s : State A T}
    (h : Linked d e f s) (j : Job A T) (rest : List (Job A T)) (hj : s.jobs = j :: rest)
    (ht : j.f.target ≠ some e) :
    (∀ s1, j.run s = .ok s1 → Linked d e f (State.pop_front s1)) ∧
    (∀ x s1, j.run s = .throw x s1 → Linked d e f s1) := by
  obtain ⟨new, hnew⟩ := run_jobs_append j s
  have hpop : ∀ s1, j.run s = .ok s1 → Linked d e f s1 → Linked d e f (State.pop_front s1) := by
    intro s1 h1 hl
    rw [h1] at hnew
    simp only [Result.state] at hnew
    exact linked_neutral hl (neutral_pop e s1 j (rest ++ new) (by rw [hnew, hj]; rfl) ht)
  obtain ⟨g, a⟩ := j
  cases g with
  | user k =>
    refine ⟨fun s1 h1 => hpop s1 h1 ?_, fun x s1 h1 => by cases h1⟩
    cases h1
    exact linked_neutral h (neutral_app e s _)
  | bind_outer ret g =>
    refine ⟨fun s1 h1 => hpop s1 h1 ?_, fun x s1 h1 => by cases h1⟩
    cases h1
    exact linked_neutral h (neutral_trans (neutral_eval e (g a) s h.result_lt)
      (neutral_upon e _ (.bind_inner ret)
        (show (Cont.bind_inner ret : Cont A T).target ≠ some e from ht) _))
  | bind_inner ret =>
    have hre : ret ≠ e := fun hh => ht (by rw [hh]; rfl)
    have hl := linked_deferred_fill h ret a hre
    constructor
    · intro s1 h1
      have h2 : Deferred.fill ret a s = .ok s1 := h1
      rw [h2] at hl
      exact hpop s1 h1 hl
    · intro x s1 h1
      have h2 : Deferred.fill ret a s = .throw x s1 := h1
      rw [h2] at hl
      exact hl

/-- Running the job that works towards `e`, and popping it, moves the link one stage on;
the job does not throw. -/
theorem linked_token_job {d e : CellId} {f : Val T → Producer A T} {s : State A T}
    (h : Linked d e f s) (j : Job A T) (rest : List (Job A T)) (hj : s.jobs = j :: rest)
    (ht : j.f.target = some e) :
    ∃ s1, j.run s = .ok s1 ∧ Linked d e f (State.pop_front s1) := by
  have hjt := job_tokens_cons_of_target e s j rest hj ht
  cases h.stage with
  | waiting h1 h2 h3 h4 h5 => rw [h3] at hjt; cases hjt
  | applied c h1 h2 h3 h4 h5 => rw [h3] at hjt; cases hjt
  | settled h1 h3 h4 => rw [h3] at hjt; cases hjt
  | ready t h1 h2 h3 h4 =>
    rw [h3] at hjt
    obtain ⟨hjeq, hrest⟩ := List.cons.inj hjt
    subst hjeq
    have hbo : (Cont.bind_outer e f : Cont A T).target = some e := rfl
    have hbi : (Cont.bind_inner e : Cont A T).target = some e := rfl
    have hne := neutral_eval e (f t) s h.result_lt
    have hle := linked_neutral h hne
    obtain ⟨new, hnew, _⟩ := eval_jobs (f t) s
    have hEjobs : ((f t).eval s).2.jobs = { f := .bind_outer e f, a := t } :: (rest ++ new) := by
      rw [hnew, hj]; rfl
    have hrest2 : (rest ++ new).filter (fun j => decide (j.f.target = some e)) = [] := by
      have := hne.jobs_eq
      rw [h3] at this
      simp only [State.job_tokens, hEjobs] at this
      simpa [hbo] using this
    have hEd : (((f t).eval s).2.heap d).val = some t := (hne.val_eq d h.source_lt).trans h1
    have hEe : (((f t).eval s).2.heap e).val = none := (hne.val_eq e h.result_lt).trans h2
    have hEh : ∀ c, ((f t).eval s).2.handler_tokens e c = [] := by
      intro c
      rcases hne.handlers_lost c with h6 | h6
      · exact h6.trans (h4 c)
      · exact h6
    refine ⟨_, rfl, ?_⟩
    show Linked d e f (State.pop_front
      (Deferred.upon ((f t).eval s).1 (.bind_inner e) ((f t).eval s).2))
    generalize hev : (f t).eval s = ev at hle hEjobs hEd hEe hEh
    cases hin : (ev.2.heap ev.1).val with
    | none =>
      rw [Deferred.upon_of_empty _ _ _ hin]
      have hid : ev.1 ≠ d := by
        rintro hh
        rw [hh, hEd] at hin
        cases hin
      refine ⟨hle.source_lt, hle.result_lt, hle.not_submitted, hle.not_completed, ?_⟩
      refine .applied ev.1 ?_ ?_ ?_ ?_ ?_
      · simp [State.pop_front, Function.update_noteq (Ne.symm hid), hEd]
      · by_cases hie : e = ev.1
        · simp [State.pop_front, hie]
        · simp [State.pop_front, Function.update_noteq hie, hEe]
      · simp only [State.job_tokens, State.pop_front, hEjobs, List.tail_cons]
        exact hrest2
      · have := hEh ev.1
        simp only [State.handler_tokens] at this
        simp [State.handler_tokens, State.pop_front, List.filter_append, this, hbi]
      · intro c2 hc2
        have := hEh c2
        simp only [State.handler_tokens] at this
        simp [State.handler_tokens, State.pop_front, Function.update_noteq hc2, this]
    | some r =>
      rw [Deferred.upon_of_full _ _ r _ hin]
      refine ⟨hle.source_lt, hle.result_lt, hle.not_submitted, hle.not_completed, ?_⟩
      refine .resolving r ?_ hEe ?_ hEh
      · show (ev.2.heap d).val ≠ none
        rw [hEd]; simp
      · simp only [State.job_tokens, State.pop_front, hEjobs, List.cons_append,
          List.tail_cons, List.filter_append, hrest2]
        simp [hbi]
  | resolving r h1 h2 h3 h4 =>
    rw [h3] at hjt
    obtain ⟨hjeq, hrest⟩ := List.cons.inj hjt
    subst hjeq
    have hde : d ≠ e := by
      rintro rfl
      exact h1 h2
    refine ⟨_, deferred_fill_of_empty e r s h2, ?_⟩
    refine ⟨h.source_lt, h.result_lt, h.not_submitted, h.not_completed, ?_⟩
    have hhe := h4 e
    simp only [State.handler_tokens] at hhe
    refine .settled ?_ ?_ ?_
    · simp [State.pop_front, Function.update_noteq hde, h1]
    · simp only [State.job_tokens, State.pop_front, hj, List.cons_append, List.tail_cons,
        List.filter_append, ← hrest, List.filter_map, Function.comp_def]
      simp [hhe]
    · intro c
      by_cases hc : c = e
      · subst hc
        simp [State.handler_tokens, State.pop_front]
      · have := h4 c
        simp only [State.handler_tokens] at this
        simp [State.handler_tokens, State.pop_front, Function.update_noteq hc, this]



/-! ## a cycle, a completion and a sequence of steps keep a bind -/

theorem linked_ring {d e : CellId} {f : Val T → Producer A T} {s : State A T}
    (h : Linked d e f s) (sq : List CellId) (cq : List io_uring_cqe)
    (hsq : ∀ x ∈ sq, x ≠ e) (hcq : ∀ q ∈ cq, q.user_data ≠ e) :
    Linked d e f { s with sq := sq, cq := cq } := by
  refine ⟨h.source_lt, h.result_lt, hsq, hcq, ?_⟩
  cases h.stage with
  | waiting h1 h2 h3 h4 h5 => exact .waiting h1 h2 h3 h4 h5
  | ready t0 h1 h2 h3 h4 => exact .ready t0 h1 h2 h3 h4
  | applied c h1 h2 h3 h4 h5 => exact .applied c h1 h2 h3 h4 h5
  | resolving r h1 h2 h3 h4 => exact .resolving r h1 h2 h3 h4
  | settled h1 h3 h4 => exact .settled h1 h3 h4

theorem linked_run_jobs {d e : CellId} {f : Val T → Producer A T} (n : Nat)
    (s : State A T) (h : Linked d e f s) : Linked d e f (Scheduler.run_jobs n s).state := by
  induction n generalizing s with
  | zero => exact h
  | succ n ih =>
    cases hj : s.jobs with
    | nil =>
      simp only [Scheduler.run_jobs, hj]
      exact h
    | cons j js =>
      simp only [Scheduler.run_jobs, hj]
      by_cases ht : j.f.target = some e
      · obtain ⟨s1, h1, hl⟩ := linked_token_job h j js hj ht
        rw [h1]
        exact ih _ hl
      · obtain ⟨hok, hth⟩ := linked_other_job h j js hj ht
        cases hr : j.run s with
        | throw x s1 => exact hth x s1 hr
        | ok s1 => exact ih _ (hok s1 hr)

theorem linked_drain_cq {d e : CellId} {f : Val T → Producer A T} (m : Nat)
    (s : State A T) (h : Linked d e f s) : Linked d e f (Scheduler.drain_cq m s).state := by
  induction m generalizing s with
  | zero => exact h
  | succ m ih =>
    cases hq : s.cq with
    | nil =>
      simp only [Scheduler.drain_cq, hq]
      exact h
    | cons cqe rest =>
      simp only [Scheduler.drain_cq, hq]
      have hce : cqe.user_data ≠ e := h.not_completed cqe (by rw [hq]; exact List.mem_cons_self _ _)
      have hrest : ∀ q ∈ rest, q.user_data ≠ e := fun q hq2 =>
        h.not_completed q (by rw [hq]; exact List.mem_cons_of_mem _ hq2)
      have h1 : Linked d e f { s with cq := rest } := linked_ring h s.sq rest h.not_submitted hrest
      have hf := linked_ivar_fill h1 cqe.user_data (Val.i32 cqe.res) hce
      cases hr : Ivar.fill cqe.user_data (Val.i32 cqe.res) { s with cq := rest } with
      | throw x s1 =>
        rw [hr] at hf
        exact hf
      | ok s1 =>
        rw [hr] at hf
        exact ih s1 hf

theorem linked_do_cycle {d e : CellId} {f : Val T → Producer A T} (s : State A T)
    (h : Linked d e f s) : Linked d e f (Scheduler.do_cycle s).state := by
  rw [Scheduler.do_cycle_eq]
  have h1 := linked_run_jobs s.jobs.length s h
  cases hr : Scheduler.run_jobs s.jobs.length s with
  | throw x s1 =>
    rw [hr] at h1
    exact h1
  | ok s1 =>
    rw [hr] at h1
    exact linked_drain_cq _ s1 h1

theorem linked_complete {d e : CellId} {f : Val T → Producer A T} (i : Nat) (res : Int)
    (s : State A T) (h : Linked d e f s) : Linked d e f (Kernel.complete i res s) := by
  unfold Kernel.complete
  cases hc : s.sq.get? i with
  | none => exact h
  | some c =>
    dsimp only
    have hcm : c ∈ s.sq := List.get?_mem hc
    refine linked_ring h _ _ (fun x hx => h.not_submitted x (List.mem_of_mem_eraseIdx hx))
      (fun q hq => ?_)
    rcases List.mem_append.mp hq with h1 | h1
    · exact h.not_completed q h1
    · rw [List.mem_singleton] at h1
      subst h1
      exact h.not_submitted c hcm

theorem linked_op {d e : CellId} {f : Val T → Producer A T} (op : Op A T) (s : State A T)
    (hav : op.avoids e) (h : Linked d e f s) : Linked d e f (op.apply s) := by
  cases op with
  | produce p => exact linked_neutral h (neutral_eval e p s h.result_lt)
  | fill c v => exact linked_deferred_fill h c v hav
  | upon c k => exact linked_neutral h (neutral_upon e c k hav s)
  | do_cycle => exact linked_do_cycle s h
  | complete i res => exact linked_complete i res s h

theorem linked_run_ops {d e : CellId} {f : Val T → Producer A T} (ops : List (Op A T))
    (s : State A T) (hav : ∀ op ∈ ops, op.avoids e) (h : Linked d e f s) :
    Linked d e f (run_ops ops s) := by
  induction ops generalizing s with
  | nil => exact h
  | cons op ops ih =>
    exact ih _ (fun o ho => hav o (List.mem_cons_of_mem _ ho))
      (linked_op op s (hav op (List.mem_cons_self _ _)) h)


/-! ## building a chain of binds -/

theorem bind_next (d : CellId) (f : Val T → Producer A T) (s : State A T) :
    (Deferred.bind d f s).2.next = s.next + 1 := by
  show (Deferred.upon d (.bind_outer s.next f) (Deferred.new_empty s).2).next = s.next + 1
  rw [upon_next]
  rfl

/-- A bind on an allocated source, made when nothing refers to the cell about to be
allocated, starts the link: waiting if the source is unfilled, ready if it is full. -/
theorem linked_bind (d : CellId) (f : Val T → Producer A T) (s : State A T)
    (hd : d < s.next) (hf : Fresh s.next s) : Linked d s.next f (Deferred.bind d f s).2 := by
  have hds : d ≠ s.next := Nat.ne_of_lt hd
  have hbo : (Cont.bind_outer s.next f : Cont A T).target = some s.next := rfl
  have hn := neutral_new_empty s.next s
  have hj1 : (Deferred.new_empty s).2.job_tokens s.next = [] := hn.jobs_eq.trans hf.no_job
  have hh1 : ∀ c, (Deferred.new_empty s).2.handler_tokens s.next c = [] := fun c => by
    rcases hn.handlers_lost c with h | h
    · exact h.trans (hf.no_handler c)
    · exact h
  have hd1 : ((Deferred.new_empty s).2.heap d).val = (s.heap d).val := hn.val_eq d hd
  have he1 : ((Deferred.new_empty s).2.heap s.next).val = none := by simp [Deferred.new_empty]
  have hnx : (Deferred.new_empty s).2.next = s.next + 1 := rfl
  have hsq : (Deferred.new_empty s).2.sq = s.sq := rfl
  have hcq : (Deferred.new_empty s).2.cq = s.cq := rfl
  show Linked d s.next f (Deferred.upon d (.bind_outer s.next f) (Deferred.new_empty s).2)
  generalize (Deferred.new_empty s).2 = s1 at hj1 hh1 hd1 he1 hnx hsq hcq ⊢
  have hlt1 : d < s1.next := by rw [hnx]; exact Nat.lt_succ_of_lt hd
  have hlt2 : s.next < s1.next := by rw [hnx]; exact Nat.lt_succ_self _
  have hs : ∀ x ∈ s1.sq, x ≠ s.next := by rw [hsq]; exact hf.not_submitted
  have hc : ∀ q ∈ s1.cq, q.user_data ≠ s.next := by rw [hcq]; exact hf.not_completed
  cases hv : (s1.heap d).val with
  | none =>
    rw [Deferred.upon_of_empty _ _ _ hv]
    refine ⟨hlt1, hlt2, hs, hc, .waiting ?_ ?_ hj1 ?_ ?_⟩
    · simp [hv]
    · simp [Function.update_noteq (Ne.symm hds), he1]
    · have := hh1 d
      simp only [State.handler_tokens] at this
      simp [State.handler_tokens, List.filter_append, this, hbo]
    · intro c hcd
      have := hh1 c
      simp only [State.handler_tokens] at this
      simp [State.handler_tokens, Function.update_noteq hcd, this]
  | some t =>
    rw [Deferred.upon_of_full _ _ t _ hv]
    refine ⟨hlt1, hlt2, hs, hc, .ready t hv he1 ?_ hh1⟩
    simp only [State.job_tokens] at hj1
    simp [State.job_tokens, Scheduler.enqueue, List.filter_append, hj1, hbo]

theorem neutral_bind_chain (e : CellId) (fs : List (Val T → Producer A T)) :
    ∀ (d : CellId) (s : State A T), e < s.next → Neutral e s (Deferred.bind_chain d fs s).2 := by
  induction fs with
  | nil => intro d s _; exact neutral_refl e s
  | cons f fs ih =>
    intro d s he
    have h1 := neutral_bind e d f s (Nat.ne_of_lt he)
    exact neutral_trans h1 (ih _ _ (Nat.lt_of_lt_of_le he h1.next_le))

/-- Every link of a chain built on an allocated source, when nothing refers to the cells
about to be allocated, is in place once the chain is built. -/
theorem chain_linked (fs : List (Val T → Producer A T)) :
    ∀ (d : CellId) (s : State A T), d < s.next →
      (∀ i, i < fs.length → Fresh (s.next + i) s) →
      ∀ l ∈ chain_links d s.next fs, Linked l.1 l.2.1 l.2.2 (Deferred.bind_chain d fs s).2 := by
  induction fs with
  | nil =>
    intro d s _ _ l hl
    cases hl
  | cons f fs ih =>
    intro d s hd hfr l hl
    have hnx : (Deferred.bind d f s).2.next = s.next + 1 := bind_next d f s
    simp only [chain_links, List.mem_cons] at hl
    rcases hl with rfl | hl
    · show Linked d s.next f (Deferred.bind_chain s.next fs (Deferred.bind d f s).2).2
      exact linked_neutral (linked_bind d f s hd (hfr 0 (Nat.succ_pos _)))
        (neutral_bind_chain s.next fs _ _ (by rw [hnx]; exact Nat.lt_succ_self _))
    · show Linked l.1 l.2.1 l.2.2 (Deferred.bind_chain s.next fs (Deferred.bind d f s).2).2
      refine ih s.next (Deferred.bind d f s).2 (by rw [hnx]; exact Nat.lt_succ_self _)
        (fun i hi => ?_) l (by rw [hnx]; exact hl)
      rw [hnx]
      have h1 := hfr (i + 1) (Nat.succ_lt_succ hi)
      have he : s.next + 1 + i = s.next + (i + 1) := by
        rw [Nat.add_assoc, Nat.add_comm 1 i]
      rw [he]
      refine fresh_neutral h1 (neutral_bind _ d f s ?_) ?_
      · exact Nat.ne_of_gt (Nat.lt_add_of_pos_right (Nat.succ_pos i))
      · rw [hnx]
        exact Nat.add_le_add_left (Nat.succ_le_succ (Nat.zero_le i)) _


/-! ## what a link says about a state -/

/-- A function object that waits on an allocated cell goes on waiting until the cell is
filled. -/
theorem waits_or_full_stable (c : CellId) (k : Cont A T) :
    Stable (fun s : State A T =>
      c < s.next ∧ (k ∈ (s.heap c).handlers ∨ (s.heap c).val ≠ none)) := by
  refine ⟨?_, fun _ _ h => h, fun _ _ h => h, fun _ _ h => h, fun _ _ h => h, fun _ h => h,
    ?_, ?_⟩
  · intro s o h
    have hc : c ≠ s.next := Nat.ne_of_lt h.1
    refine ⟨Nat.lt_succ_of_lt h.1, ?_⟩
    simp only [Function.update_noteq hc]
    exact h.2
  · intro c2 k2 s h
    refine ⟨by rw [upon_next]; exact h.1, ?_⟩
    cases hv : (s.heap c2).val with
    | none =>
      rw [Deferred.upon_of_empty c2 k2 s hv]
      by_cases hcc : c = c2
      · subst hcc
        rcases h.2 with h1 | h1
        · left
          simp [h1]
        · exact absurd hv h1
      · simp only [Function.update_noteq hcc]
        exact h.2
    | some v =>
      rw [Deferred.upon_of_full c2 k2 v s hv]
      exact h.2
  · intro c2 v s h
    cases hv : (s.heap c2).val with
    | none =>
      rw [ivar_fill_of_empty c2 v s hv]
      refine ⟨h.1, ?_⟩
      simp only [Result.state]
      by_cases hcc : c = c2
      · subst hcc
        right
        simp
      · simp only [Function.update_noteq hcc]
        exact h.2
    | some w =>
      rw [ivar_fill_of_full c2 v w s hv]
      exact h

theorem bind_chain_fst_lt (fs : List (Val T → Producer A T)) :
    ∀ (d : CellId) (s : State A T), d < s.next →
      (Deferred.bind_chain d fs s).1 < (Deferred.bind_chain d fs s).2.next := by
  induction fs with
  | nil => intro d s h; exact h
  | cons f fs ih =>
    intro d s _
    exact ih _ _ (by rw [bind_next]; exact Nat.lt_succ_self _)

/-- While the source of a link is unfilled, the result is unfilled, the outer lambda still
waits on the source and no job works towards the result. -/
theorem linked_source_empty {d e : CellId} {f : Val T → Producer A T} {s : State A T}
    (h : Linked d e f s) (hd : (s.heap d).val = none) :
    (s.heap e).val = none ∧ Cont.bind_outer e f ∈ (s.heap d).handlers ∧
      s.job_tokens e = [] := by
  cases h.stage with
  | waiting h1 h2 h3 h4 h5 =>
    refine ⟨h2, ?_, h3⟩
    have : Cont.bind_outer e f ∈ s.handler_tokens e d := by rw [h4]; exact List.mem_singleton_self _
    exact List.mem_of_mem_filter this
  | ready t0 h1 h2 h3 h4 => rw [hd] at h1; cases h1
  | applied c h1 h2 h3 h4 h5 => exact absurd hd h1
  | resolving r h1 h2 h3 h4 => exact absurd hd h1
  | settled h1 h3 h4 => exact absurd hd h1

/-- A queued job that applies the function of a link carries the value of the source. -/
theorem linked_outer_job {d e : CellId} {f : Val T → Producer A T} {s : State A T}
    (h : Linked d e f s) (v : Val T)
    (hj : ({ f := .bind_outer e f, a := v } : Job A T) ∈ s.jobs) :
    (s.heap d).val = some v := by
  have hm : ({ f := .bind_outer e f, a := v } : Job A T) ∈ s.job_tokens e :=
    List.mem_filter.mpr ⟨hj, by simp [Cont.target]⟩
  cases h.stage with
  | waiting h1 h2 h3 h4 h5 => rw [h3] at hm; cases hm
  | ready t0 h1 h2 h3 h4 =>
    rw [h3, List.mem_singleton] at hm
    have hv : v = t0 := congrArg Job.a hm
    rw [hv]
    exact h1
  | applied c h1 h2 h3 h4 h5 => rw [h3] at hm; cases hm
  | resolving r h1 h2 h3 h4 =>
    rw [h3, List.mem_singleton] at hm
    have hf : (Cont.bind_outer e f : Cont A T) = .bind_inner e := congrArg Job.f hm
    cases hf
  | settled h1 h3 h4 => rw [h3] at hm; cases hm

/-- While the inner lambda of a link waits on a cell, the result is unfilled. -/
theorem linked_inner_waits {d e : CellId} {f : Val T → Producer A T} {s : State A T}
    (h : Linked d e f s) (c : CellId) (hc : Cont.bind_inner e ∈ (s.heap c).handlers) :
    (s.heap e).val = none := by
  have hm : (Cont.bind_inner e : Cont A T) ∈ s.handler_tokens e c :=
    List.mem_filter.mpr ⟨hc, by simp [Cont.target]⟩
  cases h.stage with
  | waiting h1 h2 h3 h4 h5 => exact h2
  | ready t0 h1 h2 h3 h4 => exact h2
  | applied c0 h1 h2 h3 h4 h5 => exact h2
  | resolving r h1 h2 h3 h4 => exact h2
  | settled h1 h3 h4 => rw [h4 c] at hm; cases hm

/-- A filled result has a filled source. -/
theorem linked_result_full {d e : CellId} {f : Val T → Producer A T} {s : State A T}
    (h : Linked d e f s) (he : (s.heap e).val ≠ none) : (s.heap d).val ≠ none := by
  cases h.stage with
  | waiting h1 h2 h3 h4 h5 => exact absurd h2 he
  | ready t0 h1 h2 h3 h4 => exact absurd h2 he
  | applied c0 h1 h2 h3 h4 h5 => exact h1
  | resolving r h1 h2 h3 h4 => exact h1
  | settled h1 h3 h4 => exact h1

/-- If every link of a chain has its source filled whenever its result is, then a filled
end of the chain means a filled start and every result filled. -/
theorem chain_full (full : CellId → Prop) (fs : List (Val T → Producer A T)) :
    ∀ (d : CellId) (s : State A T),
      (∀ l ∈ chain_links d s.next fs, full l.2.1 → full l.1) →
      full (Deferred.bind_chain d fs s).1 →
      full d ∧ ∀ l ∈ chain_links d s.next fs, full l.2.1 := by
  induction fs with
  | nil =>
    intro d s _ h
    exact ⟨h, fun l hl => by cases hl⟩
  | cons f fs ih =>
    intro d s hstep hend
    have hnx : (Deferred.bind d f s).2.next = s.next + 1 := bind_next d f s
    have hrest := ih s.next (Deferred.bind d f s).2
      (fun l hl => hstep l (by
        rw [hnx] at hl
        exact List.mem_cons_of_mem _ hl)) hend
    rw [hnx] at hrest
    refine ⟨hstep (d, s.next, f) (List.mem_cons_self _ _) hrest.1, fun l hl => ?_⟩
    simp only [chain_links, List.mem_cons] at hl
    rcases hl with rfl | hl
    · exact hrest.1
    · exact hrest.2 l hl


/-! ## C13 -/

theorem chain_links_result (fs : List (Val T → Producer A T)) :
    ∀ (d e : CellId), ∀ l ∈ chain_links d e fs, ∃ i, i < fs.length ∧ l.2.1 = e + i := by
  induction fs with
  | nil => intro d e l hl; cases hl
  | cons f fs ih =>
    intro d e l hl
    simp only [chain_links, List.mem_cons] at hl
    rcases hl with rfl | hl
    · exact ⟨0, Nat.succ_pos _, rfl⟩
    · obtain ⟨i, hi, he⟩ := ih e (e + 1) l hl
      refine ⟨i + 1, Nat.succ_lt_succ hi, ?_⟩
      rw [he, Nat.add_assoc, Nat.add_comm 1 i]

/-- C13: bind ordering.  Take the chain `d0.bind(f1).bind(f2)...upon(k)` built on an
allocated handle `d0` when nothing yet refers to the cells the binds will allocate, and
any later sequence of steps (application calls, cycles, kernel completions) in which
nobody else fills a result of the chain: no `fill` on it and no foreign function object
registered that would.  Then in the state reached, for every link `e = d.bind(f)` of the
chain: the outer lambda registers the inner one on the handle `f` returned; while `d` is
unfilled, `e` is unfilled, the outer lambda still waits on `d` and no job works towards
`e`, so `f` has not been applied; a queued job that applies `f` carries the value stored
in `d`; while the inner lambda waits on a cell, `e` is unfilled, and after any further such
steps `e` is full only if that cell, once allocated, is full; a full `e` has a full `d`.
And for the end of the chain: while it is unfilled `k` still waits on it, and when it is
full, `d0` and every result of the chain are full. -/
theorem C13_bind_chain_in_order (d0 : CellId) (fs : List (Val T → Producer A T))
    (k : Val T → A → A) (s0 : State A T) (ops : List (Op A T))
    (hd0 : d0 < s0.next)
    (hfresh : ∀ i, i < fs.length → Fresh (s0.next + i) s0)
    (hav : ∀ op ∈ ops, ∀ i, i < fs.length → op.avoids (s0.next + i))
    (chain : CellId × State A T) (hchain : chain = Deferred.bind_chain d0 fs s0)
    (t : State A T) (ht : t = run_ops ops (Deferred.upon chain.1 (.user k) chain.2)) :
    (∀ l ∈ chain_links d0 s0.next fs,
      (∀ v u, (Cont.bind_outer l.2.1 l.2.2).call v u
        = .ok (Deferred.upon ((l.2.2 v).eval u).1 (.bind_inner l.2.1) ((l.2.2 v).eval u).2)) ∧
      ((t.heap l.1).val = none →
        (t.heap l.2.1).val = none ∧ Cont.bind_outer l.2.1 l.2.2 ∈ (t.heap l.1).handlers ∧
          t.job_tokens l.2.1 = []) ∧
      (∀ v, ({ f := .bind_outer l.2.1 l.2.2, a := v } : Job A T) ∈ t.jobs →
        (t.heap l.1).val = some v) ∧
      (∀ c, Cont.bind_inner l.2.1 ∈ (t.heap c).handlers → (t.heap l.2.1).val = none) ∧
      (∀ c ops2, c < t.next → Cont.bind_inner l.2.1 ∈ (t.heap c).handlers →
        (∀ op ∈ ops2, ∀ i, i < fs.length → op.avoids (s0.next + i)) →
        ((run_ops ops2 t).heap l.2.1).val ≠ none → ((run_ops ops2 t).heap c).val ≠ none) ∧
      ((t.heap l.2.1).val ≠ none → (t.heap l.1).val ≠ none)) ∧
    ((t.heap chain.1).val = none → Cont.user k ∈ (t.heap chain.1).handlers) ∧
    ((t.heap chain.1).val ≠ none →
      (t.heap d0).val ≠ none ∧ ∀ l ∈ chain_links d0 s0.next fs, (t.heap l.2.1).val ≠ none) := by
  subst hchain
  subst ht
  have havl : ∀ l ∈ chain_links d0 s0.next fs, ∀ ops2 : List (Op A T),
      (∀ op ∈ ops2, ∀ i, i < fs.length → op.avoids (s0.next + i)) →
      ∀ op ∈ ops2, op.avoids l.2.1 := by
    intro l hl ops2 h2 op hop
    obtain ⟨i, hi, he⟩ := chain_links_result fs d0 s0.next l hl
    rw [he]
    exact h2 op hop i hi
  have hL1 : ∀ l ∈ chain_links d0 s0.next fs, Linked l.1 l.2.1 l.2.2
      (Deferred.upon (Deferred.bind_chain d0 fs s0).1 (.user k)
        (Deferred.bind_chain d0 fs s0).2) := fun l hl =>
    linked_neutral (chain_linked fs d0 s0 hd0 hfresh l hl)
      (neutral_upon l.2.1 _ (.user k) (fun h => Option.noConfusion h) _)
  have hL : ∀ l ∈ chain_links d0 s0.next fs, Linked l.1 l.2.1 l.2.2
      (run_ops ops (Deferred.upon (Deferred.bind_chain d0 fs s0).1 (.user k)
        (Deferred.bind_chain d0 fs s0).2)) := fun l hl =>
    linked_run_ops ops _ (havl l hl ops hav) (hL1 l hl)
  have hk := stable_run_ops
    (waits_or_full_stable (Deferred.bind_chain d0 fs s0).1 (Cont.user k)) ops
    (Deferred.upon (Deferred.bind_chain d0 fs s0).1 (.user k) (Deferred.bind_chain d0 fs s0).2)
    (by
      refine ⟨by rw [upon_next]; exact bind_chain_fst_lt fs d0 s0 hd0, ?_⟩
      cases hv : ((Deferred.bind_chain d0 fs s0).2.heap (Deferred.bind_chain d0 fs s0).1).val with
      | none =>
        rw [Deferred.upon_of_empty _ _ _ hv]
        left
        simp
      | some v =>
        rw [Deferred.upon_of_full _ _ v _ hv]
        right
        show ((Deferred.bind_chain d0 fs s0).2.heap (Deferred.bind_chain d0 fs s0).1).val ≠ none
        rw [hv]
        exact fun h => Option.noConfusion h)
  refine ⟨fun l hl => ⟨fun _ _ => rfl, linked_source_empty (hL l hl),
    linked_outer_job (hL l hl), linked_inner_waits (hL l hl), ?_,
    linked_result_full (hL l hl)⟩, ?_, ?_⟩
  · intro c ops2 hc hw hav2 hfull
    have hP := stable_run_ops (waits_or_full_stable c (Cont.bind_inner l.2.1)) ops2 _
      ⟨hc, Or.inl hw⟩
    have hL2 := linked_run_ops ops2 _ (havl l hl ops2 hav2) (hL l hl)
    rcases hP.2 with h1 | h1
    · exact absurd (linked_inner_waits hL2 c h1) hfull
    · exact h1
  · intro hnone
    rcases hk.2 with h1 | h1
    · exact h1
    · exact absurd hnone h1
  · intro hfull
    exact chain_full (fun c => ((run_ops ops (Deferred.upon (Deferred.bind_chain d0 fs s0).1
      (.user k) (Deferred.bind_chain d0 fs s0).2)).heap c).val ≠ none) fs d0 s0
      (fun l hl => linked_result_full (hL l hl)) hfull


/-- Witness of C13: `print_some_times` at process start, then the first sleep completes
and four cycles run.  The first function of the chain has been applied and the second
sleep is in flight: the inner lambda of the first bind waits on the handle of that sleep,
the result of the first bind is unfilled, and the final callback still waits on the end
of the chain. -/
theorem C13_bind_chain_in_order_witness :
    (1 : CellId) < (print_time_and_sleep.eval (State.init [])).2.next ∧
    (∀ i : Nat, i < 2 → Fresh ((print_time_and_sleep.eval (State.init [])).2.next + i)
      (print_time_and_sleep.eval (State.init [])).2) ∧
    Cont.bind_inner 2 ∈ ((run_ops [.complete 0 0, .do_cycle, .do_cycle, .do_cycle, .do_cycle]
      (print_some_times (State.init []))).heap 6).handlers ∧
    ((run_ops [.complete 0 0, .do_cycle, .do_cycle, .do_cycle, .do_cycle]
      (print_some_times (State.init []))).heap 2).val = none ∧
    Cont.user (fun _ => print_time) ∈
      ((run_ops [.complete 0 0, .do_cycle, .do_cycle, .do_cycle, .do_cycle]
        (print_some_times (State.init []))).heap 3).handlers := by
  have hd0 : (1 : CellId) < (print_time_and_sleep.eval (State.init [])).2.next :=
    show (1 : Nat) < 2 by decide
  have hfresh : ∀ i : Nat, i < 2 → Fresh ((print_time_and_sleep.eval (State.init [])).2.next + i)
      (print_time_and_sleep.eval (State.init [] : State (List Nat) Nat)).2 := by
    intro i hi
    refine ⟨rfl, fun c => ?_, fun x hx => ?_, fun q hq => by cases hq⟩
    · by_cases h0 : c = 0
      · subst h0
        have hne : ¬ ((1 : Nat) = 2 + i) := by omega
        show List.filter (fun k : Cont (List Nat) Nat => decide (k.target = some (2 + i)))
          [Cont.bind_outer 1 _] = []
        simp [Cont.target, hne]
      · by_cases h1 : c = 1
        · subst h1
          rfl
        · show ((print_time_and_sleep.eval (State.init [] : State (List Nat) Nat)).2.heap c
            ).handlers.filter _ = []
          simp [print_time_and_sleep, Producer.eval, Deferred.ignore, Deferred.map,
            Deferred.bind, Deferred.new_empty, Asyncio.io_uring_op, Deferred.upon, Ivar.value,
            State.init, Function.update_noteq h0, Function.update_noteq h1]
    · have hx0 : x = 0 := List.mem_singleton.mp hx
      rw [hx0]
      show (0 : Nat) ≠ 2 + i
      omega
  have hav : ∀ op ∈ ([.complete 0 0, .do_cycle, .do_cycle, .do_cycle, .do_cycle] :
      List (Op (List Nat) Nat)), ∀ i : Nat, i < 2 →
      op.avoids ((print_time_and_sleep.eval (State.init [])).2.next + i) := by
    intro op hop i _
    simp only [List.mem_cons, List.mem_singleton, List.not_mem_nil, or_false] at hop
    rcases hop with rfl | rfl | rfl | rfl | rfl <;> trivial
  have h := C13_bind_chain_in_order 1
    [fun _ => print_time_and_sleep, fun _ => print_time_and_sleep] (fun _ => print_time)
    (print_time_and_sleep.eval (State.init [])).2
    [.complete 0 0, .do_cycle, .do_cycle, .do_cycle, .do_cycle] hd0 hfresh hav _ rfl _ rfl
  have hw : Cont.bind_inner 2 ∈
      ((run_ops [.complete 0 0, .do_cycle, .do_cycle, .do_cycle, .do_cycle]
        (print_some_times (State.init []))).heap 6).handlers :=
    show Cont.bind_inner 2 ∈ [Cont.bind_inner 2] from List.mem_singleton_self _
  exact ⟨hd0, hfresh, hw,
    (h.1 (1, 2, fun _ => print_time_and_sleep) (List.mem_cons_self _ _)).2.2.2.1 6 hw,
    h.2.1 rfl⟩


/-! ## the stages of a bind, with their history -/

theorem neutral_grows {e : CellId} {s t : State A T} (hn : Neutral e s t) : Grows s t :=
  ⟨hn.next_le, fun c hc _ hv => (hn.val_eq c hc).trans hv⟩

theorem bound_weaken {p : Bool} {d e : CellId} {f : Val T → Producer A T} {s : State A T}
    (h : Bound true d e f s) : Bound p d e f s := by
  refine ⟨h.source_lt, h.result_lt, h.not_submitted, h.not_completed, ?_⟩
  cases h.stage with
  | waiting hp _ _ _ _ _ => cases hp
  | ready hp _ _ _ _ _ => cases hp
  | applied v u h1 hu hc hi h2 h3 h4 h5 => exact .applied v u h1 hu hc hi h2 h3 h4 h5
  | resolving v u r h1 hu hc hi h2 h3 h4 => exact .resolving v u r h1 hu hc hi h2 h3 h4
  | resolved v u r h1 hu hc hi h2 h3 h4 => exact .resolved v u r h1 hu hc hi h2 h3 h4

theorem bound_neutral {p : Bool} {d e : CellId} {f : Val T → Producer A T}
    {s t : State A T} (h : Bound p d e f s) (hn : Neutral e s t) : Bound p d e f t := by
  have hd := hn.val_eq d h.source_lt
  have he := hn.val_eq e h.result_lt
  have hg := neutral_grows hn
  have hnone : ∀ c, s.handler_tokens e c = [] → t.handler_tokens e c = [] := by
    intro c hc
    rcases hn.handlers_lost c with h1 | h1
    · exact h1.trans hc
    · exact h1
  refine ⟨Nat.lt_of_lt_of_le h.source_lt hn.next_le,
    Nat.lt_of_lt_of_le h.result_lt hn.next_le, fun x hx => ?_, fun q hq => ?_, ?_⟩
  · rcases hn.sq_new x hx with h1 | ⟨h1, _⟩
    · exact h.not_submitted x h1
    · exact (Nat.ne_of_lt (Nat.lt_of_lt_of_le h.result_lt h1)).symm
  · rw [hn.cq_eq] at hq
    exact h.not_completed q hq
  · cases h.stage with
    | waiting hp h1 h2 h3 h4 h5 =>
      exact .waiting hp (hd.trans h1) (he.trans h2) (hn.jobs_eq.trans h3)
        ((hn.handlers_eq d h.source_lt).trans h4) (fun c hc => hnone c (h5 c hc))
    | ready hp v h1 h2 h3 h4 =>
      exact .ready hp v (hd.trans h1) (he.trans h2) (hn.jobs_eq.trans h3)
        (fun c => hnone c (h4 c))
    | applied v u h1 hu hc hi h2 h3 h4 h5 =>
      have hcs : ((f v).eval u).1 < s.next := Nat.lt_of_lt_of_le hc hu.1
      exact .applied v u (hd.trans h1) (grows_trans hu hg) hc ((hn.val_eq _ hcs).trans hi)
        (he.trans h2) (hn.jobs_eq.trans h3) ((hn.handlers_eq _ hcs).trans h4)
        (fun c hc2 => hnone c (h5 c hc2))
    | resolving v u r h1 hu hc hi h2 h3 h4 =>
      have hcs : ((f v).eval u).1 < s.next := Nat.lt_of_lt_of_le hc hu.1
      exact .resolving v u r (hd.trans h1) (grows_trans hu hg) hc
        ((hn.val_eq _ hcs).trans hi) (he.trans h2) (hn.jobs_eq.trans h3)
        (fun c => hnone c (h4 c))
    | resolved v u r h1 hu hc hi h2 h3 h4 =>
      have hcs : ((f v).eval u).1 < s.next := Nat.lt_of_lt_of_le hc hu.1
      exact .resolved v u r (hd.trans h1) (grows_trans hu hg) hc
        ((hn.val_eq _ hcs).trans hi) (he.trans h2) (hn.jobs_eq.trans h3)
        (fun c => hnone c (h4 c))

theorem bound_fill {p : Bool} {d e : CellId} {f : Val T → Producer A T} {s : State A T}
    (h : Bound p d e f s) (c : CellId) (w : Val T) (hce : c ≠ e)
    (hv : (s.heap c).val = none) :
    Bound p d e f { s with
      heap := Function.update s.heap c { val := some w, handlers := [] },
      jobs := s.jobs ++ (s.heap c).handlers.map (fun k => { f := k, a := w }) } := by
  have hjt := job_tokens_fill e c w s
    (Function.update s.heap c { val := some w, handlers := [] })
  have hsame := handler_tokens_fill_same e c (some w) s
    (s.jobs ++ (s.heap c).handlers.map (fun k => { f := k, a := w }))
  have hother : ∀ c2, c2 ≠ c → State.handler_tokens e c2 ({ s with
      heap := Function.update s.heap c { val := some w, handlers := [] },
      jobs := s.jobs ++ (s.heap c).handlers.map (fun k => { f := k, a := w }) } : State A T)
        = s.handler_tokens e c2 := fun c2 hc =>
    handler_tokens_fill_other e c c2 hc _ s _
  have hnone : ∀ c2, s.handler_tokens e c2 = [] → State.handler_tokens e c2 ({ s with
      heap := Function.update s.heap c { val := some w, handlers := [] },
      jobs := s.jobs ++ (s.heap c).handlers.map (fun k => { f := k, a := w }) } : State A T)
        = [] := by
    intro c2 h2
    by_cases hc : c2 = c
    · subst hc; exact hsame
    · exact (hother c2 hc).trans h2
  have hval_e : ((Function.update s.heap c { val := some w, handlers := [] }) e).val
      = (s.heap e).val := by
    rw [Function.update_noteq hce.symm]
  have hval : ∀ c2 x, (s.heap c2).val = some x →
      ((Function.update s.heap c { val := some w, handlers := [] }) c2).val = some x := by
    intro c2 x h2
    by_cases hc : c2 = c
    · subst hc; rw [hv] at h2; cases h2
    · rw [Function.update_noteq hc]; exact h2
  have hg : Grows s ({ s with
      heap := Function.update s.heap c { val := some w, handlers := [] },
      jobs := s.jobs ++ (s.heap c).handlers.map (fun k => { f := k, a := w }) } : State A T) :=
    ⟨Nat.le_refl _, fun c2 _ x hx => hval c2 x hx⟩
  refine ⟨h.source_lt, h.result_lt, h.not_submitted, h.not_completed, ?_⟩
  cases h.stage with
  | waiting hp h1 h2 h3 h4 h5 =>
    by_cases hcd : c = d
    · subst hcd
      refine .ready hp w (by simp) (hval_e.trans h2) ?_ (fun c2 => ?_)
      · rw [hjt, h3, h4]; rfl
      · by_cases hc : c2 = c
        · subst hc; exact hsame
        · exact (hother c2 hc).trans (h5 c2 hc)
    · have hc0 : s.handler_tokens e c = [] := h5 c hcd
      refine .waiting hp ?_ (hval_e.trans h2) ?_ ?_ (fun c2 hc => hnone c2 (h5 c2 hc))
      · show ((Function.update s.heap c { val := some w, handlers := [] }) d).val = none
        rw [Function.update_noteq (Ne.symm hcd)]; exact h1
      · rw [hjt, h3, hc0]; rfl
      · exact (hother d (Ne.symm hcd)).trans h4
  | ready hp t0 h1 h2 h3 h4 =>
    refine .ready hp t0 (hval d t0 h1) (hval_e.trans h2) ?_ (fun c2 => hnone c2 (h4 c2))
    rw [hjt, h3, h4 c]; rfl
  | applied v u h1 hu hc hi h2 h3 h4 h5 =>
    by_cases hcc : c = ((f v).eval u).1
    · refine .resolving v u w (hval d v h1) (grows_trans hu hg) hc ?_ (hval_e.trans h2) ?_
        (fun c2 => ?_)
      · show ((Function.update s.heap c { val := some w, handlers := [] })
          ((f v).eval u).1).val = some w
        rw [← hcc]; simp
      · rw [hjt, h3, hcc, h4]; rfl
      · by_cases hc2 : c2 = c
        · subst hc2; exact hsame
        · exact (hother c2 hc2).trans (h5 c2 (by rw [← hcc]; exact hc2))
    · refine .applied v u (hval d v h1) (grows_trans hu hg) hc ?_ (hval_e.trans h2) ?_ ?_
        (fun c2 hc2 => hnone c2 (h5 c2 hc2))
      · show ((Function.update s.heap c { val := some w, handlers := [] })
          ((f v).eval u).1).val = none
        rw [Function.update_noteq (Ne.symm hcc)]; exact hi
      · rw [hjt, h3, h5 c hcc]; rfl
      · exact (hother _ (Ne.symm hcc)).trans h4
  | resolving v u r h1 hu hc hi h2 h3 h4 =>
    refine .resolving v u r (hval d v h1) (grows_trans hu hg) hc (hval _ r hi)
      (hval_e.trans h2) ?_ (fun c2 => hnone c2 (h4 c2))
    rw [hjt, h3, h4 c]; rfl
  | resolved v u r h1 hu hc hi h2 h3 h4 =>
    refine .resolved v u r (hval d v h1) (grows_trans hu hg) hc (hval _ r hi)
      (hval e r h2) ?_ (fun c2 => hnone c2 (h4 c2))
    rw [hjt, h3, h4 c]; rfl

theorem bound_ivar_fill {p : Bool} {d e : CellId} {f : Val T → Producer A T}
    {s : State A T} (h : Bound p d e f s) (c : CellId) (w : Val T) (hce : c ≠ e) :
    Bound p d e f (Ivar.fill c w s).state := by
  cases hv : (s.heap c).val with
  | none =>
    rw [ivar_fill_of_empty c w s hv]
    exact bound_fill h c w hce hv
  | some x =>
    rw [ivar_fill_of_full c w x s hv]
    exact h

theorem bound_deferred_fill {p : Bool} {d e : CellId} {f : Val T → Producer A T}
    {s : State A T} (h : Bound p d e f s) (c : CellId) (w : Val T) (hce : c ≠ e) :
    Bound p d e f (Deferred.fill c w s).state := by
  cases hv : (s.heap c).val with
  | none =>
    rw [deferred_fill_of_empty c w s hv]
    exact bound_neutral (bound_fill h c w hce hv) (neutral_pending e _ _)
  | some x =>
    rw [deferred_fill_of_full c w x s hv]
    exact h


theorem bound_other_job {p : Bool} {d e : CellId} {f : Val T → Producer A T}
    {s : State A T} (h : Bound p d e f s) (j : Job A T) (rest : List (Job A T))
    (hj : s.jobs = j :: rest) (ht : j.f.target ≠ some e) :
    (∀ s1, j.run s = .ok s1 → Bound p d e f (State.pop_front s1)) ∧
    (∀ x s1, j.run s = .throw x s1 → Bound p d e f s1) := by
  obtain ⟨new, hnew⟩ := run_jobs_append j s
  have hpop : ∀ s1, j.run s = .ok s1 → Bound p d e f s1 →
      Bound p d e f (State.pop_front s1) := by
    intro s1 h1 hl
    rw [h1] at hnew
    simp only [Result.state] at hnew
    exact bound_neutral hl (neutral_pop e s1 j (rest ++ new) (by rw [hnew, hj]; rfl) ht)
  obtain ⟨g, a⟩ := j
  cases g with
  | user k =>
    refine ⟨fun s1 h1 => hpop s1 h1 ?_, fun x s1 h1 => by cases h1⟩
    cases h1
    exact bound_neutral h (neutral_app e s _)
  | bind_outer ret g =>
    refine ⟨fun s1 h1 => hpop s1 h1 ?_, fun x s1 h1 => by cases h1⟩
    cases h1
    exact bound_neutral h (neutral_trans (neutral_eval e (g a) s h.result_lt)
      (neutral_upon e _ (.bind_inner ret)
        (show (Cont.bind_inner ret : Cont A T).target ≠ some e from ht) _))
  | bind_inner ret =>
    have hre : ret ≠ e := fun hh => ht (by rw [hh]; rfl)
    have hl := bound_deferred_fill h ret a hre
    constructor
    · intro s1 h1
      have h2 : Deferred.fill ret a s = .ok s1 := h1
      rw [h2] at hl
      exact hpop s1 h1 hl
    · intro x s1 h1
      have h2 : Deferred.fill ret a s = .throw x s1 := h1
      rw [h2] at hl
      exact hl

/-- Running the job of a bind, and popping it, moves the bind one stage on, past the
application of its function; the job does not throw. -/
theorem bound_token_job {p : Bool} {d e : CellId} {f : Val T → Producer A T}
    {s : State A T} (hfa : returns_allocated e f) (h : Bound p d e f s) (j : Job A T)
    (rest : List (Job A T)) (hj : s.jobs = j :: rest) (ht : j.f.target = some e) :
    ∃ s1, j.run s = .ok s1 ∧ Bound true d e f (State.pop_front s1) := by
  have hjt := job_tokens_cons_of_target e s j rest hj ht
  cases h.stage with
  | waiting hp h1 h2 h3 h4 h5 => rw [h3] at hjt; cases hjt
  | applied v u h1 hu hc hi h2 h3 h4 h5 => rw [h3] at hjt; cases hjt
  | resolved v u r h1 hu hc hi h2 h3 h4 => rw [h3] at hjt; cases hjt
  | ready hp t h1 h2 h3 h4 =>
    rw [h3] at hjt
    obtain ⟨hjeq, hrest⟩ := List.cons.inj hjt
    subst hjeq
    have hbo : (Cont.bind_outer e f : Cont A T).target = some e := rfl
    have hbi : (Cont.bind_inner e : Cont A T).target = some e := rfl
    have hne := neutral_eval e (f t) s h.result_lt
    have hle := bound_neutral h hne
    have hcl := hfa t s h.result_lt
    obtain ⟨new, hnew, _⟩ := eval_jobs (f t) s
    have hEjobs : ((f t).eval s).2.jobs
        = { f := .bind_outer e f, a := t } :: (rest ++ new) := by
      rw [hnew, hj]; rfl
    have hrest2 : (rest ++ new).filter (fun j => decide (j.f.target = some e)) = [] := by
      have := hne.jobs_eq
      rw [h3] at this
      simp only [State.job_tokens, hEjobs] at this
      simpa [hbo] using this
    have hEd : (((f t).eval s).2.heap d).val = some t := (hne.val_eq d h.source_lt).trans h1
    have hEe : (((f t).eval s).2.heap e).val = none := (hne.val_eq e h.result_lt).trans h2
    have hEh : ∀ c, ((f t).eval s).2.handler_tokens e c = [] := by
      intro c
      rcases hne.handlers_lost c with h6 | h6
      · exact h6.trans (h4 c)
      · exact h6
    have hq := upon_quiet ((f t).eval s).1 (.bind_inner e) ((f t).eval s).2
    have hgrow : Grows ((f t).eval s).2 (State.pop_front
        (Deferred.upon ((f t).eval s).1 (.bind_inner e) ((f t).eval s).2)) :=
      ⟨hq.1, fun c hc x hx => (hq.2.2 c hc).trans hx⟩
    refine ⟨_, rfl, ?_⟩
    show Bound true d e f (State.pop_front
      (Deferred.upon ((f t).eval s).1 (.bind_inner e) ((f t).eval s).2))
    cases hin : (((f t).eval s).2.heap ((f t).eval s).1).val with
    | none =>
      rw [Deferred.upon_of_empty _ _ _ hin] at hgrow ⊢
      have hid : ((f t).eval s).1 ≠ d := by
        intro hh
        rw [hh, hEd] at hin
        cases hin
      refine ⟨hle.source_lt, hle.result_lt, hle.not_submitted, hle.not_completed, ?_⟩
      refine .applied t s ?_ hgrow hcl ?_ ?_ ?_ ?_ ?_
      · simp [State.pop_front, Function.update_noteq (Ne.symm hid), hEd]
      · simp [State.pop_front, hin]
      · by_cases hie : e = ((f t).eval s).1
        · simp [State.pop_front, ← hie, hEe]
        · simp [State.pop_front, Function.update_noteq hie, hEe]
      · simp only [State.job_tokens, State.pop_front, hEjobs, List.tail_cons]
        exact hrest2
      · have := hEh ((f t).eval s).1
        simp only [State.handler_tokens] at this
        simp [State.handler_tokens, State.pop_front, List.filter_append, this, hbi]
      · intro c2 hc2
        have := hEh c2
        simp only [State.handler_tokens] at this
        simp [State.handler_tokens, State.pop_front, Function.update_noteq hc2, this]
    | some r =>
      rw [Deferred.upon_of_full _ _ r _ hin] at hgrow ⊢
      refine ⟨hle.source_lt, hle.result_lt, hle.not_submitted, hle.not_completed, ?_⟩
      refine .resolving t s r hEd hgrow hcl hin hEe ?_ hEh
      simp only [State.job_tokens, State.pop_front, Scheduler.enqueue, hEjobs,
        List.cons_append, List.tail_cons, List.filter_append, hrest2]
      simp [hbi]
  | resolving v u r h1 hu hc hi h2 h3 h4 =>
    rw [h3] at hjt
    obtain ⟨hjeq, hrest⟩ := List.cons.inj hjt
    subst hjeq
    have hde : d ≠ e := by
      rintro rfl
      rw [h2] at h1
      cases h1
    have hce : ((f v).eval u).1 ≠ e := by
      intro hh
      rw [hh, h2] at hi
      cases hi
    have hg : Grows s (Deferred.fill e r s).state := (deferred_fill_extends e r s).to_grows
    rw [deferred_fill_of_empty e r s h2] at hg
    refine ⟨_, deferred_fill_of_empty e r s h2, ?_⟩
    refine ⟨h.source_lt, h.result_lt, h.not_submitted, h.not_completed, ?_⟩
    have hhe := h4 e
    simp only [State.handler_tokens] at hhe
    refine .resolved v u r ?_ (grows_trans hu ⟨hg.1, hg.2⟩) hc ?_ ?_ ?_ ?_
    · simp [State.pop_front, Function.update_noteq hde, h1]
    · simp [State.pop_front, Function.update_noteq hce, hi]
    · simp [State.pop_front]
    · simp only [State.job_tokens, State.pop_front, hj, List.cons_append, List.tail_cons,
        List.filter_append, ← hrest, List.filter_map, Function.comp_def]
      simp [hhe]
    · intro c
      by_cases hc2 : c = e
      · subst hc2
        simp [State.handler_tokens, State.pop_front]
      · have := h4 c
        simp only [State.handler_tokens] at this
        simp [State.handler_tokens, State.pop_front, Function.update_noteq hc2, this]


theorem bound_ring {p : Bool} {d e : CellId} {f : Val T → Producer A T} {s : State A T}
    (h : Bound p d e f s) (sq : List CellId) (cq : List io_uring_cqe)
    (hsq : ∀ x ∈ sq, x ≠ e) (hcq : ∀ q ∈ cq, q.user_data ≠ e) :
    Bound p d e f { s with sq := sq, cq := cq } := by
  refine ⟨h.source_lt, h.result_lt, hsq, hcq, ?_⟩
  cases h.stage with
  | waiting hp h1 h2 h3 h4 h5 => exact .waiting hp h1 h2 h3 h4 h5
  | ready hp t0 h1 h2 h3 h4 => exact .ready hp t0 h1 h2 h3 h4
  | applied v u h1 hu hc hi h2 h3 h4 h5 =>
    exact .applied v u h1 ⟨hu.1, hu.2⟩ hc hi h2 h3 h4 h5
  | resolving v u r h1 hu hc hi h2 h3 h4 =>
    exact .resolving v u r h1 ⟨hu.1, hu.2⟩ hc hi h2 h3 h4
  | resolved v u r h1 hu hc hi h2 h3 h4 =>
    exact .resolved v u r h1 ⟨hu.1, hu.2⟩ hc hi h2 h3 h4

theorem bound_run_jobs {p : Bool} {d e : CellId} {f : Val T → Producer A T}
    (hfa : returns_allocated e f) (n : Nat) (s : State A T) (h : Bound p d e f s) :
    Bound p d e f (Scheduler.run_jobs n s).state := by
  induction n generalizing s with
  | zero => exact h
  | succ n ih =>
    cases hj : s.jobs with
    | nil =>
      simp only [Scheduler.run_jobs, hj]
      exact h
    | cons j js =>
      simp only [Scheduler.run_jobs, hj]
      by_cases ht : j.f.target = some e
      · obtain ⟨s1, h1, hl⟩ := bound_token_job hfa h j js hj ht
        rw [h1]
        exact ih _ (bound_weaken hl)
      · obtain ⟨hok, hth⟩ := bound_other_job h j js hj ht
        cases hr : j.run s with
        | throw x s1 => exact hth x s1 hr
        | ok s1 => exact ih _ (hok s1 hr)

theorem bound_drain_cq {p : Bool} {d e : CellId} {f : Val T → Producer A T} (m : Nat)
    (s : State A T) (h : Bound p d e f s) : Bound p d e f (Scheduler.drain_cq m s).state := by
  induction m generalizing s with
  | zero => exact h
  | succ m ih =>
    cases hq : s.cq with
    | nil =>
      simp only [Scheduler.drain_cq, hq]
      exact h
    | cons cqe rest =>
      simp only [Scheduler.drain_cq, hq]
      have hce : cqe.user_data ≠ e :=
        h.not_completed cqe (by rw [hq]; exact List.mem_cons_self _ _)
      have hrest : ∀ q ∈ rest, q.user_data ≠ e := fun q hq2 =>
        h.not_completed q (by rw [hq]; exact List.mem_cons_of_mem _ hq2)
      have h1 : Bound p d e f { s with cq := rest } :=
        bound_ring h s.sq rest h.not_submitted hrest
      have hf := bound_ivar_fill h1 cqe.user_data (Val.i32 cqe.res) hce
      cases hr : Ivar.fill cqe.user_data (Val.i32 cqe.res) { s with cq := rest } with
      | throw x s1 =>
        rw [hr] at hf
        exact hf
      | ok s1 =>
        rw [hr] at hf
        exact ih s1 hf

theorem bound_do_cycle {p : Bool} {d e : CellId} {f : Val T → Producer A T}
    (hfa : returns_allocated e f) (s : State A T) (h : Bound p d e f s) :
    Bound p d e f (Scheduler.do_cycle s).state := by
  rw [Scheduler.do_cycle_eq]
  have h1 := bound_run_jobs hfa s.jobs.length s h
  cases hr : Scheduler.run_jobs s.jobs.length s with
  | throw x s1 =>
    rw [hr] at h1
    exact h1
  | ok s1 =>
    rw [hr] at h1
    exact bound_drain_cq _ s1 h1

theorem bound_complete {p : Bool} {d e : CellId} {f : Val T → Producer A T} (i : Nat)
    (res : Int) (s : State A T) (h : Bound p d e f s) :
    Bound p d e f (Kernel.complete i res s) := by
  unfold Kernel.complete
  cases hc : s.sq.get? i with
  | none => exact h
  | some c =>
    dsimp only
    have hcm : c ∈ s.sq := List.get?_mem hc
    refine bound_ring h _ _ (fun x hx => h.not_submitted x (List.mem_of_mem_eraseIdx hx))
      (fun q hq => ?_)
    rcases List.mem_append.mp hq with h1 | h1
    · exact h.not_completed q h1
    · rw [List.mem_singleton] at h1
      subst h1
      exact h.not_submitted c hcm

theorem bound_op {p : Bool} {d e : CellId} {f : Val T → Producer A T}
    (hfa : returns_allocated e f) (op : Op A T) (s : State A T) (hav : op.avoids e)
    (h : Bound p d e f s) : Bound p d e f (op.apply s) := by
  cases op with
  | produce q => exact bound_neutral h (neutral_eval e q s h.result_lt)
  | fill c v => exact bound_deferred_fill h c v hav
  | upon c k => exact bound_neutral h (neutral_upon e c k hav s)
  | do_cycle => exact bound_do_cycle hfa s h
  | complete i res => exact bound_complete i res s h

theorem bound_run_ops {p : Bool} {d e : CellId} {f : Val T → Producer A T}
    (hfa : returns_allocated e f) (ops : List (Op A T)) (s : State A T)
    (hav : ∀ op ∈ ops, op.avoids e) (h : Bound p d e f s) :
    Bound p d e f (run_ops ops s) := by
  induction ops generalizing s with
  | nil => exact h
  | cons op ops ih =>
    exact ih _ (fun o ho => hav o (List.mem_cons_of_mem _ ho))
      (bound_op hfa op s (hav op (List.mem_cons_self _ _)) h)

/-- A bind on an allocated source, made when nothing refers to the cell about to be
allocated, starts waiting if the source is unfilled and ready if it is full. -/
theorem bound_bind (d : CellId) (f : Val T → Producer A T) (s : State A T)
    (hd : d < s.next) (hf : Fresh s.next s) :
    Bound false d s.next f (Deferred.bind d f s).2 := by
  have hds : d ≠ s.next := Nat.ne_of_lt hd
  have hbo : (Cont.bind_outer s.next f : Cont A T).target = some s.next := rfl
  have hn := neutral_new_empty s.next s
  have hj1 : (Deferred.new_empty s).2.job_tokens s.next = [] := hn.jobs_eq.trans hf.no_job
  have hh1 : ∀ c, (Deferred.new_empty s).2.handler_tokens s.next c = [] := fun c => by
    rcases hn.handlers_lost c with h | h
    · exact h.trans (hf.no_handler c)
    · exact h
  have hd1 : ((Deferred.new_empty s).2.heap d).val = (s.heap d).val := hn.val_eq d hd
  have he1 : ((Deferred.new_empty s).2.heap s.next).val = none := by simp [Deferred.new_empty]
  have hnx : (Deferred.new_empty s).2.next = s.next + 1 := rfl
  have hsq : (Deferred.new_empty s).2.sq = s.sq := rfl
  have hcq : (Deferred.new_empty s).2.cq = s.cq := rfl
  show Bound false d s.next f
    (Deferred.upon d (.bind_outer s.next f) (Deferred.new_empty s).2)
  generalize (Deferred.new_empty s).2 = s1 at hj1 hh1 hd1 he1 hnx hsq hcq ⊢
  have hlt1 : d < s1.next := by rw [hnx]; exact Nat.lt_succ_of_lt hd
  have hlt2 : s.next < s1.next := by rw [hnx]; exact Nat.lt_succ_self _
  have hs : ∀ x ∈ s1.sq, x ≠ s.next := by rw [hsq]; exact hf.not_submitted
  have hc : ∀ q ∈ s1.cq, q.user_data ≠ s.next := by rw [hcq]; exact hf.not_completed
  cases hv : (s1.heap d).val with
  | none =>
    rw [Deferred.upon_of_empty _ _ _ hv]
    refine ⟨hlt1, hlt2, hs, hc, .waiting rfl ?_ ?_ hj1 ?_ ?_⟩
    · simp [hv]
    · simp [Function.update_noteq (Ne.symm hds), he1]
    · have := hh1 d
      simp only [State.handler_tokens] at this
      simp [State.handler_tokens, List.filter_append, this, hbo]
    · intro c hcd
      have := hh1 c
      simp only [State.handler_tokens] at this
      simp [State.handler_tokens, Function.update_noteq hcd, this]
  | some t =>
    rw [Deferred.upon_of_full _ _ t _ hv]
    refine ⟨hlt1, hlt2, hs, hc, .ready rfl t hv he1 ?_ hh1⟩
    simp only [State.job_tokens] at hj1
    simp [State.job_tokens, Scheduler.enqueue, List.filter_append, hj1, hbo]


/-! ## the cycle that runs the job of a bind -/

theorem do_cycle_ok_parts (s t : State A T) (hr : Scheduler.do_cycle s = .ok t) :
    ∃ s1, Scheduler.run_jobs s.jobs.length s = .ok s1 ∧
      Scheduler.drain_cq s.cq.length s1 = .ok t := by
  rw [Scheduler.do_cycle_eq] at hr
  cases h1 : Scheduler.run_jobs s.jobs.length s with
  | throw x s1 => rw [h1] at hr; cases hr
  | ok s1 => rw [h1] at hr; exact ⟨s1, rfl, hr⟩

/-- A job loop that returns has run every job that was within its count: for a job behind
`pre`, the loop ran `pre`, found the job at the front, ran it, and went on. -/
theorem run_jobs_front (pre : List (Job A T)) :
    ∀ (n : Nat) (s : State A T) (j : Job A T) (post : List (Job A T)),
      s.jobs = pre ++ j :: post → pre.length < n →
      ∀ t, Scheduler.run_jobs n s = .ok t →
      ∃ u u1 new, Scheduler.run_jobs pre.length s = .ok u ∧ u.jobs = j :: (post ++ new) ∧
        j.run u = .ok u1 ∧
        Scheduler.run_jobs (n - pre.length - 1) (State.pop_front u1) = .ok t := by
  induction pre with
  | nil =>
    intro n s j post hj hn t hr
    obtain ⟨n1, rfl⟩ : ∃ n1, n = n1 + 1 := ⟨n - 1, by simp at hn; omega⟩
    simp only [List.nil_append] at hj
    simp only [Scheduler.run_jobs, hj] at hr
    cases hrun : j.run s with
    | throw x s1 => rw [hrun] at hr; cases hr
    | ok u1 =>
      rw [hrun] at hr
      refine ⟨s, u1, [], rfl, by simp [hj], hrun, ?_⟩
      simpa using hr
  | cons j0 pre ih =>
    intro n s j post hj hn t hr
    obtain ⟨n1, rfl⟩ : ∃ n1, n = n1 + 1 := ⟨n - 1, by simp at hn; omega⟩
    have hj2 : s.jobs = j0 :: (pre ++ j :: post) := hj
    simp only [Scheduler.run_jobs, hj2] at hr
    obtain ⟨new0, hnew0⟩ := run_jobs_append j0 s
    cases hrun : j0.run s with
    | throw x s1 => rw [hrun] at hr; cases hr
    | ok s1 =>
      rw [hrun] at hr hnew0
      simp only [Result.state] at hnew0
      have hpj : (State.pop_front s1).jobs = pre ++ j :: (post ++ new0) := by
        simp [State.pop_front, hnew0, hj2]
      have hn1 : pre.length < n1 := by simp at hn; omega
      obtain ⟨u, u1, new, hu, huj, hju, hrest⟩ := ih n1 _ j (post ++ new0) hpj hn1 t hr
      refine ⟨u, u1, new0 ++ new, ?_, ?_, hju, ?_⟩
      · simp only [List.length_cons, Scheduler.run_jobs, hj2, hrun]
        exact hu
      · rw [huj, List.append_assoc]
      · have : n1 + 1 - (j0 :: pre).length - 1 = n1 - pre.length - 1 := by
          simp only [List.length_cons]; omega
        rw [this]
        exact hrest

theorem deferred_fill_ok_val (c : CellId) (w : Val T) (s t : State A T)
    (h : Deferred.fill c w s = .ok t) : (t.heap c).val = some w := by
  cases hv : (s.heap c).val with
  | none =>
    rw [deferred_fill_of_empty c w s hv] at h
    cases h
    simp
  | some x =>
    rw [deferred_fill_of_full c w x s hv] at h
    cases h

/-- A cycle that returns has run the queued job of a bind: the bind is past the
application of its function, and if the job was the inner lambda with `r`, the result
holds `r`. -/
theorem bound_cycle_job {p : Bool} {d e : CellId} {f : Val T → Producer A T}
    (hfa : returns_allocated e f) (s : State A T) (h : Bound p d e f s) (j : Job A T)
    (hm : j ∈ s.jobs) (ht : j.f.target = some e) (t : State A T)
    (hr : Scheduler.do_cycle s = .ok t) :
    Bound true d e f t ∧ (j.f = .bind_inner e → (t.heap e).val = some j.a) := by
  obtain ⟨s1, h1, h2⟩ := do_cycle_ok_parts s t hr
  obtain ⟨pre, post, hsplit⟩ := List.append_of_mem hm
  have hlen : pre.length < s.jobs.length := by rw [hsplit]; simp
  obtain ⟨u, u1, new, hu, huj, hju, hrest⟩ :=
    run_jobs_front pre _ s j post hsplit hlen s1 h1
  have hbu : Bound p d e f u := by
    have := bound_run_jobs hfa pre.length s h
    rw [hu] at this
    exact this
  obtain ⟨s2, hrun, hb1⟩ := bound_token_job hfa hbu j (post ++ new) huj ht
  rw [hju] at hrun
  cases hrun
  have hb2 := bound_run_jobs hfa (s.jobs.length - pre.length - 1) _ hb1
  rw [hrest] at hb2
  have hb3 := bound_drain_cq s.cq.length s1 hb2
  rw [h2] at hb3
  refine ⟨hb3, fun hf => ?_⟩
  have hfill : Deferred.fill e j.a u = .ok u1 := by
    have : j.f.call j.a u = .ok u1 := hju
    rw [hf] at this
    exact this
  have hv1 : ((State.pop_front u1).heap e).val = some j.a := deferred_fill_ok_val e j.a u u1 hfill
  have he1 := run_jobs_extends (s.jobs.length - pre.length - 1) (State.pop_front u1)
  rw [hrest] at he1
  have hv2 : (s1.heap e).val = some j.a := he1.2.2 e hb1.result_lt _ hv1
  have hg := drain_cq_grows s.cq.length s1
  rw [h2] at hg
  exact hg.2 e hb2.result_lt _ hv2

/-- Past the application no function object that would apply `f` again is left, queued or
waiting. -/
theorem bound_past_no_outer {d e : CellId} {f : Val T → Producer A T} {s : State A T}
    (h : Bound true d e f s) :
    (∀ j ∈ s.jobs, j.f ≠ .bind_outer e f) ∧
    (∀ c, Cont.bind_outer e f ∉ (s.heap c).handlers) := by
  have hbo : (Cont.bind_outer e f : Cont A T).target = some e := rfl
  have hjob : ∀ j ∈ s.jobs, j.f = .bind_outer e f → j ∈ s.job_tokens e := fun j hj hf =>
    List.mem_filter.mpr ⟨hj, by rw [hf]; simp [hbo]⟩
  have hhan : ∀ c, Cont.bind_outer e f ∈ (s.heap c).handlers →
      Cont.bind_outer e f ∈ s.handler_tokens e c := fun c hc =>
    List.mem_filter.mpr ⟨hc, by simp [hbo]⟩
  cases h.stage with
  | waiting hp _ _ _ _ _ => cases hp
  | ready hp _ _ _ _ _ => cases hp
  | applied v u h1 hu hc hi h2 h3 h4 h5 =>
    refine ⟨fun j hj hf => ?_, fun c hc2 => ?_⟩
    · have := hjob j hj hf
      rw [h3] at this
      cases this
    · have := hhan c hc2
      by_cases hcc : c = ((f v).eval u).1
      · rw [hcc, h4, List.mem_singleton] at this
        cases this
      · rw [h5 c hcc] at this
        cases this
  | resolving v u r h1 hu hc hi h2 h3 h4 =>
    refine ⟨fun j hj hf => ?_, fun c hc2 => ?_⟩
    · have := hjob j hj hf
      rw [h3, List.mem_singleton] at this
      rw [this] at hf
      cases hf
    · have := hhan c hc2
      rw [h4 c] at this
      cases this
  | resolved v u r h1 hu hc hi h2 h3 h4 =>
    refine ⟨fun j hj hf => ?_, fun c hc2 => ?_⟩
    · have := hjob j hj hf
      rw [h3] at this
      cases this
    · have := hhan c hc2
      rw [h4 c] at this
      cases this

/-- The job loop returns on jobs that fill nothing themselves and on the jobs of the
bind. -/
theorem run_jobs_quiet_ok {d e : CellId} {f : Val T → Producer A T}
    (hfa : returns_allocated e f) (pre : List (Job A T)) :
    ∀ (p : Bool) (s : State A T) (post : List (Job A T)), Bound p d e f s →
      s.jobs = pre ++ post → (∀ j ∈ pre, j.f.benign ∨ j.f.target = some e) →
      ∃ t, Scheduler.run_jobs pre.length s = .ok t := by
  induction pre with
  | nil => intro p s post _ _ _; exact ⟨s, rfl⟩
  | cons j pre ih =>
    intro p s post h hj hb
    have hj2 : s.jobs = j :: (pre ++ post) := hj
    obtain ⟨new, hnew⟩ := run_jobs_append j s
    have hrest : ∀ k ∈ pre, k.f.benign ∨ k.f.target = some e := fun k hk =>
      hb k (List.mem_cons_of_mem _ hk)
    by_cases ht : j.f.target = some e
    · obtain ⟨s1, hrun, hb1⟩ := bound_token_job hfa h j (pre ++ post) hj2 ht
      rw [hrun] at hnew
      simp only [Result.state] at hnew
      obtain ⟨t, ht2⟩ := ih true (State.pop_front s1) (post ++ new) hb1
        (by simp [State.pop_front, hnew, hj2]) hrest
      refine ⟨t, ?_⟩
      simp only [List.length_cons, Scheduler.run_jobs, hj2, hrun]
      exact ht2
    · have hben : j.f.benign := (hb j (List.mem_cons_self _ _)).resolve_right ht
      obtain ⟨s1, hcall, _⟩ := call_benign_quiet j.f hben j.a s
      have hrun : j.run s = .ok s1 := hcall
      rw [hrun] at hnew
      simp only [Result.state] at hnew
      obtain ⟨t, ht2⟩ := ih p (State.pop_front s1) (post ++ new)
        ((bound_other_job h j (pre ++ post) hj2 ht).1 s1 hrun)
        (by simp [State.pop_front, hnew, hj2]) hrest
      refine ⟨t, ?_⟩
      simp only [List.length_cons, Scheduler.run_jobs, hj2, hrun]
      exact ht2

theorem do_cycle_quiet_ok {p : Bool} {d e : CellId} {f : Val T → Producer A T}
    (hfa : returns_allocated e f) (s : State A T) (h : Bound p d e f s) (hq : s.cq = [])
    (hb : ∀ j ∈ s.jobs, j.f.benign ∨ j.f.target = some e) :
    ∃ t, Scheduler.do_cycle s = .ok t := by
  obtain ⟨t, ht⟩ := run_jobs_quiet_ok hfa s.jobs p s [] h (by simp) hb
  exact ⟨t, Scheduler.do_cycle_of_run_jobs s t hq ht⟩


/-! ## C3 -/

theorem fresh_of_idle (e : CellId) (s : State A T) (hj : s.jobs = [])
    (hh : ∀ c, (s.heap c).handlers = []) (hs : s.sq = []) (hc : s.cq = []) : Fresh e s := by
  refine ⟨?_, fun c => ?_, fun x hx => ?_, fun q hq => ?_⟩
  · simp [State.job_tokens, hj]
  · simp [State.handler_tokens, hh c]
  · rw [hs] at hx; cases hx
  · rw [hc] at hq; cases hq

theorem state_jobs_eta (x : State A T) (js : List (Job A T)) (h : x.jobs = js) :
    x = { x with jobs := js, app := x.app } := by
  cases x
  simp only at h
  subst h
  rfl
/-- Two cycles from the state in which application callbacks and then the outer lambda of
a bind are queued with `v`, and no completion is ready: the first cycle returns, having
run the callbacks and applied `f` once, to `v`, in the state `u` they left; if the handle
`f` returned is full with `r`, the second cycle returns with `e` holding `r`. -/
theorem bound_two_cycles {p : Bool} {d e : CellId} {f : Val T → Producer A T}
    (hfa : returns_allocated e f) (s u : State A T) (hb : Bound p d e f s) (v : Val T)
    (us : List (Val T → A → A))
    (hj : s.jobs = us.map (fun h => { f := Cont.user h, a := v })
      ++ [{ f := .bind_outer e f, a := v }])
    (hq : s.cq = [])
    (hu : u = { s with jobs := [{ f := .bind_outer e f, a := v }],
                       app := us.foldl (fun a h => h v a) s.app }) :
    ∃ t1, Scheduler.do_cycle s = .ok t1 ∧
      t1 = State.pop_front
        (Deferred.upon ((f v).eval u).1 (.bind_inner e) ((f v).eval u).2) ∧
      (t1.heap e).val = none ∧
      ∀ r, (t1.heap ((f v).eval u).1).val = some r →
        ∃ t2, Scheduler.do_cycle t1 = .ok t2 ∧ (t2.heap e).val = some r := by
  have hbo : (Cont.bind_outer e f : Cont A T).target = some e := rfl
  have hbi : (Cont.bind_inner e : Cont A T).target = some e := rfl
  have hlen : s.jobs.length = us.length + 1 := by simp [hj]
  have hrunu : Scheduler.run_jobs us.length s = .ok u := by
    rw [hu]
    exact Scheduler.run_jobs_user v us _ s hj
  have huj : u.jobs = [{ f := .bind_outer e f, a := v }] := by rw [hu]
  have huq : u.cq = [] := by rw [hu]; exact hq
  have hrun : Scheduler.run_jobs s.jobs.length s = .ok (State.pop_front
      (Deferred.upon ((f v).eval u).1 (.bind_inner e) ((f v).eval u).2)) := by
    rw [hlen, run_jobs_add, hrunu]
    simp only [Scheduler.run_jobs, huj, Job.run, Cont.call]
  have hc1 := Scheduler.do_cycle_of_run_jobs s _ hq hrun
  have hbu : Bound p d e f u := by
    have := bound_run_jobs hfa us.length s hb
    rw [hrunu] at this
    exact this
  have hmem : ({ f := .bind_outer e f, a := v } : Job A T) ∈ s.jobs := by
    rw [hj]
    exact List.mem_append_right _ (List.mem_singleton_self _)
  have hb1 := (bound_cycle_job hfa s hb _ hmem hbo _ hc1).1
  have hjt : u.job_tokens e = [{ f := .bind_outer e f, a := v }] := by
    simp [State.job_tokens, huj, hbo]
  have heu : (u.heap e).val = none := by
    cases hbu.stage with
    | waiting hp h1 h2 h3 h4 h5 => exact h2
    | ready hp v0 h1 h2 h3 h4 => exact h2
    | applied v0 u0 h1 hu0 hc hi h2 h3 h4 h5 => exact h2
    | resolving v0 u0 r h1 hu0 hc hi h2 h3 h4 => exact h2
    | resolved v0 u0 r h1 hu0 hc hi h2 h3 h4 => rw [hjt] at h3; cases h3
  have hqe := eval_quiet (f v) u
  have hqu := upon_quiet ((f v).eval u).1 (.bind_inner e) ((f v).eval u).2
  have hcl := hfa v u hbu.result_lt
  have hlt : e < ((f v).eval u).2.next := Nat.lt_of_lt_of_le hbu.result_lt hqe.1
  refine ⟨_, hc1, rfl, ?_, fun r hr => ?_⟩
  · show ((Deferred.upon ((f v).eval u).1 (.bind_inner e) ((f v).eval u).2).heap e).val = none
    rw [hqu.2.2 e hlt, hqe.2.2 e hbu.result_lt]
    exact heu
  · have hin : (((f v).eval u).2.heap ((f v).eval u).1).val = some r := by
      rw [← hqu.2.2 _ hcl]
      exact hr
    obtain ⟨new, hnew, hben⟩ := eval_jobs (f v) u
    have hup := Deferred.upon_of_full ((f v).eval u).1 (.bind_inner e) r _ hin
    have hjobs : (State.pop_front
        (Deferred.upon ((f v).eval u).1 (.bind_inner e) ((f v).eval u).2)).jobs
        = new ++ [{ f := .bind_inner e, a := r }] := by
      rw [hup]
      simp [State.pop_front, Scheduler.enqueue, hnew, huj]
    have hcq : (State.pop_front
        (Deferred.upon ((f v).eval u).1 (.bind_inner e) ((f v).eval u).2)).cq = [] := by
      show (Deferred.upon ((f v).eval u).1 (.bind_inner e) ((f v).eval u).2).cq = []
      rw [hqu.2.1, hqe.2.1]
      exact huq
    obtain ⟨t2, hc2⟩ := do_cycle_quiet_ok hfa _ hb1 hcq (by
      intro j hjm
      rw [hjobs] at hjm
      rcases List.mem_append.mp hjm with h | h
      · exact Or.inl (hben j h)
      · rw [List.mem_singleton] at h
        rw [h]
        exact Or.inr hbi)
    refine ⟨t2, hc2, ?_⟩
    exact (bound_cycle_job hfa _ hb1 { f := .bind_inner e, a := r }
      (by rw [hjobs]; exact List.mem_append_right _ (List.mem_singleton_self _))
      hbi t2 hc2).2 rfl

/-- C3: `e = d.bind(f)` for every allocated handle `d`, resolved or not, in every state in
which nothing yet refers to the cell `e` about to be allocated, for every `f` that returns
handles of allocated cells, and every later sequence of steps (application calls,
cycles, kernel completions) in which nobody else fills `e`.  In the state `t` reached:

* while `d` is unfilled, `e` is unfilled, the outer lambda waits on `d`, no job works
  towards `e`, and a fill of `d` (by `Deferred::fill` or by a completion) queues the
  outer lambda with the value;
* when `d` holds `v`, either `f` is about to be applied (`e` is unfilled and the one
  function object working towards it is the outer lambda, queued with `v`; a cycle that
  returns has applied `f` and left no object that would apply it again), or `f` has been
  applied exactly once, to `v`, in some state `u`, and nothing would apply it again; with
  `c` the handle it returned: while `c` is unfilled, `e` is unfilled and the inner lambda
  waits on `c`; when `c` holds `r`, either `e` holds exactly `r` and nothing works towards
  `e` any more (it is filled once), or `e` is unfilled with the inner lambda queued with
  `r` as the one object working towards it, and after a cycle that returns `e` holds `r`;
* the job of the bind at the front of the queue returns normally: neither lambda of
  `bind` throws;
* when no completion is ready and the queued jobs are application callbacks, outer
  lambdas and the jobs of this bind, the cycle returns;
* on a reactor with nothing else to do, both for `d` already holding `v` and for `d`
  unfilled with application callbacks waiting and then `d.fill(v)`: the next cycle
  returns, its end state being the one obtained by evaluating `f v` once (after the
  callbacks of `d`), registering the inner lambda on the handle returned and popping the
  job, with `e` still unfilled; and if that handle is full with `r`, the cycle after
  returns with `e` holding `r`. -/
theorem C3_bind_resolves (s : State A T) (d : CellId) (f : Val T → Producer A T)
    (ops : List (Op A T)) (hd : d < s.next) (hf : Fresh s.next s)
    (hfa : returns_allocated s.next f) (hav : ∀ op ∈ ops, op.avoids s.next)
    (t : State A T) (ht : t = run_ops ops (Deferred.bind d f s).2) :
    (Deferred.bind d f s).1 = s.next ∧
    ((t.heap d).val = none →
      (t.heap s.next).val = none ∧ Cont.bind_outer s.next f ∈ (t.heap d).handlers ∧
      t.job_tokens s.next = [] ∧
      ∀ v, ({ f := .bind_outer s.next f, a := v } : Job A T) ∈ (Ivar.fill d v t).state.jobs ∧
        ({ f := .bind_outer s.next f, a := v } : Job A T) ∈ (Deferred.fill d v t).state.jobs) ∧
    (∀ v, (t.heap d).val = some v →
      ((t.heap s.next).val = none ∧
        t.job_tokens s.next = [{ f := .bind_outer s.next f, a := v }] ∧
        (∀ c, t.handler_tokens s.next c = []) ∧
        ∀ t2, Scheduler.do_cycle t = .ok t2 →
          (∀ j ∈ t2.jobs, j.f ≠ .bind_outer s.next f) ∧
          (∀ c, Cont.bind_outer s.next f ∉ (t2.heap c).handlers)) ∨
      (∃ u : State A T,
        Grows ((f v).eval u).2 t ∧ ((f v).eval u).1 < ((f v).eval u).2.next ∧
        (∀ j ∈ t.jobs, j.f ≠ .bind_outer s.next f) ∧
        (∀ c, Cont.bind_outer s.next f ∉ (t.heap c).handlers) ∧
        ((t.heap ((f v).eval u).1).val = none →
          (t.heap s.next).val = none ∧
          Cont.bind_inner s.next ∈ (t.heap ((f v).eval u).1).handlers ∧
          t.job_tokens s.next = []) ∧
        (∀ r, (t.heap ((f v).eval u).1).val = some r →
          (((t.heap s.next).val = some r ∧ t.job_tokens s.next = [] ∧
              ∀ c, t.handler_tokens s.next c = []) ∨
            ((t.heap s.next).val = none ∧
              t.job_tokens s.next = [{ f := .bind_inner s.next, a := r }] ∧
              ∀ c, t.handler_tokens s.next c = [])) ∧
          ∀ t2, Scheduler.do_cycle t = .ok t2 → (t2.heap s.next).val = some r))) ∧
    (∀ j rest, t.jobs = j :: rest → j.f.target = some s.next → ∃ t1, j.run t = .ok t1) ∧
    (t.cq = [] → (∀ j ∈ t.jobs, j.f.benign ∨ j.f.target = some s.next) →
      ∃ t2, Scheduler.do_cycle t = .ok t2) ∧
    (s.jobs = [] → s.cq = [] → ∀ v : Val T,
      ((s.heap d).val = some v →
        ∃ t1, Scheduler.do_cycle (Deferred.bind d f s).2 = .ok t1 ∧
          t1 = State.pop_front
            (Deferred.upon ((f v).eval (Deferred.bind d f s).2).1 (.bind_inner s.next)
              ((f v).eval (Deferred.bind d f s).2).2) ∧
          (t1.heap s.next).val = none ∧
          ∀ r, (t1.heap ((f v).eval (Deferred.bind d f s).2).1).val = some r →
            ∃ t2, Scheduler.do_cycle t1 = .ok t2 ∧ (t2.heap s.next).val = some r) ∧
      (∀ us : List (Val T → A → A),
        s.heap d = { val := none, handlers := us.map Cont.user } →
        ∃ s2 u, Deferred.fill d v (Deferred.bind d f s).2 = .ok s2 ∧
          u = { s2 with jobs := [{ f := .bind_outer s.next f, a := v }],
                        app := us.foldl (fun a h => h v a) s2.app } ∧
          ∃ t1, Scheduler.do_cycle s2 = .ok t1 ∧
            t1 = State.pop_front
              (Deferred.upon ((f v).eval u).1 (.bind_inner s.next) ((f v).eval u).2) ∧
            (t1.heap s.next).val = none ∧
            ∀ r, (t1.heap ((f v).eval u).1).val = some r →
              ∃ t2, Scheduler.do_cycle t1 = .ok t2 ∧ (t2.heap s.next).val = some r)) := by
  have hscen : s.jobs = [] → s.cq = [] → ∀ v : Val T,
      ((s.heap d).val = some v →
        ∃ t1, Scheduler.do_cycle (Deferred.bind d f s).2 = .ok t1 ∧
          t1 = State.pop_front
            (Deferred.upon ((f v).eval (Deferred.bind d f s).2).1 (.bind_inner s.next)
              ((f v).eval (Deferred.bind d f s).2).2) ∧
          (t1.heap s.next).val = none ∧
          ∀ r, (t1.heap ((f v).eval (Deferred.bind d f s).2).1).val = some r →
            ∃ t2, Scheduler.do_cycle t1 = .ok t2 ∧ (t2.heap s.next).val = some r) ∧
      (∀ us : List (Val T → A → A),
        s.heap d = { val := none, handlers := us.map Cont.user } →
        ∃ s2 u, Deferred.fill d v (Deferred.bind d f s).2 = .ok s2 ∧
          u = { s2 with jobs := [{ f := .bind_outer s.next f, a := v }],
                        app := us.foldl (fun a h => h v a) s2.app } ∧
          ∃ t1, Scheduler.do_cycle s2 = .ok t1 ∧
            t1 = State.pop_front
              (Deferred.upon ((f v).eval u).1 (.bind_inner s.next) ((f v).eval u).2) ∧
            (t1.heap s.next).val = none ∧
            ∀ r, (t1.heap ((f v).eval u).1).val = some r →
              ∃ t2, Scheduler.do_cycle t1 = .ok t2 ∧ (t2.heap s.next).val = some r) := by
    intro hj hq v
    have hne : d ≠ s.next := Nat.ne_of_lt hd
    have hbS := bound_bind d f s hd hf
    constructor
    · intro hv
      have hS : (Deferred.bind d f s).2
          = Scheduler.enqueue (.bind_outer s.next f) v (Deferred.new_empty s).2 :=
        Deferred.upon_of_full d _ v _
          (by simp [Deferred.new_empty, Function.update_noteq hne, hv])
      have hSj : (Deferred.bind d f s).2.jobs = [{ f := .bind_outer s.next f, a := v }] := by
        rw [hS]; simp [Scheduler.enqueue, Deferred.new_empty, hj]
      have hSq : (Deferred.bind d f s).2.cq = [] := by
        rw [hS]; simp [Scheduler.enqueue, Deferred.new_empty, hq]
      exact bound_two_cycles hfa _ _ hbS v [] (by simpa using hSj) hSq
        (state_jobs_eta _ _ hSj)
    · intro us hcell
      have hSd : ((Deferred.new_empty s).2.heap d).val = none := by
        simp [Deferred.new_empty, Function.update_noteq hne, hcell]
      have hS : (Deferred.bind d f s).2 = _ :=
        Deferred.upon_of_empty d (.bind_outer s.next f) (Deferred.new_empty s).2 hSd
      have hSv : ((Deferred.bind d f s).2.heap d).val = none := by
        rw [hS]; simp [hSd]
      have hfill := deferred_fill_of_empty d v (Deferred.bind d f s).2 hSv
      have hb2 := bound_deferred_fill hbS d v hne
      rw [hfill] at hb2
      simp only [Result.state] at hb2
      refine ⟨_, _, hfill, rfl, ?_⟩
      refine bound_two_cycles hfa _ _ hb2 v us ?_ ?_ rfl
      · rw [hS]
        simp [Deferred.new_empty, Function.update_noteq hne, hcell, hj, Function.comp_def]
      · rw [hS]
        simp [Deferred.new_empty, hq]
  subst ht
  have hb : Bound false d s.next f (run_ops ops (Deferred.bind d f s).2) :=
    bound_run_ops hfa ops _ hav (bound_bind d f s hd hf)
  generalize run_ops ops (Deferred.bind d f s).2 = t at hb
  have hbi : (Cont.bind_inner s.next : Cont A T).target = some s.next := rfl
  have hbo : (Cont.bind_outer s.next f : Cont A T).target = some s.next := rfl
  have hmem : ∀ j, t.job_tokens s.next = [j] → j ∈ t.jobs := fun j hj =>
    List.mem_of_mem_filter (show j ∈ t.job_tokens s.next by rw [hj]; exact List.mem_singleton_self _)
  refine ⟨rfl, ?_, ?_, ?_, ?_, ?_⟩
  · intro hnone
    cases hb.stage with
    | waiting hp h1 h2 h3 h4 h5 =>
      have hw : Cont.bind_outer s.next f ∈ (t.heap d).handlers :=
        List.mem_of_mem_filter
          (show Cont.bind_outer s.next f ∈ t.handler_tokens s.next d by
            rw [h4]; exact List.mem_singleton_self _)
      refine ⟨h2, hw, h3, fun v => ⟨?_, ?_⟩⟩
      · rw [ivar_fill_of_empty d v t h1]
        simp only [Result.state]
        exact List.mem_append_right _ (List.mem_map.mpr ⟨_, hw, rfl⟩)
      · rw [deferred_fill_of_empty d v t h1]
        simp only [Result.state]
        exact List.mem_append_right _ (List.mem_map.mpr ⟨_, hw, rfl⟩)
    | ready hp v h1 h2 h3 h4 => rw [hnone] at h1; cases h1
    | applied v u h1 hu hc hi h2 h3 h4 h5 => rw [hnone] at h1; cases h1
    | resolving v u r h1 hu hc hi h2 h3 h4 => rw [hnone] at h1; cases h1
    | resolved v u r h1 hu hc hi h2 h3 h4 => rw [hnone] at h1; cases h1
  · intro v hv
    cases hb.stage with
    | waiting hp h1 h2 h3 h4 h5 => rw [hv] at h1; cases h1
    | ready hp v0 h1 h2 h3 h4 =>
      have hvv : v0 = v := Option.some.inj (h1.symm.trans hv)
      subst hvv
      refine Or.inl ⟨h2, h3, h4, fun t2 hr => ?_⟩
      exact bound_past_no_outer (bound_cycle_job hfa t hb _ (hmem _ h3) hbo t2 hr).1
    | applied v0 u h1 hu hc hi h2 h3 h4 h5 =>
      have hvv : v0 = v := Option.some.inj (h1.symm.trans hv)
      subst hvv
      have hpast : Bound true d s.next f t :=
        ⟨hb.source_lt, hb.result_lt, hb.not_submitted, hb.not_completed,
          .applied v0 u h1 hu hc hi h2 h3 h4 h5⟩
      refine Or.inr ⟨u, hu, hc, (bound_past_no_outer hpast).1, (bound_past_no_outer hpast).2,
        fun _ => ⟨h2, ?_, h3⟩, fun r hr => ?_⟩
      · exact List.mem_of_mem_filter
          (show Cont.bind_inner s.next ∈ t.handler_tokens s.next ((f v0).eval u).1 by
            rw [h4]; exact List.mem_singleton_self _)
      · rw [hi] at hr; cases hr
    | resolving v0 u r0 h1 hu hc hi h2 h3 h4 =>
      have hvv : v0 = v := Option.some.inj (h1.symm.trans hv)
      subst hvv
      have hpast : Bound true d s.next f t :=
        ⟨hb.source_lt, hb.result_lt, hb.not_submitted, hb.not_completed,
          .resolving v0 u r0 h1 hu hc hi h2 h3 h4⟩
      refine Or.inr ⟨u, hu, hc, (bound_past_no_outer hpast).1, (bound_past_no_outer hpast).2,
        fun hn => ?_, fun r hr => ?_⟩
      · rw [hi] at hn; cases hn
      · have hrr : r0 = r := Option.some.inj (hi.symm.trans hr)
        subst hrr
        refine ⟨Or.inr ⟨h2, h3, h4⟩, fun t2 hcyc => ?_⟩
        exact (bound_cycle_job hfa t hb _ (hmem _ h3) hbi t2 hcyc).2 rfl
    | resolved v0 u r0 h1 hu hc hi h2 h3 h4 =>
      have hvv : v0 = v := Option.some.inj (h1.symm.trans hv)
      subst hvv
      have hpast : Bound true d s.next f t :=
        ⟨hb.source_lt, hb.result_lt, hb.not_submitted, hb.not_completed,
          .resolved v0 u r0 h1 hu hc hi h2 h3 h4⟩
      refine Or.inr ⟨u, hu, hc, (bound_past_no_outer hpast).1, (bound_past_no_outer hpast).2,
        fun hn => ?_, fun r hr => ?_⟩
      · rw [hi] at hn; cases hn
      · have hrr : r0 = r := Option.some.inj (hi.symm.trans hr)
        subst hrr
        refine ⟨Or.inl ⟨h2, h3, h4⟩, fun t2 hcyc => ?_⟩
        have hg := do_cycle_grows t
        rw [hcyc] at hg
        exact hg.2 s.next hb.result_lt _ h2
  · intro j rest hj htg
    obtain ⟨t1, h1, _⟩ := bound_token_job hfa hb j rest hj htg
    exact ⟨t1, h1⟩
  · intro hq hben
    exact do_cycle_quiet_ok hfa t hb hq hben
  · exact hscen

/-- Witness of C3 on an already resolved source: `d` is pre-filled with 7, then
`d.bind(x => Deferred(x * 2))` and two cycles; the result holds 14. -/
theorem C3_bind_resolves_witness :
    (0 : CellId) < (Deferred.new_prefilled (.of 7) (State.init ([] : List Nat))).2.next ∧
    Fresh (Deferred.new_prefilled (.of 7) (State.init ([] : List Nat))).2.next
      (Deferred.new_prefilled (.of 7) (State.init ([] : List Nat))).2 ∧
    returns_allocated (A := List Nat)
      (Deferred.new_prefilled (.of 7) (State.init ([] : List Nat))).2.next double_prefilled ∧
    ((run_ops [.do_cycle, .do_cycle]
      (Deferred.bind 0 double_prefilled
        (Deferred.new_prefilled (.of 7) (State.init ([] : List Nat))).2).2).heap 1).val
      = some (.of 14) := by
  have hd : (0 : CellId) <
      (Deferred.new_prefilled (.of 7) (State.init ([] : List Nat))).2.next :=
    show (0 : Nat) < 1 by decide
  have hf : Fresh (Deferred.new_prefilled (.of 7) (State.init ([] : List Nat))).2.next
      (Deferred.new_prefilled (.of 7) (State.init ([] : List Nat)) : _ × State (List Nat) Nat).2 := by
    refine fresh_of_idle _ _ rfl (fun c => ?_) rfl rfl
    by_cases hc : c = 0
    · subst hc; rfl
    · simp [Deferred.new_prefilled, State.init, Function.update_noteq hc]
  have hfa : returns_allocated (A := List Nat)
      (Deferred.new_prefilled (.of 7) (State.init ([] : List Nat))).2.next double_prefilled :=
    fun _ u _ => Nat.lt_succ_self u.next
  have h := C3_bind_resolves
    (Deferred.new_prefilled (.of 7) (State.init ([] : List Nat))).2 0 double_prefilled
    [.do_cycle, .do_cycle] hd hf hfa (fun op hop => by
      simp only [List.mem_cons, List.mem_singleton, List.not_mem_nil, or_false] at hop
      rcases hop with rfl | rfl <;> trivial) _ rfl
  refine ⟨hd, hf, hfa, ?_⟩
  rcases h.2.2.1 (.of 7) rfl with ⟨he, _⟩ | ⟨u, hg, hc, _, _, _, hres⟩
  · exact Option.noConfusion (show (some (Val.of 14) : Option (Val Nat)) = none from he)
  · have hin : (((double_prefilled (.of 7)).eval u).2.heap
        ((double_prefilled (.of 7)).eval u).1).val = some (.of 14) := by
      simp [double_prefilled, Producer.eval, Deferred.new_prefilled, double_val]
    rcases (hres (.of 14) (hg.2 _ hc _ hin)).1 with ⟨hv, _⟩ | ⟨_, hj, _⟩
    · exact hv
    · exact List.noConfusion (show ([] : List (Job (List Nat) Nat)) = _ from hj)


/-! ## C5 -/

theorem cycles_until_idle_next (n : Nat) (s t : State A T) (h : s.jobs ≠ [])
    (hc : Scheduler.do_cycle s = .ok t) :
    Scheduler.cycles_until_idle (n + 1) s = Scheduler.cycles_until_idle n t := by
  cases hj : s.jobs with
  | nil => exact absurd hj h
  | cons j js => exact cycles_until_idle_step n s t j js hj hc

/-- Five cycles on `e2 = e1.map(g)`, `e1 = d.map(f)` with a callback `k` on `e2`, from
the state in which the callbacks `us` of `d` and the outer lambda of the first `map` are
queued with `v`. -/
theorem map_map_cycles (sa : State A T) (e1 e2 : CellId) (f g : Val T → Val T)
    (k : Val T → A → A) (v : Val T) (us : List (Val T → A → A)) (hq : sa.cq = [])
    (hj : sa.jobs = us.map (fun h => { f := Cont.user h, a := v })
      ++ [{ f := .bind_outer e1 (fun t => Producer.prefilled (f t)), a := v }])
    (h1 : sa.heap e1
      = { val := none, handlers := [.bind_outer e2 (fun t => Producer.prefilled (g t))] })
    (h2 : sa.heap e2 = { val := none, handlers := [.user k] })
    (hne : e1 ≠ e2) (hl1 : e1 < sa.next) (hl2 : e2 < sa.next) :
    ∃ ta, Scheduler.cycles_until_idle 5 sa = some (.ok ta) ∧ ta.jobs = [] ∧
      (ta.heap e2).val = some (g (f v)) ∧
      ta.app = k (g (f v)) (us.foldl (fun a h => h v a) sa.app) := by
  obtain ⟨jobs, pend, sq, cq, heap, next, app⟩ := sa
  simp only at hq hj h1 h2 hl1 hl2
  subst hq hj
  have n1 : e1 ≠ next := Nat.ne_of_lt hl1
  have n2 : e2 ≠ next := Nat.ne_of_lt hl2
  have n3 : e2 ≠ next + 1 := Nat.ne_of_lt (Nat.lt_succ_of_lt hl2)
  rw [cycles_until_idle_next 4 _ _ (by simp)
    (cycle_bind_outer_prefilled _ us e1 _ v (f v) rfl rfl rfl)]
  rw [cycles_until_idle_step 3 _ _ _ _ rfl
    (cycle_bind_inner _ e1 (f v)
      [Cont.bind_outer e2 fun t => Producer.prefilled (g t)] rfl rfl
      (by simp [Function.update_noteq n1, h1]))]
  simp only [List.map_cons, List.map_nil]
  rw [cycles_until_idle_step 2 _ _ _ _ rfl
    (cycle_bind_outer_prefilled _ [] e2 _ (f v) (g (f v)) rfl rfl rfl)]
  simp only [List.foldl_nil, List.map_nil, List.nil_append]
  rw [cycles_until_idle_step 1 _ _ _ _ rfl
    (cycle_bind_inner _ e2 (g (f v)) [Cont.user k] rfl rfl
      (by simp [Function.update_noteq n2, Function.update_noteq n3,
        Function.update_noteq hne.symm, h2]))]
  simp only [List.map_cons, List.map_nil]
  rw [cycles_until_idle_step 0 _ _ _ _ rfl (cycle_user _ k (g (f v)) rfl rfl)]
  rw [cycles_until_idle_done _ _ rfl]
  simp

/-- Three cycles on `e = d.map(h)` with a callback `k` on `e`, from the state in which
the callbacks `us` of `d` and the outer lambda of the `map` are queued with `v`. -/
theorem map_cycles (sb : State A T) (e : CellId) (h : Val T → Val T)
    (k : Val T → A → A) (v : Val T) (us : List (Val T → A → A)) (hq : sb.cq = [])
    (hj : sb.jobs = us.map (fun h => { f := Cont.user h, a := v })
      ++ [{ f := .bind_outer e (fun t => Producer.prefilled (h t)), a := v }])
    (h1 : sb.heap e = { val := none, handlers := [.user k] }) (hl : e < sb.next) :
    ∃ tb, Scheduler.cycles_until_idle 3 sb = some (.ok tb) ∧ tb.jobs = [] ∧
      (tb.heap e).val = some (h v) ∧
      tb.app = k (h v) (us.foldl (fun a h => h v a) sb.app) := by
  obtain ⟨jobs, pend, sq, cq, heap, next, app⟩ := sb
  simp only at hq hj h1 hl
  subst hq hj
  have n1 : e ≠ next := Nat.ne_of_lt hl
  rw [cycles_until_idle_next 2 _ _ (by simp)
    (cycle_bind_outer_prefilled _ us e _ v (h v) rfl rfl rfl)]
  rw [cycles_until_idle_step 1 _ _ _ _ rfl
    (cycle_bind_inner _ e (h v) [Cont.user k] rfl rfl
      (by simp [Function.update_noteq n1, h1]))]
  simp only [List.map_cons, List.map_nil]
  rw [cycles_until_idle_step 0 _ _ _ _ rfl (cycle_user _ k (h v) rfl rfl)]
  rw [cycles_until_idle_done _ _ rfl]
  simp


theorem map_map_full (s : State A T) (d : CellId) (f g : Val T → Val T)
    (k : Val T → A → A) (v : Val T) (hd : d < s.next) (hv : (s.heap d).val = some v)
    (hj : s.jobs = []) (hq : s.cq = []) :
    ∃ ta, Scheduler.cycles_until_idle 5
        (Deferred.upon (s.next + 1) (.user k)
          (Deferred.map s.next g (Deferred.map d f s).2).2) = some (.ok ta) ∧
      ta.jobs = [] ∧ (ta.heap (s.next + 1)).val = some (g (f v)) ∧
      ta.app = k (g (f v)) s.app := by
  obtain ⟨jobs, pend, sq, cq, heap, next, app⟩ := s
  simp only at hd hv hj hq
  subst hj hq
  have hne : d ≠ next := Nat.ne_of_lt hd
  have e1 : next + 1 ≠ next := Nat.succ_ne_self next
  simp only [Deferred.map, Deferred.bind, Deferred.new_empty]
  rw [Deferred.upon_of_full d _ v _ (by simp [Function.update_noteq hne, hv])]
  rw [Deferred.upon_of_empty next _ _
    (by simp [Scheduler.enqueue, Function.update_noteq e1.symm])]
  rw [Deferred.upon_of_empty (next + 1) _ _
    (by simp [Scheduler.enqueue, Function.update_noteq e1])]
  refine map_map_cycles _ next (next + 1) f g k v [] rfl ?_ ?_ ?_ e1.symm ?_ ?_
  · simp [Scheduler.enqueue]
  · simp [Scheduler.enqueue, Function.update_noteq e1, Function.update_noteq e1.symm]
  · simp [Scheduler.enqueue, Function.update_noteq e1, Function.update_noteq e1.symm]
  · exact Nat.lt_succ_of_lt (Nat.lt_succ_self next)
  · exact Nat.lt_succ_self (next + 1)

theorem map_map_empty (s : State A T) (d : CellId) (f g : Val T → Val T)
    (k : Val T → A → A) (v : Val T) (us : List (Val T → A → A)) (hd : d < s.next)
    (hcell : s.heap d = { val := none, handlers := us.map Cont.user })
    (hj : s.jobs = []) (hq : s.cq = []) :
    ∃ sa, Deferred.fill d v
        (Deferred.upon (s.next + 1) (.user k)
          (Deferred.map s.next g (Deferred.map d f s).2).2) = .ok sa ∧
      ∃ ta, Scheduler.cycles_until_idle 5 sa = some (.ok ta) ∧
        ta.jobs = [] ∧ (ta.heap (s.next + 1)).val = some (g (f v)) ∧
        ta.app = k (g (f v)) (us.foldl (fun a h => h v a) s.app) := by
  obtain ⟨jobs, pend, sq, cq, heap, next, app⟩ := s
  simp only at hd hcell hj hq
  subst hj hq
  have hne : d ≠ next := Nat.ne_of_lt hd
  have hne1 : d ≠ next + 1 := Nat.ne_of_lt (Nat.lt_succ_of_lt hd)
  have e1 : next + 1 ≠ next := Nat.succ_ne_self next
  simp only [Deferred.map, Deferred.bind, Deferred.new_empty]
  rw [Deferred.upon_of_empty d _ _ (by simp [Function.update_noteq hne, hcell])]
  rw [Deferred.upon_of_empty next _ _
    (by simp [Function.update_noteq e1.symm, Function.update_noteq hne.symm])]
  rw [Deferred.upon_of_empty (next + 1) _ _
    (by simp [Function.update_noteq e1, Function.update_noteq hne1.symm])]
  rw [deferred_fill_of_empty d v _
    (by simp [Function.update_noteq hne, Function.update_noteq hne1, hcell])]
  refine ⟨_, rfl, ?_⟩
  refine map_map_cycles _ next (next + 1) f g k v us rfl ?_ ?_ ?_ e1.symm ?_ ?_
  · simp [Function.update_noteq hne, Function.update_noteq hne1, hcell, Function.comp_def]
  · simp [Function.update_noteq e1, Function.update_noteq e1.symm,
      Function.update_noteq hne.symm]
  · simp [Function.update_noteq e1, Function.update_noteq e1.symm,
      Function.update_noteq hne1.symm]
  · exact Nat.lt_succ_of_lt (Nat.lt_succ_self next)
  · exact Nat.lt_succ_self (next + 1)

theorem map_full (s : State A T) (d : CellId) (h : Val T → Val T)
    (k : Val T → A → A) (v : Val T) (hd : d < s.next) (hv : (s.heap d).val = some v)
    (hj : s.jobs = []) (hq : s.cq = []) :
    ∃ tb, Scheduler.cycles_until_idle 3
        (Deferred.upon s.next (.user k) (Deferred.map d h s).2) = some (.ok tb) ∧
      tb.jobs = [] ∧ (tb.heap s.next).val = some (h v) ∧ tb.app = k (h v) s.app := by
  obtain ⟨jobs, pend, sq, cq, heap, next, app⟩ := s
  simp only at hd hv hj hq
  subst hj hq
  have hne : d ≠ next := Nat.ne_of_lt hd
  simp only [Deferred.map, Deferred.bind, Deferred.new_empty]
  rw [Deferred.upon_of_full d _ v _ (by simp [Function.update_noteq hne, hv])]
  rw [Deferred.upon_of_empty next _ _ (by simp [Scheduler.enqueue])]
  refine map_cycles _ next h k v [] rfl ?_ ?_ ?_
  · simp [Scheduler.enqueue]
  · simp [Scheduler.enqueue]
  · simp [Scheduler.enqueue]

theorem map_empty (s : State A T) (d : CellId) (h : Val T → Val T)
    (k : Val T → A → A) (v : Val T) (us : List (Val T → A → A)) (hd : d < s.next)
    (hcell : s.heap d = { val := none, handlers := us.map Cont.user })
    (hj : s.jobs = []) (hq : s.cq = []) :
    ∃ sb, Deferred.fill d v
        (Deferred.upon s.next (.user k) (Deferred.map d h s).2) = .ok sb ∧
      ∃ tb, Scheduler.cycles_until_idle 3 sb = some (.ok tb) ∧
        tb.jobs = [] ∧ (tb.heap s.next).val = some (h v) ∧
        tb.app = k (h v) (us.foldl (fun a h => h v a) s.app) := by
  obtain ⟨jobs, pend, sq, cq, heap, next, app⟩ := s
  simp only at hd hcell hj hq
  subst hj hq
  have hne : d ≠ next := Nat.ne_of_lt hd
  simp only [Deferred.map, Deferred.bind, Deferred.new_empty]
  rw [Deferred.upon_of_empty d _ _ (by simp [Function.update_noteq hne, hcell])]
  rw [Deferred.upon_of_empty next _ _ (by simp [Function.update_noteq hne.symm])]
  rw [deferred_fill_of_empty d v _ (by simp [Function.update_noteq hne, hcell])]
  refine ⟨_, rfl, ?_⟩
  refine map_cycles _ next h k v us rfl ?_ ?_ ?_
  · simp [Function.update_noteq hne, hcell, Function.comp_def]
  · simp [Function.update_noteq hne.symm]
  · simp


theorem map_returns_allocated (e : CellId) (h : Val T → Val T) :
    returns_allocated (A := A) e (fun t => Producer.prefilled (h t)) :=
  fun _ u _ => Nat.lt_succ_self u.next

/-- Once the queue is drained, the result of `d.map(h)` on a source holding `v` holds
`h v`. -/
theorem bound_map_drained {p : Bool} {d e : CellId} {h : Val T → Val T} {s : State A T}
    (hb : Bound p d e (fun t => Producer.prefilled (h t)) s) (hj : s.jobs = []) (v : Val T)
    (hv : (s.heap d).val = some v) : (s.heap e).val = some (h v) := by
  have hnil : s.job_tokens e = [] := by simp [State.job_tokens, hj]
  have hpre : ∀ (x : Val T) (u : State A T),
      (((Producer.prefilled x : Producer A T).eval u).2.heap
        ((Producer.prefilled x : Producer A T).eval u).1).val = some x := by
    intro x u
    simp [Producer.eval, Deferred.new_prefilled]
  cases hb.stage with
  | waiting hp h1 h2 h3 h4 h5 => rw [hv] at h1; cases h1
  | ready hp v0 h1 h2 h3 h4 => rw [hnil] at h3; cases h3
  | applied v0 u h1 hu hc hi h2 h3 h4 h5 =>
    have := hu.2 _ hc _ (hpre (h v0) u)
    rw [hi] at this
    cases this
  | resolving v0 u r h1 hu hc hi h2 h3 h4 => rw [hnil] at h3; cases h3
  | resolved v0 u r h1 hu hc hi h2 h3 h4 =>
    have hvv : v0 = v := Option.some.inj (h1.symm.trans hv)
    subst hvv
    have := hu.2 _ hc _ (hpre (h v0) u)
    rw [hi] at this
    rw [h2, this]

theorem map_map_bound (s : State A T) (d : CellId) (f g : Val T → Val T)
    (hd : d < s.next) (hf1 : Fresh s.next s) (hf2 : Fresh (s.next + 1) s) :
    Bound false d s.next (fun t => Producer.prefilled (f t))
      (Deferred.map s.next g (Deferred.map d f s).2).2 ∧
    Bound false s.next (s.next + 1) (fun t => Producer.prefilled (g t))
      (Deferred.map s.next g (Deferred.map d f s).2).2 := by
  have hnx : (Deferred.map d f s).2.next = s.next + 1 :=
    bind_next d (fun t => Producer.prefilled (f t)) s
  have hb1 : Bound false d s.next (fun t => Producer.prefilled (f t)) (Deferred.map d f s).2 :=
    bound_bind d _ s hd hf1
  have hfr : Fresh (Deferred.map d f s).2.next (Deferred.map d f s).2 := by
    rw [hnx]
    refine fresh_neutral hf2 (neutral_bind (s.next + 1) d _ s (Nat.succ_ne_self _)) ?_
    show (Deferred.map d f s).2.next ≤ s.next + 1
    rw [hnx]
  have hb2 := bound_bind s.next (fun t => Producer.prefilled (g t)) (Deferred.map d f s).2
    (by rw [hnx]; exact Nat.lt_succ_self _) hfr
  rw [hnx] at hb2
  refine ⟨bound_neutral hb1 (neutral_bind s.next s.next _ _ ?_), hb2⟩
  rw [hnx]
  exact (Nat.succ_ne_self _).symm

/-- C5: `d.map(f).map(g)` against `d.map(x => g(f(x)))`, for every allocated handle `d`,
resolved or not, in every state in which nothing yet refers to the cells about to be
allocated.

* In every run of steps (application calls, cycles, kernel completions) in which
  nobody else fills the results: whenever the job queue is empty and `d` holds `v`, the
  result of `d.map(f).map(g)` holds `g (f v)`, and so does the result of
  `d.map(x => g(f(x)))` in every such run of its own.
* On a reactor with nothing else to do, with a callback `k` registered by `upon` on the
  result: if `d` already holds `v`, cycles run until the job queue is empty end with
  either result full with `g (f v)` and with `k` called exactly once, on `g (f v)` (the
  application state is `k (g (f v))` of the initial one), the same state for both; if
  `d` is unfilled with application callbacks waiting on it, the same holds after
  `d.fill(v)`, the callbacks of `d` having run first.  The two differ only in the number
  of cycles (5 against 3).
* A callback registered on a result that is already full is queued with its value and
  called once, by the next cycle. -/
theorem C5_map_map_equiv (s : State A T) (d : CellId) (f g : Val T → Val T)
    (hd : d < s.next) (hf1 : Fresh s.next s) (hf2 : Fresh (s.next + 1) s) :
    (Deferred.map d f s).1 = s.next ∧
    (Deferred.map s.next g (Deferred.map d f s).2).1 = s.next + 1 ∧
    (Deferred.map d (fun x => g (f x)) s).1 = s.next ∧
    (∀ (ops : List (Op A T)) (v : Val T),
      (∀ op ∈ ops, op.avoids s.next ∧ op.avoids (s.next + 1)) →
      ((run_ops ops (Deferred.map s.next g (Deferred.map d f s).2).2).heap d).val = some v →
      (run_ops ops (Deferred.map s.next g (Deferred.map d f s).2).2).jobs = [] →
      ((run_ops ops (Deferred.map s.next g (Deferred.map d f s).2).2).heap (s.next + 1)).val
        = some (g (f v))) ∧
    (∀ (ops : List (Op A T)) (v : Val T),
      (∀ op ∈ ops, op.avoids s.next) →
      ((run_ops ops (Deferred.map d (fun x => g (f x)) s).2).heap d).val = some v →
      (run_ops ops (Deferred.map d (fun x => g (f x)) s).2).jobs = [] →
      ((run_ops ops (Deferred.map d (fun x => g (f x)) s).2).heap s.next).val
        = some (g (f v))) ∧
    (s.jobs = [] → s.cq = [] → ∀ (k : Val T → A → A) (v : Val T),
      ((s.heap d).val = some v →
        ∃ ta tb,
          Scheduler.cycles_until_idle 5
            (Deferred.upon (s.next + 1) (.user k)
              (Deferred.map s.next g (Deferred.map d f s).2).2) = some (.ok ta) ∧
          Scheduler.cycles_until_idle 3
            (Deferred.upon s.next (.user k) (Deferred.map d (fun x => g (f x)) s).2)
              = some (.ok tb) ∧
          ta.jobs = [] ∧ tb.jobs = [] ∧
          (ta.heap (s.next + 1)).val = some (g (f v)) ∧
          (tb.heap s.next).val = some (g (f v)) ∧
          ta.app = k (g (f v)) s.app ∧ tb.app = ta.app) ∧
      (∀ us : List (Val T → A → A),
        s.heap d = { val := none, handlers := us.map Cont.user } →
        ∃ sa sb ta tb,
          Deferred.fill d v
            (Deferred.upon (s.next + 1) (.user k)
              (Deferred.map s.next g (Deferred.map d f s).2).2) = .ok sa ∧
          Deferred.fill d v
            (Deferred.upon s.next (.user k) (Deferred.map d (fun x => g (f x)) s).2)
              = .ok sb ∧
          Scheduler.cycles_until_idle 5 sa = some (.ok ta) ∧
          Scheduler.cycles_until_idle 3 sb = some (.ok tb) ∧
          ta.jobs = [] ∧ tb.jobs = [] ∧
          (ta.heap (s.next + 1)).val = some (g (f v)) ∧
          (tb.heap s.next).val = some (g (f v)) ∧
          ta.app = k (g (f v)) (us.foldl (fun a h => h v a) s.app) ∧ tb.app = ta.app)) ∧
    (∀ (t : State A T) (e : CellId) (x : Val T) (k : Val T → A → A),
      t.jobs = [] → t.cq = [] → (t.heap e).val = some x →
      Scheduler.do_cycle (Deferred.upon e (.user k) t)
        = .ok { t with jobs := [], app := k x t.app }) := by
  have hnx : (Deferred.map d f s).2.next = s.next + 1 :=
    bind_next d (fun t => Producer.prefilled (f t)) s
  refine ⟨rfl, ?_, rfl, ?_, ?_, ?_, ?_⟩
  · show (Deferred.map d f s).2.next = s.next + 1
    exact hnx
  · intro ops v hav hv hj
    obtain ⟨hb1, hb2⟩ := map_map_bound s d f g hd hf1 hf2
    have h1 := bound_run_ops (map_returns_allocated s.next f) ops _
      (fun op hop => (hav op hop).1) hb1
    have h2 := bound_run_ops (map_returns_allocated (s.next + 1) g) ops _
      (fun op hop => (hav op hop).2) hb2
    exact bound_map_drained h2 hj (f v) (bound_map_drained h1 hj v hv)
  · intro ops v hav hv hj
    have hb : Bound false d s.next (fun t => Producer.prefilled (g (f t)))
        (Deferred.map d (fun x => g (f x)) s).2 := bound_bind d _ s hd hf1
    have h1 := bound_run_ops (map_returns_allocated s.next (fun x => g (f x))) ops _ hav hb
    exact bound_map_drained h1 hj v hv
  · intro hj hq k v
    constructor
    · intro hv
      obtain ⟨ta, hta, hja, hva, haa⟩ := map_map_full s d f g k v hd hv hj hq
      obtain ⟨tb, htb, hjb, hvb, hab⟩ := map_full s d (fun x => g (f x)) k v hd hv hj hq
      exact ⟨ta, tb, hta, htb, hja, hjb, hva, hvb, haa, hab.trans haa.symm⟩
    · intro us hcell
      obtain ⟨sa, hsa, ta, hta, hja, hva, haa⟩ := map_map_empty s d f g k v us hd hcell hj hq
      obtain ⟨sb, hsb, tb, htb, hjb, hvb, hab⟩ :=
        map_empty s d (fun x => g (f x)) k v us hd hcell hj hq
      exact ⟨sa, sb, ta, tb, hsa, hsb, hta, htb, hja, hjb, hva, hvb, haa, hab.trans haa.symm⟩
  · intro t e x k hj hq hx
    rw [Deferred.upon_of_full e _ x t hx]
    have hc := cycle_user (Scheduler.enqueue (.user k) x t) k x hq
      (by simp [Scheduler.enqueue, hj])
    exact hc

/-- Witness of C5 on an already resolved source: `d` is pre-filled with 7; doubling twice
against quadrupling once; both results hold 28 and both runs record 28 once. -/
theorem C5_map_map_equiv_witness :
    (0 : CellId) < (Deferred.new_prefilled (.of 7) (State.init ([] : List Nat))).2.next ∧
    Fresh 1 (Deferred.new_prefilled (.of 7) (State.init ([] : List Nat))).2 ∧
    Fresh 2 (Deferred.new_prefilled (.of 7) (State.init ([] : List Nat))).2 ∧
    ∃ ta tb : State (List Nat) Nat,
      Scheduler.cycles_until_idle 5
        (Deferred.upon 2 (.user record_value)
          (Deferred.map 1 double_val
            (Deferred.map 0 double_val
              (Deferred.new_prefilled (.of 7) (State.init [])).2).2).2) = some (.ok ta) ∧
      Scheduler.cycles_until_idle 3
        (Deferred.upon 1 (.user record_value)
          (Deferred.map 0 (fun x => double_val (double_val x))
            (Deferred.new_prefilled (.of 7) (State.init [])).2).2) = some (.ok tb) ∧
      (ta.heap 2).val = some (.of 28) ∧ (tb.heap 1).val = some (.of 28) ∧
      ta.app = [28] ∧ tb.app = [28] := by
  have hh : ∀ c, (((Deferred.new_prefilled (.of 7) (State.init ([] : List Nat))).2 :
      State (List Nat) Nat).heap c).handlers = [] := by
    intro c
    by_cases hc : c = 0
    · subst hc; rfl
    · simp [Deferred.new_prefilled, State.init, Function.update_noteq hc]
  have hd : (0 : CellId) <
      (Deferred.new_prefilled (.of 7) (State.init ([] : List Nat))).2.next :=
    show (0 : Nat) < 1 by decide
  have hf1 : Fresh 1 ((Deferred.new_prefilled (.of 7) (State.init ([] : List Nat))).2 :
      State (List Nat) Nat) := fresh_of_idle _ _ rfl hh rfl rfl
  have hf2 : Fresh 2 ((Deferred.new_prefilled (.of 7) (State.init ([] : List Nat))).2 :
      State (List Nat) Nat) := fresh_of_idle _ _ rfl hh rfl rfl
  obtain ⟨ta, tb, hta, htb, _, _, hva, hvb, haa, hab⟩ :=
    ((C5_map_map_equiv (Deferred.new_prefilled (.of 7) (State.init ([] : List Nat))).2 0
      double_val double_val hd hf1 hf2).2.2.2.2.2.1 rfl rfl record_value (.of 7)).1 rfl
  exact ⟨hd, hf1, hf2, ta, tb, hta, htb, hva, hvb, haa, hab.trans haa⟩

end AsyncUring
